import Mathlib

/-!
# 2D particle simulator: force kernel, partitioner, step executor and driver loop

A shallow embedding of `src/c/physics.c` (`compute_forces_thread`, `step_simulation`) and
of the step-then-swap loop of `src/c/main.c`.  `src/cpp/basic/Physics.cpp` is embedded a
second time, statement by statement (`step_simulation_cpp`), and proved equal to the C
version.  Also embedded: the argument validation of `main.c` (`atoi`) and `main.cpp`
(`std::stoi`), the draw condition of `main.cpp`, and `init_bodies` of `init.c`.

* The kernel is embedded once, over an arbitrary carrier `α` with the operations it uses
  (`Scalar α`), and read over three carriers.  What is proved for every `Scalar α` holds
  whatever the arithmetic does.  `Double` is the type `double` itself: IEEE 754 binary64
  with rounding to nearest, ties to even, signed zeros, subnormal numbers, infinities and
  one NaN; a finite number is kept as its multiple of `2^-1074`, and every operation
  computes the exact result in integers and rounds it once.  `Num K` is exact arithmetic
  over an ordered field `K`, in which a division by zero and the root of a negative
  number yield `Num.nan`: it has no rounding, underflow or overflow, and stands for what
  the code computes when no operation rounds, not for `double`.
* `int` is `Int`.  C division and remainder truncate, hence `Int.tdiv` and `Int.tmod`.
  Every `int` the code computes lies between `min n 0` and `max n 1`, so no operation
  overflows.
* Memory is one heap of `body_t` records addressed by `Int`; a `body_t*` is the address
  of its first record, and `p[i]` is the record at address `p + i`.  The five field stores
  to `next[i]` are one record store.  The heap also keeps a ghost log with the address of
  every record store, in program order.
* Thread creation is taken to succeed.  Worker threads are run to completion one after
  the other, in creation order; for buffers that do not overlap any other order leaves
  the same records.
-/

namespace NBody

/-- The operations on `double` used by the kernel. -/
class Scalar (α : Type) extends Zero α, Add α, Sub α, Mul α, Div α where
  /-- The `sqrt` of `math.h`. -/
  sqrt : α → α

/-- The record `body_t` of `physics.h`. -/
structure body_t (α : Type) where
  x : α
  y : α
  vx : α
  vy : α
  m : α
deriving DecidableEq

/-- The record `thread_data_t` of `physics.h`; pointers are heap addresses. -/
structure thread_data_t (α : Type) where
  current : Int
  next : Int
  n : Int
  dt : α
  G : α
  softening : α
  start_idx : Int
  end_idx : Int

/-- The heap: the record stored at every address, and the ghost log of the addresses
written so far (one entry per stored record, oldest first). -/
structure Heap (α : Type) where
  cell : Int → body_t α
  log : List Int

/-- Store one record: `p[0] = b` for the address `p`. -/
def Heap.store {α : Type} (h : Heap α) (p : Int) (b : body_t α) : Heap α :=
  { cell := fun a => if a = p then b else h.cell a, log := h.log ++ [p] }

/-- The buffer seen through the pointer `p`: index `i` is the record at address `p + i`. -/
def Heap.view {α : Type} (h : Heap α) (p : Int) : Int → body_t α :=
  fun i => h.cell (p + i)

/-- Run `body i` for `i = lo, lo + 1, ...`, `k` times. -/
def forRange {σ : Type} (body : Int → σ → σ) : Nat → Int → σ → σ
  | 0, _, s => s
  | k + 1, i, s => forRange body k (i + 1) (body i s)

/-- The loop `for (int i = lo; i < hi; i++) s = body(i, s);`. -/
def forLoop {σ : Type} (lo hi : Int) (body : Int → σ → σ) (s : σ) : σ :=
  forRange body (hi - lo).toNat lo s

/-- The two clamps at the top of `step_simulation` (physics.c lines 81-86). -/
def clamp_threads (n num_threads : Int) : Int :=
  let num_threads := if num_threads > n then n else num_threads
  if num_threads < 1 then 1 else num_threads

/-- One iteration of the loop over `t` (physics.c lines 97-114): the loop state is
`start_idx` and the array `thread_data` filled so far. -/
def spawn {α : Type} (current next n : Int) (dt G softening : α) (bodies_per_thread remainder : Int)
    (t : Int) (s : Int × List (thread_data_t α)) : Int × List (thread_data_t α) :=
  let start_idx := s.1
  let end_idx := start_idx + bodies_per_thread + (if t < remainder then 1 else 0)
  (end_idx, s.2 ++ [{ current := current, next := next, n := n, dt := dt, G := G,
                      softening := softening, start_idx := start_idx, end_idx := end_idx }])

/-- The array `thread_data` that `step_simulation` builds (physics.c lines 81-114). -/
def thread_data {α : Type} (current next n : Int) (dt G softening : α) (num_threads : Int) :
    List (thread_data_t α) :=
  let num_threads := clamp_threads n num_threads
  let bodies_per_thread := Int.tdiv n num_threads
  let remainder := Int.tmod n num_threads
  (forLoop 0 num_threads
    (spawn current next n dt G softening bodies_per_thread remainder) (0, [])).2

/-- The first index of worker `t` when each worker gets `q` indices and the first `r`
workers one more. -/
def startOf (q r t : Int) : Int := t * q + min t r

/-- The record of worker `t` in closed form. -/
def dataOf {α : Type} (current next n : Int) (dt G softening : α) (q r : Int) (t : Nat) :
    thread_data_t α :=
  { current := current, next := next, n := n, dt := dt, G := G, softening := softening,
    start_idx := startOf q r t, end_idx := startOf q r (t + 1) }

/-- The record `d` is a worker of the step with the given buffers and parameters, and its
range lies in `[0, n)`. -/
def worker_of {α : Type} (current next n : Int) (dt G softening : α) (d : thread_data_t α) : Prop :=
  d.current = current ∧ d.next = next ∧ d.n = n ∧ d.dt = dt ∧ d.G = G
    ∧ d.softening = softening ∧ 0 ≤ d.start_idx ∧ d.end_idx ≤ n

section Kernel

variable {α : Type} [Scalar α]

/-- One iteration of the loop over `j` (physics.c lines 30-53): the pair `(Fx, Fy)` after
body `j` has been taken into account. -/
def accumulate (current : Int → body_t α) (i : Int) (G softening m_i : α)
    (j : Int) (F : α × α) : α × α :=
  if j = i then F
  else
    let dx := (current j).x - (current i).x
    let dy := (current j).y - (current i).y
    let dist2 := dx * dx + dy * dy + softening * softening
    let dist := Scalar.sqrt dist2
    let m_j := (current j).m
    let F_mag := G * m_i * m_j / dist2
    (F.1 + F_mag * (dx / dist), F.2 + F_mag * (dy / dist))

/-- The body of the loop over `i` (physics.c lines 18-72) up to the stores: the record
that is written to `next[i]`, computed from the buffer `current`. -/
def kernel (current : Int → body_t α) (n : Int) (dt G softening : α) (i : Int) : body_t α :=
  let m_i := (current i).m
  let vx_old := (current i).vx
  let vy_old := (current i).vy
  let x_old := (current i).x
  let y_old := (current i).y
  let F := forLoop 0 n (accumulate current i G softening m_i) (0, 0)
  let ax := F.1 / m_i
  let ay := F.2 / m_i
  let vx_new := vx_old + ax * dt
  let vy_new := vy_old + ay * dt
  let x_new := x_old + vx_new * dt
  let y_new := y_old + vy_new * dt
  { x := x_new, y := y_new, vx := vx_new, vy := vy_new, m := m_i }

/-- The thread function `compute_forces_thread` (physics.c lines 7-76): for every `i` of
its range it reads `current` from the heap and stores the new record at `next[i]`. -/
def compute_forces_thread (data : thread_data_t α) (h : Heap α) : Heap α :=
  forLoop data.start_idx data.end_idx
    (fun i h => h.store (data.next + i)
      (kernel (h.view data.current) data.n data.dt data.G data.softening i)) h

/-- The function `step_simulation` (physics.c lines 79-119): every worker of `thread_data`
runs `compute_forces_thread`; the function returns when all have finished. -/
def step_simulation (h : Heap α) (current next n : Int) (dt G softening : α)
    (num_threads : Int) : Heap α :=
  (thread_data current next n dt G softening num_threads).foldl
    (fun h data => compute_forces_thread data h) h

/-- The state of the driver between two steps: the heap and the two buffer pointers. -/
structure Driver (α : Type) where
  heap : Heap α
  current : Int
  next : Int

/-- One iteration of the driver loop (main.c lines 52-58): step, then swap the pointers. -/
def step_and_swap (n : Int) (dt G softening : α) (num_threads : Int) (d : Driver α) :
    Driver α :=
  { heap := step_simulation d.heap d.current d.next n dt G softening num_threads,
    current := d.next,
    next := d.current }

/-- The driver loop `for (int step = 0; step < N_STEPS; step++)` (main.c lines 51-59). -/
def run (N_STEPS n : Int) (dt G softening : α) (num_threads : Int) (d : Driver α) :
    Driver α :=
  forLoop 0 N_STEPS (fun _ d => step_and_swap n dt G softening num_threads d) d

/-- The loop body of `compute_forces_thread` for the given buffers and parameters. -/
def iteration (current next n : Int) (dt G softening : α) (i : Int) (h : Heap α) : Heap α :=
  h.store (next + i) (kernel (h.view current) n dt G softening i)

/-- The heap once the records `lo ≤ i < lo + k` of `next` hold the kernel's results computed
from the buffer `current` of `h`. -/
def written (h : Heap α) (current next n : Int) (dt G softening : α) (lo : Int) (k : Nat) :
    Heap α :=
  { cell := fun a => if next + lo ≤ a ∧ a < next + lo + k
      then kernel (h.view current) n dt G softening (a - next) else h.cell a,
    log := h.log ++ (List.range k).map (fun j : Nat => next + lo + j) }

/-- The step as the specification words it: the per-body kernel applied to
`i = 0, ..., n - 1` in order, each result stored to `next[i]`. -/
def sequential_step (h : Heap α) (current next n : Int) (dt G softening : α) : Heap α :=
  forLoop 0 n (fun i h => h.store (next + i) (kernel (h.view current) n dt G softening i)) h

end Kernel

/-- The index permutation that exchanges `a` and `b`. -/
def exchange (a b i : Int) : Int := if i = a then b else if i = b then a else i

section Exact

/-- A number of exact arithmetic over `K`, or `nan`: the result of an operation that exact
arithmetic leaves undefined (a division by zero, the root of a negative number) and of
every operation on such a result. -/
inductive Num (K : Type) where
  | val (a : K)
  | nan
deriving DecidableEq

/-- A square root function on `K`. -/
class HasSqrt (K : Type) where
  /-- The root of a non-negative number. -/
  sqrt : K → K

/-- On the rationals: the root of a square of a rational, and else some approximation. -/
instance : HasSqrt ℚ := ⟨Rat.sqrt⟩

variable {K : Type} [LinearOrderedField K] [HasSqrt K]

/-- Sum. -/
def Num.add : Num K → Num K → Num K
  | .val a, .val b => .val (a + b)
  | _, _ => .nan

/-- Difference. -/
def Num.sub : Num K → Num K → Num K
  | .val a, .val b => .val (a - b)
  | _, _ => .nan

/-- Product. -/
def Num.mul : Num K → Num K → Num K
  | .val a, .val b => .val (a * b)
  | _, _ => .nan

/-- Quotient; undefined when the divisor is zero. -/
def Num.div : Num K → Num K → Num K
  | .val a, .val b => if b = 0 then .nan else .val (a / b)
  | _, _ => .nan

/-- Square root; undefined for a negative number. -/
def Num.sqrt : Num K → Num K
  | .val a => if a < 0 then .nan else .val (HasSqrt.sqrt a)
  | .nan => .nan

/-- Exact arithmetic as a carrier of the kernel: what the code computes when no operation
rounds. -/
instance : Scalar (Num K) where
  zero := .val 0
  add := Num.add
  sub := Num.sub
  mul := Num.mul
  div := Num.div
  sqrt := Num.sqrt

/-- Body `q` is the mirror image of body `p` about the centre `(cx, cy)`: its position is
the reflection of the position of `p` in the centre, its velocity is the opposite of the
velocity of `p`, and the masses are equal. -/
def mirrored (cx cy : K) (p q : body_t (Num K)) : Prop :=
  q.x = .val (cx + cx) - p.x ∧ q.y = .val (cy + cy) - p.y
    ∧ q.vx = 0 - p.vx ∧ q.vy = 0 - p.vy ∧ q.m = p.m

end Exact

section DoubleDefs

/-- A value of the type `double` (IEEE 754 binary64).  Every finite `double` is a whole
multiple of `2^-1074`, the least positive `double`: `fin neg k` is the number
`k * 2^-1074`, taken negative when `neg` holds, so that `fin true 0` is `-0.0`.  The
values of `double` are the `fin neg k` in which `k` has at most 53 significant bits and
`k < 2^2098` (`Double.isValue`), the two infinities `inf neg`, and `nan` (all NaNs are one
value).  The operations below return values of `double` only. -/
inductive Double where
  | fin (neg : Bool) (k : Nat)
  | inf (neg : Bool)
  | nan
deriving DecidableEq

/-- Bisection for the position of the leading bit of `n`: the steps are
`2^(b-1), ..., 2, 1`, and `acc` is the greatest position found so far. -/
def ilog2_loop : Nat → Nat → Nat → Nat
  | 0, _, acc => acc
  | b + 1, n, acc =>
    if n >>> (acc + 1 <<< b) = 0 then ilog2_loop b n acc else ilog2_loop b n (acc + 1 <<< b)

/-- The number of binary digits of `n` (0 for 0).  The bisection finds it for every
`n < 2^8192`; its result is checked, and the definition falls back on `Nat.log2`
otherwise. -/
def bit_length (n : Nat) : Nat :=
  if n = 0 then 0
  else if n >>> (ilog2_loop 13 n 0) = 1 then ilog2_loop 13 n 0 + 1
  else Nat.log2 n + 1

/-- Newton's iteration `x ← (x + n / x) / 2` for the integer square root of `n`, from a
start above the root, for as long as it decreases (at most `fuel` times). -/
def isqrt_loop (n : Nat) : Nat → Nat → Nat
  | 0, x => x
  | fuel + 1, x =>
    if (x + n / x) / 2 < x then isqrt_loop n fuel ((x + n / x) / 2) else x

/-- The integer square root: the greatest `r` with `r * r ≤ n`.  The result of the
iteration is checked, and the definition falls back on `Nat.sqrt` otherwise. -/
def isqrt (n : Nat) : Nat :=
  if isqrt_loop n 64 (1 <<< ((bit_length n + 1) / 2))
        * isqrt_loop n 64 (1 <<< ((bit_length n + 1) / 2)) ≤ n
      ∧ n < (isqrt_loop n 64 (1 <<< ((bit_length n + 1) / 2)) + 1)
        * (isqrt_loop n 64 (1 <<< ((bit_length n + 1) / 2)) + 1)
  then isqrt_loop n 64 (1 <<< ((bit_length n + 1) / 2))
  else Nat.sqrt n

/-- Rounding to nearest, ties to even (the default rounding of IEEE 754).  The number to
round is `(n + f) * 2^-s` in units of `2^-1074`, with the sign `neg`, where `0 ≤ f < 1` and
`sticky` says whether `f ≠ 0`; when `sticky` holds, `s ≥ 1`.  The result keeps the 53
leading bits, or all bits down to the unit when the number is subnormal; it is an
infinity when the rounded number is `2^1024` or more. -/
def Double.round (neg : Bool) (n s : Nat) (sticky : Bool) : Double :=
  let shift := max s (bit_length n - 53)
  let q := n >>> shift
  let rem := n % (1 <<< shift)
  let half := 1 <<< (shift - 1)
  let up := decide (half < rem) || (decide (rem = half) && (sticky || decide (q % 2 = 1)))
  let k := (if up then q + 1 else q) <<< (shift - s)
  if 1 <<< 2098 ≤ k then .inf neg else .fin neg k

/-- The unary minus of C. -/
def Double.neg : Double → Double
  | .fin s k => .fin (!s) k
  | .inf s => .inf (!s)
  | .nan => .nan

/-- The sum `a + b` of C, correctly rounded; `inf - inf` is NaN, and an exact sum of zero
is `+0.0` unless both terms are `-0.0`. -/
def Double.add : Double → Double → Double
  | .nan, _ => .nan
  | _, .nan => .nan
  | .inf s, .inf t => if s = t then .inf s else .nan
  | .inf s, .fin _ _ => .inf s
  | .fin _ _, .inf t => .inf t
  | .fin s a, .fin t b =>
    if s = t then Double.round s (a + b) 0 false
    else if a = b then .fin false 0
    else if b < a then Double.round s (a - b) 0 false
    else Double.round t (b - a) 0 false

/-- The difference `a - b` of C. -/
def Double.sub (a b : Double) : Double := a.add b.neg

/-- The product `a * b` of C, correctly rounded; `inf * 0` is NaN. -/
def Double.mul : Double → Double → Double
  | .nan, _ => .nan
  | _, .nan => .nan
  | .inf s, .inf t => .inf (xor s t)
  | .inf s, .fin t k => if k = 0 then .nan else .inf (xor s t)
  | .fin s k, .inf t => if k = 0 then .nan else .inf (xor s t)
  | .fin s a, .fin t b => Double.round (xor s t) (a * b) 1074 false

/-- The quotient `a / b` of C, correctly rounded; `0 / 0` and `inf / inf` are NaN, and
another number divided by zero is an infinity. -/
def Double.div : Double → Double → Double
  | .nan, _ => .nan
  | _, .nan => .nan
  | .inf _, .inf _ => .nan
  | .inf s, .fin t _ => .inf (xor s t)
  | .fin s _, .inf t => .fin (xor s t) 0
  | .fin s a, .fin t b =>
    if b = 0 then (if a = 0 then .nan else .inf (xor s t))
    else Double.round (xor s t) ((a <<< 1075) / b) 1 (decide ((a <<< 1075) % b ≠ 0))

/-- The function `sqrt` of `math.h`, correctly rounded; the root of a negative number is
NaN, and `sqrt(-0.0)` is `-0.0`. -/
def Double.sqrt : Double → Double
  | .nan => .nan
  | .inf s => if s then .nan else .inf false
  | .fin s k =>
    if k = 0 then .fin s 0
    else if s then .nan
    else Double.round false (isqrt (k <<< 1076)) 1
      (decide (isqrt (k <<< 1076) * isqrt (k <<< 1076) ≠ k <<< 1076))

/-- The arithmetic of `double`. -/
instance : Scalar Double where
  zero := .fin false 0
  add := Double.add
  sub := Double.sub
  mul := Double.mul
  div := Double.div
  sqrt := Double.sqrt

/-- The `double` nearest to the fraction `a / b`, for `b ≠ 0`: the value of a decimal
literal of C, as in `ofRatio 1 100` for `0.01`. -/
def Double.ofRatio (a b : Nat) : Double :=
  Double.round false ((a <<< 1075) / b) 1 (decide ((a <<< 1075) % b ≠ 0))

/-- The `double` with the 64-bit pattern `w`: one sign bit, 11 exponent bits, 52 fraction
bits. -/
def Double.ofBits (w : Nat) : Double :=
  if (w >>> 52) % 2048 = 2047 then
    (if w % (1 <<< 52) = 0 then .inf (decide ((w >>> 63) % 2 = 1)) else .nan)
  else if (w >>> 52) % 2048 = 0 then .fin (decide ((w >>> 63) % 2 = 1)) (w % (1 <<< 52))
  else .fin (decide ((w >>> 63) % 2 = 1))
    ((w % (1 <<< 52) + 1 <<< 52) <<< ((w >>> 52) % 2048 - 1))

/-- The test `0 < d` of C: a positive finite number or `+inf`. -/
def Double.positive : Double → Bool
  | .fin neg k => !neg && decide (k ≠ 0)
  | .inf neg => !neg
  | .nan => false

/-- The test `isfinite(d)` of C: neither an infinity nor NaN. -/
def Double.isFinite : Double → Bool
  | .fin _ _ => true
  | _ => false

/-- The sign bit of `d` is clear and `d` is not NaN: `d` is `+0.0`, a positive number or
`+inf`. -/
def Double.plus : Double → Bool
  | .fin neg _ => !neg
  | .inf neg => !neg
  | .nan => false

/-- The term `fin neg k` is a value of `double`: rounding leaves it as it is, which says
that `k` has at most 53 significant bits and is less than `2^2098`.  Infinities and NaN
are values. -/
def Double.isValue : Double → Bool
  | .fin neg k => decide (Double.round neg k 0 false = .fin neg k)
  | _ => true

/-- The test `d == 0` of C: `+0.0` or `-0.0`. -/
def Double.isZero : Double → Bool
  | .fin _ k => decide (k = 0)
  | _ => false

/-- The number `b` is `-a`, up to the sign of a zero (`b == -a` in C), or both are NaN. -/
def Double.opposite (a b : Double) : Prop :=
  b = a.neg ∨ (a.isZero = true ∧ b.isZero = true)

/-- Body `q` is the mirror image of body `p` about the origin, in `double`: positions and
velocities are opposite, and the masses are equal. -/
def mirrored_double (p q : body_t Double) : Prop :=
  Double.opposite p.x q.x ∧ Double.opposite p.y q.y ∧ Double.opposite p.vx q.vx
    ∧ Double.opposite p.vy q.vy ∧ q.m = p.m

end DoubleDefs

section Examples

/-- A body at the origin with velocity `(1, 0)` and mass 1. -/
def moving_body : body_t (Num ℚ) :=
  { x := .val 0, y := .val 0, vx := .val 1, vy := .val 0, m := .val 1 }

/-- A body at the origin with velocity `(1, 0)` and mass 0. -/
def massless_body : body_t (Num ℚ) :=
  { x := .val 0, y := .val 0, vx := .val 1, vy := .val 0, m := .val 0 }

/-- A body of mass 1 at rest at `(-1, 0)`. -/
def left_body : body_t (Num ℚ) :=
  { x := .val (-1), y := .val 0, vx := .val 0, vy := .val 0, m := .val 1 }

/-- A body of mass 1 at rest at `(1, 0)`. -/
def right_body : body_t (Num ℚ) :=
  { x := .val 1, y := .val 0, vx := .val 0, vy := .val 0, m := .val 1 }

/-- A body of mass 3 at `(0, 2)` with velocity `(1/2, 0)`. -/
def third_body : body_t (Num ℚ) :=
  { x := .val 0, y := .val 2, vx := .val (1 / 2), vy := .val 0, m := .val 3 }

/-- One body: `current` is address 0 and `next` is address 1. -/
def moving_driver : Driver (Num ℚ) :=
  { heap := { cell := fun _ => moving_body, log := [] }, current := 0, next := 1 }

/-- One body of mass 0: `current` is address 0 and `next` is address 1. -/
def massless_driver : Driver (Num ℚ) :=
  { heap := { cell := fun _ => massless_body, log := [] }, current := 0, next := 1 }

/-- Two bodies: `current` is at addresses 0 and 1, `next` at addresses 2 and 3. -/
def pair_driver : Driver (Num ℚ) :=
  { heap := { cell := fun a => if a = 0 then left_body else right_body, log := [] },
    current := 0, next := 2 }

/-- Three bodies: `current` is at addresses 0 to 2, `next` at addresses 3 to 5. -/
def triple_driver : Driver (Num ℚ) :=
  { heap := { cell := fun a => if a = 0 then left_body else if a = 1 then right_body
                else third_body, log := [] },
    current := 0, next := 3 }

/-- The three bodies of `triple_driver` with the first and the last exchanged. -/
def triple_driver_exchanged : Driver (Num ℚ) :=
  { heap := { cell := fun a => if a = 0 then third_body else if a = 1 then right_body
                else left_body, log := [] },
    current := 0, next := 3 }

end Examples

section CppDefs
variable {α : Type} [Scalar α]

/-- One iteration of the loop over `j` in the lambda of `Physics.cpp` (lines 45-66). -/
def accumulate_cpp (current : Int → body_t α) (i : Int) (G softening m_i : α)
    (j : Int) (F : α × α) : α × α :=
  if j = i then F
  else
    let dx := (current j).x - (current i).x
    let dy := (current j).y - (current i).y
    let dist2 := dx * dx + dy * dy + softening * softening
    let dist := Scalar.sqrt dist2
    let m_j := (current j).m
    let F_mag := G * m_i * m_j / dist2
    (F.1 + F_mag * (dx / dist), F.2 + F_mag * (dy / dist))

/-- The body of the loop over `i` in the lambda of `Physics.cpp` (lines 33-85) up to the
stores: the record that is written to `next[i]`. -/
def kernel_cpp (current : Int → body_t α) (n : Int) (dt G softening : α) (i : Int) :
    body_t α :=
  let m_i := (current i).m
  let vx_old := (current i).vx
  let vy_old := (current i).vy
  let x_old := (current i).x
  let y_old := (current i).y
  let F := forLoop 0 n (accumulate_cpp current i G softening m_i) (0, 0)
  let ax := F.1 / m_i
  let ay := F.2 / m_i
  let vx_new := vx_old + ax * dt
  let vy_new := vy_old + ay * dt
  let x_new := x_old + vx_new * dt
  let y_new := y_old + vy_new * dt
  { x := x_new, y := y_new, vx := vx_new, vy := vy_new, m := m_i }

/-- The lambda of `Physics.cpp` (lines 31-88): it holds `start_idx` and `end_idx` by value
and refers to the parameters `current`, `next`, `n`, `dt`, `G`, `softening` of
`step_simulation`. -/
def lambda_cpp (current next n : Int) (dt G softening : α) (start_idx end_idx : Int)
    (h : Heap α) : Heap α :=
  forLoop start_idx end_idx
    (fun i h => h.store (next + i) (kernel_cpp (h.view current) n dt G softening i)) h

/-- One iteration of the loop over `t` in `Physics.cpp` (lines 25-91): the loop state is
`start_idx` and the vector `threads`, each thread given by the two values its lambda
holds. -/
def emplace_cpp (bodies_per_thread remainder : Int) (t : Int) (s : Int × List (Int × Int)) :
    Int × List (Int × Int) :=
  let start_idx := s.1
  let end_idx := start_idx + bodies_per_thread + (if t < remainder then 1 else 0)
  (end_idx, s.2 ++ [(start_idx, end_idx)])

/-- The vector `threads` at the end of `step_simulation` of `Physics.cpp` (lines 8-91). -/
def threads_cpp (n num_threads : Int) : List (Int × Int) :=
  let num_threads := if num_threads > n then n else num_threads
  let num_threads := if num_threads < 1 then 1 else num_threads
  let bodies_per_thread := Int.tdiv n num_threads
  let remainder := Int.tmod n num_threads
  (forLoop 0 num_threads (emplace_cpp bodies_per_thread remainder) (0, [])).2

/-- The function `step_simulation` of `Physics.cpp` (lines 6-93): every thread of the
vector runs its lambda; the vector is destroyed, and its threads joined, on return. -/
def step_simulation_cpp (h : Heap α) (current next n : Int) (dt G softening : α)
    (num_threads : Int) : Heap α :=
  (threads_cpp n num_threads).foldl
    (fun h se => lambda_cpp current next n dt G softening se.1 se.2 h) h

/-- The main loop of `main.cpp` (lines 92-129) on the CPU path, `fuel` being a bound on the
iterations left: `while (step < N_STEPS && !WindowShouldClose())`, step, swap the vectors,
count the step, render.  `close k` is the answer of `WindowShouldClose` at the test made
after `k` steps; rendering changes neither the buffers nor `step`. -/
def while_cpp (close : Int → Bool) (N_STEPS n : Int) (dt G softening : α) (num_threads : Int) :
    Nat → Int → Driver α → Int × Driver α
  | 0, step, d => (step, d)
  | fuel + 1, step, d =>
    if step < N_STEPS ∧ close step = false then
      while_cpp close N_STEPS n dt G softening num_threads fuel (step + 1)
        { heap := step_simulation_cpp d.heap d.current d.next n dt G softening num_threads,
          current := d.next,
          next := d.current }
    else (step, d)

/-- The main loop of `main.cpp` from `step = 0`; it makes at most `N_STEPS` iterations. -/
def run_cpp (close : Int → Bool) (N_STEPS n : Int) (dt G softening : α) (num_threads : Int)
    (d : Driver α) : Int × Driver α :=
  while_cpp close N_STEPS n dt G softening num_threads N_STEPS.toNat 0 d

end CppDefs

section ArgDefs

/-- The test `isspace` of the C library in the "C" locale. -/
def isspace (c : Char) : Bool :=
  c = ' ' || c = '\t' || c = '\n' || c = Char.ofNat 11 || c = Char.ofNat 12 || c = '\r'

/-- The test `isdigit` of the C library. -/
def isdigit (c : Char) : Bool := '0' ≤ c && c ≤ '9'

/-- The number written by a list of decimal digits. -/
def digits_value (ds : List Char) : Int :=
  ds.foldl (fun v c => 10 * v + ((c.toNat : Int) - ('0'.toNat : Int))) 0

/-- The conversion `strtol` performs in base 10, on which `atoi` and `std::stoi` rest:
white space is skipped, then an optional sign and the longest run of digits are read, and
whatever follows is ignored; `none` when there is no digit to read. -/
def scan_int (s : List Char) : Option Int :=
  let s := s.dropWhile isspace
  let negative := s.head? = some '-'
  let s := if s.head? = some '-' ∨ s.head? = some '+' then s.tail else s
  let ds := s.takeWhile isdigit
  if ds = [] then none
  else some (if negative then - digits_value ds else digits_value ds)

/-- The least value of `int`. -/
def INT_MIN : Int := - 2 ^ 31

/-- The greatest value of `int`. -/
def INT_MAX : Int := 2 ^ 31 - 1

/-- The function `atoi` of the C library: 0 when no number can be read; when the number
read is not a value of `int` the behaviour is undefined, and `undefined` stands for what
the library then returns. -/
def atoi (undefined : Int → Int) (s : List Char) : Int :=
  match scan_int s with
  | none => 0
  | some v => if INT_MIN ≤ v ∧ v ≤ INT_MAX then v else undefined v

/-- The function `std::stoi`: `none` stands for the exception it throws when no number can
be read (`std::invalid_argument`) or the number is not a value of `int`
(`std::out_of_range`). -/
def stoi (s : List Char) : Option Int :=
  match scan_int s with
  | none => none
  | some v => if INT_MIN ≤ v ∧ v ≤ INT_MAX then some v else none

/-- How the argument validation of `main` ends: with an exit code, or by going on to
allocate and simulate `n` bodies (`use_gpu`: the GPU back-end was asked for). -/
inductive Outcome where
  | exit (code : Int)
  | simulate (n : Int) (use_gpu : Bool)
deriving DecidableEq

/-- The argument validation of `main.c` (lines 15-25); `argv` includes the program name,
and `argc` is its length. -/
def main_c (undefined : Int → Int) (argv : List (List Char)) : Outcome :=
  let argc : Int := argv.length
  if argc ≠ 2 then .exit 1
  else
    let n := atoi undefined (argv.getD 1 [])
    if n ≤ 0 then .exit 1
    else .simulate n false

/-- The argument validation of `main.cpp` (lines 23-53). -/
def main_cpp (argv : List (List Char)) : Outcome :=
  let argc : Int := argv.length
  if argc < 2 ∨ argc > 3 then .exit 1
  else
    match stoi (argv.getD 1 []) with
    | none => .exit 1
    | some n =>
      if n ≤ 0 then .exit 1
      else
        let flag := argv.getD 2 []
        let use_gpu := decide (argc = 3) && (flag = "--gpu".toList || flag = "-gpu".toList)
        .simulate n use_gpu

end ArgDefs

section DrawDefs
variable {K : Type} [LinearOrderedField K] [FloorRing K]

/-- The constant `WINDOW_WIDTH` of `main.cpp`. -/
def WINDOW_WIDTH : Int := 800

/-- The constant `WINDOW_HEIGHT` of `main.cpp`. -/
def WINDOW_HEIGHT : Int := 600

/-- The constant `VIEW_RANGE` of `main.cpp`. -/
def VIEW_RANGE : K := 10

/-- The conversion `static_cast<int>` of a `double`: the fractional part is discarded, so
the value is rounded toward zero (the behaviour is undefined when the result is not a value
of `int`). -/
def static_cast_int (q : K) : Int := if 0 ≤ q then ⌊q⌋ else ⌈q⌉

/-- The condition under which `main.cpp` draws a body at simulation coordinates `(x, y)`
(lines 112-124), in exact arithmetic. -/
def draw_condition (x y : K) : Bool :=
  let scale_x : K := (WINDOW_WIDTH : K) / (2 * VIEW_RANGE)
  let scale_y : K := (WINDOW_HEIGHT : K) / (2 * VIEW_RANGE)
  let offset_x : K := (WINDOW_WIDTH : K) / 2
  let offset_y : K := (WINDOW_HEIGHT : K) / 2
  let screen_x := static_cast_int (x * scale_x + offset_x)
  let screen_y := static_cast_int (y * scale_y + offset_y)
  decide (screen_x ≥ 0 ∧ screen_x < WINDOW_WIDTH ∧ screen_y ≥ 0 ∧ screen_y < WINDOW_HEIGHT)

end DrawDefs

section InitDefs
variable {K : Type} [LinearOrderedField K] [HasSqrt K]

/-- The record `init_bodies` stores at one index (init.c lines 15-19), from the results
`rand c, ..., rand (c + 4)` of five successive calls of `rand()`. -/
def random_body (RAND_MAX : Int) (rand : Nat → Int) (c : Nat) : body_t (Num K) :=
  let pos_max : Num K := .val 1
  let pos_min : Num K := .val (-1)
  let vel_max : Num K := .val (1 / 10)
  let vel_min : Num K := .val (-(1 / 10))
  let mass_max : Num K := .val 5
  let mass_min : Num K := .val (1 / 2)
  { x := pos_min + (pos_max - pos_min) * (.val (rand c) / .val RAND_MAX),
    y := pos_min + (pos_max - pos_min) * (.val (rand (c + 1)) / .val RAND_MAX),
    vx := vel_min + (vel_max - vel_min) * (.val (rand (c + 2)) / .val RAND_MAX),
    vy := vel_min + (vel_max - vel_min) * (.val (rand (c + 3)) / .val RAND_MAX),
    m := mass_min + (mass_max - mass_min) * (.val (rand (c + 4)) / .val RAND_MAX) }

/-- The function `init_bodies` (init.c lines 3-22) in exact arithmetic.  `rand k` is the
result of the `k`-th call of `rand()` after `srand(time(NULL))`; the loop state is the heap
and the number of calls made so far.  `RAND_MAX` is the constant of `stdlib.h`. -/
def init_bodies (RAND_MAX : Int) (rand : Nat → Int) (bodies n : Int) (h : Heap (Num K)) :
    Heap (Num K) :=
  (forLoop 0 n
    (fun i (s : Heap (Num K) × Nat) =>
      (s.1.store (bodies + i) (random_body RAND_MAX rand s.2), s.2 + 5)) (h, 0)).1

end InitDefs

section RefDefs
variable {α : Type} [Scalar α]

/-- The force of body `j` on body `i` as the specification writes it: with
`dx = x_j - x_i`, `dy = y_j - y_i`, `d2 = dx*dx + dy*dy + sigma*sigma` and `d = sqrt d2`, the
pair `((G * m_i * m_j / d2) * (dx / d), (G * m_i * m_j / d2) * (dy / d))`. -/
def pair_force (current : Int → body_t α) (G softening : α) (i j : Int) : α × α :=
  let dx := (current j).x - (current i).x
  let dy := (current j).y - (current i).y
  let d2 := dx * dx + dy * dy + softening * softening
  let d := Scalar.sqrt d2
  ((G * (current i).m * (current j).m / d2) * (dx / d),
   (G * (current i).m * (current j).m / d2) * (dy / d))

/-- The reference force on body `i`: the sum, started at 0 and taken in ascending `j`, of
the forces of the bodies `j` of `[0, n)` other than `i`. -/
def reference_force (current : Int → body_t α) (n : Int) (G softening : α) (i : Int) : α × α :=
  (((List.range n.toNat).map (fun j : Nat => (j : Int))).filter (fun j => decide (j ≠ i))).foldl
    (fun F j => (F.1 + (pair_force current G softening i j).1,
                 F.2 + (pair_force current G softening i j).2)) (0, 0)

end RefDefs

section DistDefs
variable {K : Type} [LinearOrderedField K]

/-- The softened squared distance of bodies `i` and `j` at positions `(X, Y)`. -/
def soft_dist2 (s : K) (X Y : Int → K) (i j : Int) : K :=
  (X j - X i) * (X j - X i) + (Y j - Y i) * (Y j - Y i) + s * s

end DistDefs

section MomDefs
variable {K : Type} [LinearOrderedField K] [HasSqrt K]

/-- The x component of the force of body `j` on body `i`, in the field `K`. -/
def force_x (g s : K) (X Y M : Int → K) (i j : Int) : K :=
  g * M i * M j / soft_dist2 s X Y i j * ((X j - X i) / HasSqrt.sqrt (soft_dist2 s X Y i j))

/-- The y component of the force of body `j` on body `i`, in the field `K`. -/
def force_y (g s : K) (X Y M : Int → K) (i j : Int) : K :=
  g * M i * M j / soft_dist2 s X Y i j * ((Y j - Y i) / HasSqrt.sqrt (soft_dist2 s X Y i j))

/-- The buffer whose records hold the finite values `X i, Y i, VX i, VY i, M i`. -/
def finite_state (X Y VX VY M : Int → K) : Int → body_t (Num K) :=
  fun i => { x := .val (X i), y := .val (Y i), vx := .val (VX i), vy := .val (VY i),
             m := .val (M i) }

/-- The x component of the net force on body `i` of `n` bodies, in the field `K`. -/
def net_force_x (g s : K) (X Y M : Int → K) (n i : Int) : K :=
  ∑ j ∈ Finset.range n.toNat, if (j : Int) = i then 0 else force_x g s X Y M i j

/-- The y component of the net force on body `i` of `n` bodies, in the field `K`. -/
def net_force_y (g s : K) (X Y M : Int → K) (n i : Int) : K :=
  ∑ j ∈ Finset.range n.toNat, if (j : Int) = i then 0 else force_y g s X Y M i j

end MomDefs

section Examples2

/-- Two bodies of mass 1 at rest at the same place, the origin. -/
def coincident : Int → body_t (Num ℚ) :=
  finite_state (fun _ => 0) (fun _ => 0) (fun _ => 0) (fun _ => 0) (fun _ => 1)

/-- A sequence of results of `rand()` with `RAND_MAX = 32767`. -/
def rand_example (k : Nat) : Int := (7919 * (k : Int) + 12345) % 32768

/-- A body of mass 1 at rest at `(x, 0)`, in exact arithmetic. -/
def at_rest (x : ℚ) : body_t (Num ℚ) :=
  { x := .val x, y := .val 0, vx := .val 0, vy := .val 0, m := .val 1 }

/-- Four bodies at rest at `x = 0, 1, 2, 4`: `current` is at addresses 0 to 3, `next` at
addresses 4 to 7. -/
def quad_driver : Driver (Num ℚ) :=
  { heap := { cell := fun a => if a = 0 then at_rest 0 else if a = 1 then at_rest 1
                else if a = 2 then at_rest 2 else at_rest 4, log := [] },
    current := 0, next := 4 }

/-- The four bodies of `quad_driver` with the first and the last exchanged. -/
def quad_driver_exchanged : Driver (Num ℚ) :=
  { heap := { cell := fun a => if a = 0 then at_rest 4 else if a = 1 then at_rest 1
                else if a = 2 then at_rest 2 else at_rest 0, log := [] },
    current := 0, next := 4 }

end Examples2

section DoubleExamples

/-- The constant `DT` of `main.c` and `main.cpp`: the `double` of the literal `0.01`. -/
def DT : Double := .ofRatio 1 100

/-- The constant `G` of `main.c` and `main.cpp`: `1.0`. -/
def G : Double := .ofRatio 1 1

/-- The constant `SOFTENING` of `main.c`: the `double` of the literal `1e-3`. -/
def SOFTENING : Double := .ofRatio 1 1000

/-- The `double` of the literal `1e-200`: a softening that is not zero. -/
def tiny_softening : Double := .ofRatio 1 (10 ^ 200)

/-- A body of mass `1.0` at `(x, 0)` with velocity `(vx, 0)`, in `double`. -/
def double_body (x vx : Double) : body_t Double :=
  { x := x, y := 0, vx := vx, vy := 0, m := .ofRatio 1 1 }

/-- One body `{0, 0, 1, 0, 1}`: `current` is address 0 and `next` is address 1. -/
def moving_double : Driver Double :=
  { heap := { cell := fun _ => double_body 0 (.ofRatio 1 1), log := [] },
    current := 0, next := 1 }

/-- One body `{0, 0, 0, 0, 1}`: `current` is address 0 and `next` is address 1. -/
def resting_double : Driver Double :=
  { heap := { cell := fun _ => double_body 0 0, log := [] }, current := 0, next := 1 }

/-- Two bodies of mass 1 at rest at `x = -1` and `x = 1`: `current` is at addresses 0 and
1, `next` at addresses 2 and 3. -/
def pair_double : Driver Double :=
  { heap := { cell := fun a => if a = 0 then double_body (Double.ofRatio 1 1).neg 0
                else double_body (.ofRatio 1 1) 0, log := [] },
    current := 0, next := 2 }

/-- Two bodies of mass 1 at rest at `x = 1` and `x = 3`, so that the centre of mass is at
`x = 2`: `current` is at addresses 0 and 1, `next` at addresses 2 and 3. -/
def pair_double_off_centre : Driver Double :=
  { heap := { cell := fun a => if a = 0 then double_body (.ofRatio 1 1) 0
                else double_body (.ofRatio 3 1) 0, log := [] },
    current := 0, next := 2 }

/-- Four bodies of mass 1 at rest at `x = 0, 1, 2, 4`, in `double`: `current` is at
addresses 0 to 3, `next` at addresses 4 to 7. -/
def quad_double : Driver Double :=
  { heap := { cell := fun a => if a = 0 then double_body 0 0
                else if a = 1 then double_body (.ofRatio 1 1) 0
                else if a = 2 then double_body (.ofRatio 2 1) 0
                else double_body (.ofRatio 4 1) 0, log := [] },
    current := 0, next := 4 }

/-- The four bodies of `quad_double` with the first and the last exchanged. -/
def quad_double_exchanged : Driver Double :=
  { heap := { cell := fun a => if a = 0 then double_body (.ofRatio 4 1) 0
                else if a = 1 then double_body (.ofRatio 1 1) 0
                else if a = 2 then double_body (.ofRatio 2 1) 0
                else double_body 0 0, log := [] },
    current := 0, next := 4 }

/-- Three bodies of mass 1 at rest at `x = 0, 1, 4`, in `double`: `current` is at
addresses 0 to 2, `next` at addresses 3 to 5. -/
def triple_double : Driver Double :=
  { heap := { cell := fun a => if a = 0 then double_body 0 0
                else if a = 1 then double_body (.ofRatio 1 1) 0
                else double_body (.ofRatio 4 1) 0, log := [] },
    current := 0, next := 3 }

/-- The three bodies of `triple_double` with the first and the last exchanged. -/
def triple_double_exchanged : Driver Double :=
  { heap := { cell := fun a => if a = 0 then double_body (.ofRatio 4 1) 0
                else if a = 1 then double_body (.ofRatio 1 1) 0
                else double_body 0 0, log := [] },
    current := 0, next := 3 }

/-- Two bodies of mass 1 at rest at the same place, the origin, in `double`. -/
def coincident_double : Int → body_t Double := fun _ => double_body 0 0

end DoubleExamples

theorem forRange_add {σ : Type} (body : Int → σ → σ) (a b : Nat) (i : Int) (s : σ) :
    forRange body (a + b) i s = forRange body b (i + a) (forRange body a i s) := by
  induction a generalizing i s with
  | zero => simp [forRange]
  | succ a ih =>
    rw [Nat.add_right_comm]
    simp only [forRange]
    rw [ih]
    congr 1
    push_cast
    ring

theorem forLoop_split {σ : Type} (lo mid hi : Int) (body : Int → σ → σ) (s : σ)
    (h1 : lo ≤ mid) (h2 : mid ≤ hi) :
    forLoop lo hi body s = forLoop mid hi body (forLoop lo mid body s) := by
  unfold forLoop
  have e : (hi - lo).toNat = (mid - lo).toNat + (hi - mid).toNat := by omega
  rw [e, forRange_add]
  congr 1
  omega

theorem startOf_succ (q r t : Int) :
    startOf q r (t + 1) = startOf q r t + q + (if t < r then 1 else 0) := by
  unfold startOf
  split_ifs with h
  · rw [min_eq_left (by omega), min_eq_left (by omega)]; ring
  · rw [min_eq_right (by omega), min_eq_right (by omega)]; ring

section Partition

variable {α : Type}

theorem spawn_loop (current next n : Int) (dt G softening : α) (q r : Int) (k : Nat) :
    ∀ (t : Nat) (acc : List (thread_data_t α)),
    forRange (spawn current next n dt G softening q r) k t (startOf q r t, acc)
      = (startOf q r (t + k),
         acc ++ (List.range k).map (fun j => dataOf current next n dt G softening q r (t + j))) := by
  induction k with
  | zero => intro t acc; simp [forRange]
  | succ k ih =>
    intro t acc
    simp only [forRange]
    have hs : spawn current next n dt G softening q r t (startOf q r t, acc)
        = (startOf q r ((t + 1 : Nat) : Int),
            acc ++ [dataOf current next n dt G softening q r t]) := by
      simp only [spawn, dataOf, Nat.cast_add, Nat.cast_one, startOf_succ]
    rw [hs]
    have := ih (t + 1) (acc ++ [dataOf current next n dt G softening q r t])
    simp only [Nat.cast_add, Nat.cast_one] at this ⊢
    rw [this, List.range_succ_eq_map, List.map_cons, List.map_map]
    simp only [List.append_assoc, List.singleton_append, Nat.cast_zero, add_zero]
    refine Prod.ext ?_ ?_
    · simp only; congr 1; ring
    · simp only [Nat.add_zero]
      congr 2
      apply List.map_congr_left
      intro j _
      simp only [Function.comp, Nat.succ_eq_add_one]
      congr 1
      omega

theorem clamp_threads_pos (n num_threads : Int) : 1 ≤ clamp_threads n num_threads := by
  unfold clamp_threads
  simp only
  split_ifs <;> omega

theorem clamp_threads_le (n num_threads : Int) (hn : 1 ≤ n) : clamp_threads n num_threads ≤ n := by
  unfold clamp_threads
  simp only
  split_ifs <;> omega

theorem clamp_threads_of_nonpos (n num_threads : Int) (hn : n ≤ 0) :
    clamp_threads n num_threads = 1 := by
  unfold clamp_threads
  simp only
  split_ifs <;> omega

theorem tmod_clamp_nonneg (n num_threads : Int) :
    0 ≤ Int.tmod n (clamp_threads n num_threads) := by
  rcases le_or_lt n 0 with h | h
  · rw [clamp_threads_of_nonpos n num_threads h]; simp
  · have := clamp_threads_pos n num_threads
    rw [Int.tmod_eq_emod (by omega) (by omega)]
    exact Int.emod_nonneg _ (by omega)

theorem thread_data_eq (current next n : Int) (dt G softening : α) (num_threads : Int) :
    thread_data current next n dt G softening num_threads
      = (List.range (clamp_threads n num_threads).toNat).map
          (fun t => dataOf current next n dt G softening
            (Int.tdiv n (clamp_threads n num_threads)) (Int.tmod n (clamp_threads n num_threads)) t) := by
  unfold thread_data forLoop
  have h0 : ((0 : Int), ([] : List (thread_data_t α)))
      = (startOf (Int.tdiv n (clamp_threads n num_threads)) (Int.tmod n (clamp_threads n num_threads)) ((0 : Nat) : Int), []) := by
    have := tmod_clamp_nonneg n num_threads
    simp [startOf, this]
  simp only [sub_zero]
  rw [h0]
  have := spawn_loop current next n dt G softening (Int.tdiv n (clamp_threads n num_threads)) (Int.tmod n (clamp_threads n num_threads)) (clamp_threads n num_threads).toNat 0 []
  simp only [Nat.cast_zero] at this ⊢
  rw [this]
  simp
theorem forRange_succ_last {σ : Type} (body : Int → σ → σ) (k : Nat) (i : Int) (s : σ) :
    forRange body (k + 1) i s = body (i + k) (forRange body k i s) := by
  rw [forRange_add]
  rfl

theorem forRange_congr {σ : Type} (f g : Int → σ → σ) (k : Nat) (i : Int) (s : σ)
    (hfg : ∀ j, i ≤ j → j < i + k → ∀ t, f j t = g j t) :
    forRange f k i s = forRange g k i s := by
  induction k with
  | zero => rfl
  | succ k ih =>
    rw [forRange_succ_last, forRange_succ_last, ih, hfg]
    · omega
    · push_cast; omega
    · intro j h1 h2 t
      exact hfg j h1 (by push_cast; omega) t

theorem startOf_le_succ (q r t : Int) (hq : 0 ≤ q) : startOf q r t ≤ startOf q r (t + 1) := by
  rw [startOf_succ]
  split_ifs <;> omega

theorem startOf_zero (q r : Int) (hr : 0 ≤ r) : startOf q r 0 = 0 := by
  simp [startOf, hr]

theorem startOf_nonneg (q r : Int) (hq : 0 ≤ q) (hr : 0 ≤ r) (t : Nat) : 0 ≤ startOf q r t := by
  induction t with
  | zero => simp [startOf_zero q r hr]
  | succ t ih =>
    have := startOf_le_succ q r t hq
    push_cast
    omega

theorem countP_ranges (current next n : Int) (dt G softening : α) (q r : Int)
    (hq : 0 ≤ q) (hr : 0 ≤ r) (i : Int) (k : Nat) :
    ((List.range k).map (fun t => dataOf current next n dt G softening q r t)).countP
        (fun d => decide (d.start_idx ≤ i ∧ i < d.end_idx))
      = if 0 ≤ i ∧ i < startOf q r k then 1 else 0 := by
  induction k with
  | zero =>
    have e0 : startOf q r ((0 : Nat) : Int) = 0 := by
      rw [Nat.cast_zero]; exact startOf_zero q r hr
    rw [e0, if_neg (by omega)]
    rfl
  | succ k ih =>
    have h1 := startOf_nonneg q r hq hr k
    have h2 := startOf_le_succ q r k hq
    have e : ((k + 1 : Nat) : Int) = (k : Int) + 1 := by push_cast; rfl
    rw [List.range_succ, List.map_append, List.countP_append, ih, e]
    have e1 : List.countP (fun d : thread_data_t α => decide (d.start_idx ≤ i ∧ i < d.end_idx))
        (List.map (fun t => dataOf current next n dt G softening q r t) [k])
        = if startOf q r k ≤ i ∧ i < startOf q r (k + 1) then 1 else 0 := by
      simp only [List.map_cons, List.map_nil, List.countP_cons, List.countP_nil, dataOf,
        zero_add, decide_eq_true_eq]
    rw [e1]
    by_cases ha : 0 ≤ i ∧ i < startOf q r k
    · rw [if_pos ha, if_neg (by omega), if_pos (by omega)]
    · rw [if_neg ha]
      by_cases hb : startOf q r k ≤ i ∧ i < startOf q r (k + 1)
      · rw [if_pos hb, if_pos (by omega)]
      · rw [if_neg hb, if_neg (by omega)]

theorem clamp_threads_of_mem (n W : Int) (h1 : 1 ≤ W) (h2 : W ≤ n) : clamp_threads n W = W := by
  unfold clamp_threads
  simp only
  split_ifs <;> omega

theorem thread_data_length (current next n : Int) (dt G softening : α) (num_threads : Int) :
    (thread_data current next n dt G softening num_threads).length
      = (clamp_threads n num_threads).toNat := by
  rw [thread_data_eq]
  simp

theorem thread_data_get (current next n : Int) (dt G softening : α) (num_threads : Int)
    (t : Nat) (d : thread_data_t α)
    (hd : (thread_data current next n dt G softening num_threads)[t]? = some d) :
    d = dataOf current next n dt G softening (Int.tdiv n (clamp_threads n num_threads))
          (Int.tmod n (clamp_threads n num_threads)) t := by
  rw [thread_data_eq, List.getElem?_map] at hd
  cases hr : (List.range (clamp_threads n num_threads).toNat)[t]? with
  | none => rw [hr] at hd; simp at hd
  | some u =>
    rw [hr] at hd
    have hu : u = t := by
      rw [List.getElem?_eq_some] at hr
      obtain ⟨_, hr⟩ := hr
      simpa using hr.symm
    subst hu
    simpa using hd.symm

theorem startOf_clamp (n num_threads : Int) :
    startOf (Int.tdiv n (clamp_threads n num_threads)) (Int.tmod n (clamp_threads n num_threads))
      (clamp_threads n num_threads) = n := by
  rcases le_or_lt n 0 with h | h
  · rw [clamp_threads_of_nonpos n num_threads h]
    simp [startOf]
  · have h1 := clamp_threads_pos n num_threads
    rw [Int.tmod_eq_emod (by omega) (by omega), Int.tdiv_eq_ediv (by omega) (by omega)]
    have h2 := Int.emod_lt_of_pos n (show 0 < clamp_threads n num_threads by omega)
    have h3 := Int.emod_add_ediv n (clamp_threads n num_threads)
    unfold startOf
    rw [min_eq_right (by omega)]
    linarith

theorem div_clamp_nonneg (n num_threads : Int) (hn : 0 ≤ n) :
    0 ≤ Int.tdiv n (clamp_threads n num_threads) := by
  have h1 := clamp_threads_pos n num_threads
  rw [Int.tdiv_eq_ediv (by omega) (by omega)]
  exact Int.ediv_nonneg (by omega) (by omega)

theorem thread_data_worker_of (current next n : Int) (dt G softening : α) (num_threads : Int)
    (d : thread_data_t α) (hd : d ∈ thread_data current next n dt G softening num_threads) :
    worker_of current next n dt G softening d := by
  obtain ⟨t, ht⟩ := List.getElem?_of_mem hd
  have hlen : t < (clamp_threads n num_threads).toNat := by
    have := (List.getElem?_eq_some.1 ht).1
    rwa [thread_data_length] at this
  rw [thread_data_get current next n dt G softening num_threads t d ht]
  refine ⟨rfl, rfl, rfl, rfl, rfl, rfl, ?_, ?_⟩
  · simp only [dataOf]
    rcases le_or_lt n 0 with hn | hn
    · have : t = 0 := by rw [clamp_threads_of_nonpos n num_threads hn] at hlen; simpa using hlen
      subst this
      simp [startOf_zero _ _ (tmod_clamp_nonneg n num_threads)]
    · exact startOf_nonneg _ _ (div_clamp_nonneg n num_threads hn.le)
        (tmod_clamp_nonneg n num_threads) t
  · simp only [dataOf]
    rcases le_or_lt n 0 with hn | hn
    · have : t = 0 := by rw [clamp_threads_of_nonpos n num_threads hn] at hlen; simpa using hlen
      subst this
      have := startOf_clamp n num_threads
      rw [clamp_threads_of_nonpos n num_threads hn] at this ⊢
      simpa using this.le
    · have hq := div_clamp_nonneg n num_threads hn.le
      have hmono : ∀ k : Nat, startOf (Int.tdiv n (clamp_threads n num_threads))
          (Int.tmod n (clamp_threads n num_threads)) ((t : Int) + 1)
          ≤ startOf (Int.tdiv n (clamp_threads n num_threads))
          (Int.tmod n (clamp_threads n num_threads)) ((t : Int) + 1 + k) := by
        intro k
        induction k with
        | zero => simp
        | succ k ih =>
          have := startOf_le_succ (Int.tdiv n (clamp_threads n num_threads))
            (Int.tmod n (clamp_threads n num_threads)) ((t : Int) + 1 + k) hq
          push_cast
          rw [← add_assoc]
          omega
      have := hmono ((clamp_threads n num_threads).toNat - (t + 1))
      have hc := clamp_threads_pos n num_threads
      have e : (t : Int) + 1 + (((clamp_threads n num_threads).toNat - (t + 1) : Nat) : Int)
          = clamp_threads n num_threads := by omega
      rw [e, startOf_clamp] at this
      exact this

theorem thread_data_countP (current next n : Int) (dt G softening : α) (num_threads : Int)
    (hn : 1 ≤ n) (i : Int) (hi0 : 0 ≤ i) (hin : i < n) :
    (thread_data current next n dt G softening num_threads).countP
      (fun d => decide (d.start_idx ≤ i ∧ i < d.end_idx)) = 1 := by
  have hW := clamp_threads_pos n num_threads
  rw [thread_data_eq, countP_ranges _ _ _ _ _ _ _ _ (div_clamp_nonneg n num_threads (by omega))
    (tmod_clamp_nonneg n num_threads), Int.toNat_of_nonneg (by omega), startOf_clamp,
    if_pos ⟨hi0, hin⟩]

end Partition

section Worker
variable {α : Type} [Scalar α]

theorem kernel_congr (u v : Int → body_t α) (n : Int) (dt G softening : α) (i : Int)
    (hi0 : 0 ≤ i) (hin : i < n) (huv : ∀ j, 0 ≤ j → j < n → u j = v j) :
    kernel u n dt G softening i = kernel v n dt G softening i := by
  have hi : u i = v i := huv i hi0 hin
  have hF : forLoop 0 n (accumulate u i G softening (v i).m) (0, 0)
      = forLoop 0 n (accumulate v i G softening (v i).m) (0, 0) := by
    unfold forLoop
    apply forRange_congr
    intro j h1 h2 t
    have hj : u j = v j := huv j h1 (by omega)
    simp only [accumulate, hj, hi]
  simp only [kernel, hi, hF]

theorem written_zero (h : Heap α) (current next n : Int) (dt G softening : α) (lo : Int) :
    written h current next n dt G softening lo 0 = h := by
  cases h with
  | mk cell log =>
    simp only [written, Nat.cast_zero, add_zero, List.range_zero, List.map_nil,
      List.append_nil]
    congr 1
    funext a
    rw [if_neg (by omega)]

theorem worker_range (h : Heap α) (current next n : Int) (dt G softening : α)
    (hd : current + n ≤ next ∨ next + n ≤ current) (k : Nat) (lo : Int)
    (hlo : 0 ≤ lo) (hhi : lo + k ≤ n) :
    forRange (fun i h => h.store (next + i)
        (kernel (h.view current) n dt G softening i)) k lo h
      = written h current next n dt G softening lo k := by
  induction k with
  | zero =>
    simp only [forRange, written, Nat.cast_zero, add_zero, List.range_zero, List.map_nil,
      List.append_nil]
    cases h with
    | mk cell log =>
      congr 1
      funext a
      rw [if_neg (by omega)]
  | succ k ih =>
    push_cast at hhi
    rw [forRange_succ_last, ih (by omega)]
    have hk : kernel ((written h current next n dt G softening lo k).view current)
          n dt G softening (lo + k) = kernel (h.view current) n dt G softening (lo + k) := by
      apply kernel_congr _ _ _ _ _ _ _ (by omega) (by omega)
      intro j h1 h2
      simp only [Heap.view, written]
      rw [if_neg (by omega)]
    simp only [hk]
    simp only [Heap.store, written, List.range_succ, List.map_append, List.map_cons,
      List.map_nil, List.append_assoc]
    congr 1
    · funext a
      by_cases ha : a = next + (lo + k)
      · subst ha
        rw [if_pos rfl, if_pos (by push_cast; omega)]
        congr 1; ring
      · rw [if_neg ha]
        by_cases hb : next + lo ≤ a ∧ a < next + lo + k
        · rw [if_pos hb, if_pos (by push_cast; omega)]
        · rw [if_neg hb, if_neg (by push_cast; omega)]
    · simp only [add_assoc]


theorem compute_forces_thread_dataOf (current next n : Int) (dt G softening : α) (q r : Int)
    (t : Nat) (h : Heap α) :
    compute_forces_thread (dataOf current next n dt G softening q r t) h
      = forLoop (startOf q r t) (startOf q r (t + 1))
          (iteration current next n dt G softening) h := rfl

theorem foldl_workers (current next n : Int) (dt G softening : α) (q r : Int)
    (hq : 0 ≤ q) (hr : 0 ≤ r) (k : Nat) (h : Heap α) :
    ((List.range k).map (fun t => dataOf current next n dt G softening q r t)).foldl
        (fun h data => compute_forces_thread data h) h
      = forLoop 0 (startOf q r k) (iteration current next n dt G softening) h := by
  induction k with
  | zero => simp [startOf_zero q r hr, forLoop, forRange]
  | succ k ih =>
    rw [List.range_succ, List.map_append, List.foldl_append, ih]
    simp only [List.map_cons, List.map_nil, List.foldl_cons, List.foldl_nil]
    rw [compute_forces_thread_dataOf]
    push_cast
    rw [← forLoop_split _ _ _ _ _ (startOf_nonneg q r hq hr k) (startOf_le_succ q r k hq)]

theorem step_simulation_eq_loop (h : Heap α) (current next n : Int) (dt G softening : α)
    (num_threads : Int) :
    step_simulation h current next n dt G softening num_threads
      = forLoop 0 n (iteration current next n dt G softening) h := by
  unfold step_simulation
  rw [thread_data_eq]
  rcases le_or_lt n 0 with hn | hn
  · rw [clamp_threads_of_nonpos n num_threads hn]
    have e1 : List.range (1 : Int).toNat = [0] := rfl
    rw [e1]
    simp only [List.map_cons, List.map_nil, List.foldl_cons, List.foldl_nil]
    rw [compute_forces_thread_dataOf]
    simp [startOf]
  · have h1 := clamp_threads_pos n num_threads
    rw [foldl_workers _ _ _ _ _ _ _ _ _ (tmod_clamp_nonneg n num_threads)]
    · rw [Int.toNat_of_nonneg (by omega), startOf_clamp]
    · rw [Int.tdiv_eq_ediv (by omega) (by omega)]
      exact Int.ediv_nonneg (by omega) (by omega)

theorem step_simulation_eq_written (h : Heap α) (current next n : Int) (dt G softening : α)
    (num_threads : Int) (hd : current + n ≤ next ∨ next + n ≤ current) :
    step_simulation h current next n dt G softening num_threads
      = written h current next n dt G softening 0 n.toNat := by
  rw [step_simulation_eq_loop]
  unfold forLoop
  simp only [sub_zero]
  rcases lt_or_le n 0 with hn | hn
  · have e0 : n.toNat = 0 := by omega
    rw [e0, written_zero]
    rfl
  · exact worker_range h current next n dt G softening hd n.toNat 0 le_rfl (by omega)


theorem forRange_iteration_log (current next n : Int) (dt G softening : α) (k : Nat) (lo : Int)
    (h : Heap α) :
    (forRange (iteration current next n dt G softening) k lo h).log
      = h.log ++ (List.range k).map (fun j : Nat => next + lo + j) := by
  induction k with
  | zero => simp [forRange]
  | succ k ih =>
    rw [forRange_succ_last]
    simp only [iteration, Heap.store, ih, List.range_succ, List.map_append, List.map_cons,
      List.map_nil, List.append_assoc, add_assoc]

theorem step_simulation_log (h : Heap α) (current next n : Int) (dt G softening : α)
    (num_threads : Int) :
    (step_simulation h current next n dt G softening num_threads).log
      = h.log ++ (List.range n.toNat).map (fun j : Nat => next + j) := by
  rw [step_simulation_eq_loop]
  unfold forLoop
  rw [forRange_iteration_log]
  simp

theorem count_range_map (next : Int) (k : Nat) (i : Int) (h0 : 0 ≤ i) (hk : i < k) :
    ((List.range k).map (fun j : Nat => next + j)).count (next + i) = 1 := by
  apply List.count_eq_one_of_mem
  · apply List.Nodup.map _ (List.nodup_range k)
    intro a b hab
    simp only at hab
    omega
  · rw [List.mem_map]
    exact ⟨i.toNat, List.mem_range.2 (by omega), by omega⟩

theorem forRange_invariant {σ : Type} (P : σ → Prop) (body : Int → σ → σ) (k : Nat) (i : Int)
    (hP : ∀ j s, i ≤ j → j < i + k → P s → P (body j s)) (s : σ) (hs : P s) :
    P (forRange body k i s) := by
  induction k with
  | zero => exact hs
  | succ k ih =>
    rw [forRange_succ_last]
    apply hP _ _ (by omega) (by push_cast; omega)
    exact ih (fun j s h1 h2 => hP j s h1 (by push_cast; omega))

/-- After one step with buffers that do not overlap, `next[i]` holds the kernel's result for
body `i` computed from the buffer `current` as it was on entry. -/
theorem step_simulation_next (h : Heap α) (current next n : Int) (dt G softening : α)
    (num_threads : Int) (hd : current + n ≤ next ∨ next + n ≤ current)
    (i : Int) (hi0 : 0 ≤ i) (hin : i < n) :
    (step_simulation h current next n dt G softening num_threads).view next i
      = kernel (h.view current) n dt G softening i := by
  rw [step_simulation_eq_written _ _ _ _ _ _ _ _ hd]
  simp only [Heap.view, written]
  rw [if_pos (by omega)]
  congr 1
  omega

/-- One step changes no record outside `next[0 .. n-1]`. -/
theorem step_simulation_frame (h : Heap α) (current next n : Int) (dt G softening : α)
    (num_threads : Int) (a : Int) (ha : ¬ (next ≤ a ∧ a < next + n)) :
    (step_simulation h current next n dt G softening num_threads).cell a = h.cell a := by
  rw [step_simulation_eq_loop]
  unfold forLoop
  apply forRange_invariant (fun s : Heap α => s.cell a = h.cell a)
  · intro j s h1 h2 hs
    simp only [iteration, Heap.store]
    rw [if_neg (by omega)]
    exact hs
  · rfl

theorem step_simulation_current (h : Heap α) (current next n : Int) (dt G softening : α)
    (num_threads : Int) (hd : current + n ≤ next ∨ next + n ≤ current)
    (i : Int) (hi0 : 0 ≤ i) (hin : i < n) :
    (step_simulation h current next n dt G softening num_threads).view current i
      = h.view current i :=
  step_simulation_frame h current next n dt G softening num_threads (current + i) (by omega)

theorem kernel_m (current : Int → body_t α) (n : Int) (dt G softening : α) (i : Int) :
    (kernel current n dt G softening i).m = (current i).m := rfl

theorem run_invariant (P : Driver α → Prop) (n : Int) (dt G softening : α)
    (num_threads : Int)
    (hP : ∀ d, P d → P (step_and_swap n dt G softening num_threads d))
    (N_STEPS : Int) (d : Driver α) (hd : P d) :
    P (run N_STEPS n dt G softening num_threads d) := by
  unfold run forLoop
  exact forRange_invariant P _ _ _ (fun _ s _ _ hs => hP s hs) d hd

theorem worker_cell (h : Heap α) (current next n : Int) (dt G softening : α)
    (hd : current + n ≤ next ∨ next + n ≤ current) (d : thread_data_t α)
    (hw : worker_of current next n dt G softening d) (a : Int) :
    (compute_forces_thread d h).cell a
      = if next + d.start_idx ≤ a ∧ a < next + d.end_idx
          then kernel (h.view current) n dt G softening (a - next) else h.cell a := by
  obtain ⟨h1, h2, h3, h4, h5, h6, h7, h8⟩ := hw
  unfold compute_forces_thread forLoop
  rw [h1, h2, h3, h4, h5, h6]
  rcases le_or_lt d.start_idx d.end_idx with hle | hlt
  · have := worker_range h current next n dt G softening hd (d.end_idx - d.start_idx).toNat
      d.start_idx h7 (by omega)
    rw [this]
    simp only [written]
    by_cases hc : next + d.start_idx ≤ a ∧ a < next + d.end_idx
    · rw [if_pos hc, if_pos (by omega)]
    · rw [if_neg hc, if_neg (by omega)]
  · have e0 : (d.end_idx - d.start_idx).toNat = 0 := by omega
    rw [e0, if_neg (by omega)]
    rfl

/-- Workers run one after the other in any order: every record in the range of one of them
holds the kernel's result computed from the initial `current`, all other records are
unchanged. -/
theorem workers_cell (current next n : Int) (dt G softening : α)
    (hd : current + n ≤ next ∨ next + n ≤ current) (l : List (thread_data_t α))
    (hl : ∀ d ∈ l, worker_of current next n dt G softening d) (h : Heap α) (a : Int) :
    (l.foldl (fun h data => compute_forces_thread data h) h).cell a
      = if ∃ d ∈ l, next + d.start_idx ≤ a ∧ a < next + d.end_idx
          then kernel (h.view current) n dt G softening (a - next) else h.cell a := by
  induction l generalizing h with
  | nil => simp
  | cons d l ih =>
    have hw := hl d (List.mem_cons_self d l)
    rw [List.foldl_cons, ih (fun d' hd' => hl d' (List.mem_cons_of_mem d hd'))]
    have hview : ∀ j, 0 ≤ j → j < n →
        (compute_forces_thread d h).view current j = h.view current j := by
      intro j hj0 hjn
      simp only [Heap.view]
      rw [worker_cell h current next n dt G softening hd d hw, if_neg]
      obtain ⟨_, _, _, _, _, _, h7, h8⟩ := hw
      omega
    by_cases hc : ∃ d' ∈ l, next + d'.start_idx ≤ a ∧ a < next + d'.end_idx
    · rw [if_pos hc, if_pos]
      · obtain ⟨d', hd', h1, h2⟩ := hc
        obtain ⟨_, _, _, _, _, _, h7, h8⟩ := hl d' (List.mem_cons_of_mem d hd')
        exact kernel_congr _ _ _ _ _ _ _ (by omega) (by omega) hview
      · obtain ⟨d', hd', h12⟩ := hc
        exact ⟨d', List.mem_cons_of_mem d hd', h12⟩
    · rw [if_neg hc, worker_cell h current next n dt G softening hd d hw]
      by_cases hc' : next + d.start_idx ≤ a ∧ a < next + d.end_idx
      · rw [if_pos hc', if_pos ⟨d, List.mem_cons_self d l, hc'⟩]
      · rw [if_neg hc', if_neg]
        rintro ⟨d', hd', h12⟩
        rcases List.mem_cons.1 hd' with e | e
        · subst e; exact hc' h12
        · exact hc ⟨d', e, h12⟩

end Worker
section Driving

variable {α : Type} [Scalar α]

theorem run_zero (n : Int) (dt G softening : α) (num_threads : Int) (d : Driver α) :
    run 0 n dt G softening num_threads d = d := rfl

theorem run_succ (k : Nat) (n : Int) (dt G softening : α) (num_threads : Int) (d : Driver α) :
    run ((k : Int) + 1) n dt G softening num_threads d
      = step_and_swap n dt G softening num_threads (run k n dt G softening num_threads d) := by
  unfold run forLoop
  have e1 : ((k : Int) + 1 - 0).toNat = k + 1 := by omega
  have e2 : ((k : Int) - 0).toNat = k := by omega
  rw [e1, e2, forRange_succ_last]

theorem kernel_single (current : Int → body_t α) (dt G softening : α) :
    kernel current 1 dt G softening 0
      = { x := (current 0).x + ((current 0).vx + 0 / (current 0).m * dt) * dt,
          y := (current 0).y + ((current 0).vy + 0 / (current 0).m * dt) * dt,
          vx := (current 0).vx + 0 / (current 0).m * dt,
          vy := (current 0).vy + 0 / (current 0).m * dt,
          m := (current 0).m } := by
  simp [kernel, forLoop, forRange, accumulate]

theorem exchange_invol (a b i : Int) : exchange a b (exchange a b i) = i := by
  unfold exchange
  split_ifs <;> omega

theorem exchange_inj (a b : Int) : Function.Injective (exchange a b) := by
  intro i j h
  have := congrArg (exchange a b) h
  rwa [exchange_invol, exchange_invol] at this

theorem exchange_range (a b n i : Int) (ha : 0 ≤ a ∧ a < n) (hb : 0 ≤ b ∧ b < n) :
    (0 ≤ exchange a b i ∧ exchange a b i < n) ↔ (0 ≤ i ∧ i < n) := by
  unfold exchange
  split_ifs <;> omega

theorem forRange_eq_foldl {σ : Type} (body : Int → σ → σ) (k : Nat) (lo : Int) (s : σ) :
    forRange body k lo s
      = ((List.range k).map (fun j : Nat => lo + j)).foldl (fun s j => body j s) s := by
  induction k with
  | zero => rfl
  | succ k ih =>
    rw [forRange_succ_last, ih, List.range_succ, List.map_append, List.foldl_append]
    rfl

theorem range_exchange_perm (a b : Int) (k : Nat) (ha : 0 ≤ a ∧ a < k) (hb : 0 ≤ b ∧ b < k) :
    ((List.range k).map (fun j : Nat => exchange a b (0 + j))).Perm
      ((List.range k).map (fun j : Nat => (0 : Int) + j)) := by
  have hinj : Function.Injective (fun j : Nat => (0 : Int) + j) := by
    intro i j h
    simp only at h
    omega
  rw [List.perm_ext_iff_of_nodup]
  · intro x
    simp only [List.mem_map, List.mem_range]
    constructor
    · rintro ⟨j, hj, rfl⟩
      have := (exchange_range a b k (0 + j) ha hb).2 ⟨by omega, by omega⟩
      exact ⟨(exchange a b (0 + j)).toNat, by omega, by omega⟩
    · rintro ⟨j, hj, rfl⟩
      have := (exchange_range a b k (0 + j) ha hb).2 ⟨by omega, by omega⟩
      refine ⟨(exchange a b (0 + j)).toNat, by omega, ?_⟩
      rw [show (0 : Int) + ((exchange a b (0 + j)).toNat : Int) = exchange a b (0 + j) by omega,
        exchange_invol]
  · exact List.Nodup.map ((exchange_inj a b).comp hinj) (List.nodup_range k)
  · exact List.Nodup.map hinj (List.nodup_range k)

theorem accumulate_comm (hadd : ∀ u v w : α, u + v + w = u + w + v)
    (current : Int → body_t α) (i : Int) (G softening m_i : α) (j₁ j₂ : Int) (F : α × α) :
    accumulate current i G softening m_i j₁ (accumulate current i G softening m_i j₂ F)
      = accumulate current i G softening m_i j₂ (accumulate current i G softening m_i j₁ F) := by
  unfold accumulate
  split_ifs
  · rfl
  · rfl
  · rfl
  · simp only
    rw [hadd F.1, hadd F.2]

theorem accumulate_exchange (a b : Int) (current : Int → body_t α) (i : Int)
    (G softening m_i : α) (j : Int) (F : α × α) :
    accumulate (fun l => current (exchange a b l)) i G softening m_i j F
      = accumulate current (exchange a b i) G softening m_i (exchange a b j) F := by
  unfold accumulate
  by_cases h : j = i
  · rw [if_pos h, if_pos (by rw [h])]
  · rw [if_neg h, if_neg (fun e => h (exchange_inj a b e))]

/-- With an addition in which the order of the summands does not matter, the kernel
commutes with the exchange of two bodies. -/
theorem kernel_exchange (hadd : ∀ u v w : α, u + v + w = u + w + v)
    (a b n : Int) (ha : 0 ≤ a ∧ a < n) (hb : 0 ≤ b ∧ b < n)
    (current : Int → body_t α) (dt G softening : α) (i : Int) :
    kernel (fun l => current (exchange a b l)) n dt G softening i
      = kernel current n dt G softening (exchange a b i) := by
  have hF : forLoop 0 n (accumulate (fun l => current (exchange a b l)) i G softening
        (current (exchange a b i)).m) (0, 0)
      = forLoop 0 n (accumulate current (exchange a b i) G softening
        (current (exchange a b i)).m) (0, 0) := by
    unfold forLoop
    rw [forRange_eq_foldl, forRange_eq_foldl]
    simp only [accumulate_exchange]
    have hp := range_exchange_perm a b (n - 0).toNat (by omega) (by omega)
    have e1 : List.foldl (fun s j => accumulate current (exchange a b i) G softening
          (current (exchange a b i)).m (exchange a b j) s) (0, 0)
          (List.map (fun j : Nat => (0 : Int) + j) (List.range (n - 0).toNat))
        = List.foldl (fun s j => accumulate current (exchange a b i) G softening
          (current (exchange a b i)).m j s) (0, 0)
          (List.map (fun j : Nat => exchange a b (0 + j)) (List.range (n - 0).toNat)) := by
      rw [List.foldl_map, List.foldl_map]
    rw [e1]
    exact List.Perm.foldl_eq' hp
      (fun x _ y _ z => accumulate_comm hadd current (exchange a b i) G softening _ y x z) _
  simp only [kernel, hF]

theorem forRange_rel {σ τ : Type} (R : σ → τ → Prop) (f : Int → σ → σ) (g : Int → τ → τ)
    (hR : ∀ i s t, R s t → R (f i s) (g i t)) (k : Nat) (i : Int) (s : σ) (t : τ)
    (h : R s t) : R (forRange f k i s) (forRange g k i t) := by
  induction k generalizing i s t with
  | zero => exact h
  | succ k ih => exact ih _ _ _ (hR i s t h)

theorem kernel_two_zero (c : Int → body_t α) (dt G softening : α) :
    kernel c 2 dt G softening 0
      = (let dx := (c 1).x - (c 0).x
         let dy := (c 1).y - (c 0).y
         let dist2 := dx * dx + dy * dy + softening * softening
         let F_mag := G * (c 0).m * (c 1).m / dist2
         let vx_new := (c 0).vx + (0 + F_mag * (dx / Scalar.sqrt dist2)) / (c 0).m * dt
         let vy_new := (c 0).vy + (0 + F_mag * (dy / Scalar.sqrt dist2)) / (c 0).m * dt
         { x := (c 0).x + vx_new * dt, y := (c 0).y + vy_new * dt,
           vx := vx_new, vy := vy_new, m := (c 0).m }) := by
  simp [kernel, forLoop, forRange, accumulate]

theorem kernel_two_one (c : Int → body_t α) (dt G softening : α) :
    kernel c 2 dt G softening 1
      = (let dx := (c 0).x - (c 1).x
         let dy := (c 0).y - (c 1).y
         let dist2 := dx * dx + dy * dy + softening * softening
         let F_mag := G * (c 1).m * (c 0).m / dist2
         let vx_new := (c 1).vx + (0 + F_mag * (dx / Scalar.sqrt dist2)) / (c 1).m * dt
         let vy_new := (c 1).vy + (0 + F_mag * (dy / Scalar.sqrt dist2)) / (c 1).m * dt
         { x := (c 1).x + vx_new * dt, y := (c 1).y + vy_new * dt,
           vx := vx_new, vy := vy_new, m := (c 1).m }) := by
  simp [kernel, forLoop, forRange, accumulate]

end Driving

section ExactLemmas

variable {K : Type} [LinearOrderedField K] [HasSqrt K]

theorem val_add (a b : K) : (Num.val a + Num.val b : Num K) = Num.val (a + b) := rfl
theorem val_sub (a b : K) : (Num.val a - Num.val b : Num K) = Num.val (a - b) := rfl
theorem val_mul (a b : K) : (Num.val a * Num.val b : Num K) = Num.val (a * b) := rfl
theorem val_div (a b : K) (hb : b ≠ 0) : (Num.val a / Num.val b : Num K) = Num.val (a / b) :=
  if_neg hb
theorem val_div_zero (a : K) : (Num.val a / Num.val 0 : Num K) = Num.nan := if_pos rfl
theorem val_zero : (0 : Num K) = Num.val 0 := rfl
theorem val_sqrt (a : K) (ha : 0 ≤ a) :
    (Scalar.sqrt (Num.val a) : Num K) = Num.val (HasSqrt.sqrt a) := if_neg (not_lt.2 ha)


theorem num_add_right_comm (u v w : Num K) : u + v + w = u + w + v := by
  cases u <;> cases v <;> cases w <;> first | rfl | exact congrArg Num.val (add_right_comm _ _ _)

theorem num_reflect_sub (C : K) (u : Num K) :
    u - (.val C - u) = 0 - ((.val C - u) - u) := by
  cases u
  · exact congrArg Num.val (by ring)
  · rfl

theorem num_neg_sub_neg (u v : Num K) : (0 - u) - (0 - v) = 0 - (u - v) := by
  cases u <;> cases v <;> first | rfl | exact congrArg Num.val (by ring)

theorem num_neg_mul_neg (u : Num K) : (0 - u) * (0 - u) = u * u := by
  cases u
  · exact congrArg Num.val (by ring)
  · rfl

theorem num_neg_mul (u v : Num K) : (0 - u) * v = 0 - u * v := by
  cases u <;> cases v <;> first | rfl | exact congrArg Num.val (by ring)

theorem num_mul_neg (u v : Num K) : u * (0 - v) = 0 - u * v := by
  cases u <;> cases v <;> first | rfl | exact congrArg Num.val (by ring)

theorem num_neg_add (u v : Num K) : (0 - u) + (0 - v) = 0 - (u + v) := by
  cases u <;> cases v <;> first | rfl | exact congrArg Num.val (by ring)

theorem num_zero_add_neg (u : Num K) : 0 + (0 - u) = 0 - (0 + u) := by
  cases u
  · exact congrArg Num.val (by ring)
  · rfl

theorem num_reflect_add (C : K) (u v : Num K) :
    (.val C - u) + (0 - v) = .val C - (u + v) := by
  cases u <;> cases v <;> first | rfl | exact congrArg Num.val (by ring)

theorem num_neg_div (u v : Num K) : (0 - u) / v = 0 - u / v := by
  cases u with
  | nan => cases v <;> rfl
  | val a =>
    cases v with
    | nan => rfl
    | val b =>
      by_cases hb : b = 0
      · subst hb
        rw [val_zero, val_sub, val_div_zero, val_div_zero]
        rfl
      · rw [val_zero, val_sub, val_div _ _ hb, val_div _ _ hb, val_sub]
        exact congrArg Num.val (by ring)

theorem num_mul_right_comm (u v w : Num K) : u * v * w = u * w * v := by
  cases u <;> cases v <;> cases w <;> first | rfl | exact congrArg Num.val (by ring)

/-- The kernel keeps two bodies mirror images of each other. -/
theorem kernel_mirrored (cx cy : K) (c : Int → body_t (Num K)) (dt G softening : Num K)
    (h : mirrored cx cy (c 0) (c 1)) :
    mirrored cx cy (kernel c 2 dt G softening 0) (kernel c 2 dt G softening 1) := by
  obtain ⟨hx, hy, hvx, hvy, hm⟩ := h
  rw [kernel_two_zero, kernel_two_one]
  simp only [mirrored]
  rw [hx, hy, hvx, hvy, hm]
  simp only [num_reflect_sub]
  simp only [num_neg_mul_neg]
  simp only [num_neg_div]
  simp only [num_mul_neg]
  simp only [num_zero_add_neg]
  simp only [num_neg_div]
  simp only [num_neg_mul]
  simp only [num_neg_add]
  simp only [num_neg_mul]
  simp only [num_reflect_add]
  exact ⟨trivial, trivial, trivial, trivial, trivial⟩

/-- The kernel on body 0 of a pair at `(-a, 0)` and `(a, 0)` with velocities `(-u, 0)` and
`(u, 0)` and equal non-zero masses: body 0 stays on the x-axis, and its velocity grows by
the attraction of body 1. -/
theorem kernel_on_axis (c : Int → body_t (Num K)) (a u m g s t : K) (hm : m ≠ 0)
    (hs : s ≠ 0) (hrt : ∀ r : K, 0 < r → 0 < HasSqrt.sqrt r)
    (hc0 : c 0 = { x := .val (-a), y := .val 0, vx := .val (-u), vy := .val 0, m := .val m })
    (hc1 : c 1 = { x := .val a, y := .val 0, vx := .val u, vy := .val 0, m := .val m }) :
    kernel c 2 (.val t) (.val g) (.val s) 0
      = { x := .val (-(a + (u - g * m * m / ((a + a) * (a + a) + s * s)
                * ((a + a) / HasSqrt.sqrt ((a + a) * (a + a) + s * s)) / m * t) * t)),
          y := .val 0,
          vx := .val (-(u - g * m * m / ((a + a) * (a + a) + s * s)
                * ((a + a) / HasSqrt.sqrt ((a + a) * (a + a) + s * s)) / m * t)),
          vy := .val 0,
          m := .val m } := by
  have hpos : 0 < (a + a) * (a + a) + s * s := by
    have h1 : 0 ≤ (a + a) * (a + a) := mul_self_nonneg _
    have h2 : 0 < s * s := mul_self_pos.2 hs
    linarith
  have hd2 : (a - -a) * (a - -a) + (0 - 0) * (0 - 0) + s * s = (a + a) * (a + a) + s * s := by
    ring
  rw [kernel_two_zero, hc0, hc1]
  simp only [val_sub, val_mul, val_add, hd2, val_sqrt _ hpos.le, val_div _ _ hpos.ne',
    val_div _ _ (hrt _ hpos).ne', val_div _ _ hm, val_zero]
  congr 2 <;> ring

theorem mirrored_on_axis (p q : body_t (Num K)) (a u m : K) (h : mirrored 0 0 p q)
    (hp : p = { x := .val (-a), y := .val 0, vx := .val (-u), vy := .val 0, m := .val m }) :
    q = { x := .val a, y := .val 0, vx := .val u, vy := .val 0, m := .val m } := by
  obtain ⟨hx, hy, hvx, hvy, hm⟩ := h
  subst hp
  cases q with
  | mk qx qy qvx qvy qm =>
    simp only at hx hy hvx hvy hm
    subst hx hy hvx hvy hm
    simp only [val_zero, val_sub]
    congr 2 <;> ring

theorem step_and_swap_view (d : Driver (Num K)) (n : Int) (dt G softening : Num K)
    (num_threads : Int) (hd : d.current + n ≤ d.next ∨ d.next + n ≤ d.current)
    (i : Int) (hi0 : 0 ≤ i) (hin : i < n) :
    (step_and_swap n dt G softening num_threads d).heap.view
        (step_and_swap n dt G softening num_threads d).current i
      = kernel (d.heap.view d.current) n dt G softening i :=
  step_simulation_next d.heap d.current d.next n dt G softening num_threads hd i hi0 hin

/-- The kernel on body 0 of a pair of equal non-zero mass at `(cx - px, cy - py)` and
`(cx + px, cy + py)` with velocities `(-ux, -uy)` and `(ux, uy)`. -/
theorem kernel_pair (c : Int → body_t (Num K)) (cx cy px py ux uy m g s t : K) (hm : m ≠ 0)
    (hs : s ≠ 0) (hrt : ∀ r : K, 0 < r → 0 < HasSqrt.sqrt r)
    (hc0 : c 0 = { x := .val (cx - px), y := .val (cy - py), vx := .val (-ux),
                   vy := .val (-uy), m := .val m })
    (hc1 : c 1 = { x := .val (cx + px), y := .val (cy + py), vx := .val ux,
                   vy := .val uy, m := .val m }) :
    kernel c 2 (.val t) (.val g) (.val s) 0
      = { x := .val (cx - (px + (ux - g * m * m / ((px + px) * (px + px) + (py + py) * (py + py)
                + s * s) * ((px + px) / HasSqrt.sqrt ((px + px) * (px + px)
                + (py + py) * (py + py) + s * s)) / m * t) * t)),
          y := .val (cy - (py + (uy - g * m * m / ((px + px) * (px + px) + (py + py) * (py + py)
                + s * s) * ((py + py) / HasSqrt.sqrt ((px + px) * (px + px)
                + (py + py) * (py + py) + s * s)) / m * t) * t)),
          vx := .val (-(ux - g * m * m / ((px + px) * (px + px) + (py + py) * (py + py)
                + s * s) * ((px + px) / HasSqrt.sqrt ((px + px) * (px + px)
                + (py + py) * (py + py) + s * s)) / m * t)),
          vy := .val (-(uy - g * m * m / ((px + px) * (px + px) + (py + py) * (py + py)
                + s * s) * ((py + py) / HasSqrt.sqrt ((px + px) * (px + px)
                + (py + py) * (py + py) + s * s)) / m * t)),
          m := .val m } := by
  have hpos : 0 < (px + px) * (px + px) + (py + py) * (py + py) + s * s := by
    have h1 : 0 ≤ (px + px) * (px + px) := mul_self_nonneg _
    have h2 : 0 ≤ (py + py) * (py + py) := mul_self_nonneg _
    have h3 : 0 < s * s := mul_self_pos.2 hs
    linarith
  have hd2 : (cx + px - (cx - px)) * (cx + px - (cx - px))
      + (cy + py - (cy - py)) * (cy + py - (cy - py)) + s * s
      = (px + px) * (px + px) + (py + py) * (py + py) + s * s := by
    ring
  have hdx : cx + px - (cx - px) = px + px := by ring
  have hdy : cy + py - (cy - py) = py + py := by ring
  rw [kernel_two_zero, hc0, hc1]
  simp only [val_sub, val_mul, val_add, hd2, hdx, hdy, val_sqrt _ hpos.le,
    val_div _ _ hpos.ne', val_div _ _ (hrt _ hpos).ne', val_div _ _ hm, val_zero]
  congr 2 <;> ring

theorem mirrored_pair (p q : body_t (Num K)) (cx cy px py ux uy m : K)
    (h : mirrored cx cy p q)
    (hp : p = { x := .val (cx - px), y := .val (cy - py), vx := .val (-ux),
                vy := .val (-uy), m := .val m }) :
    q = { x := .val (cx + px), y := .val (cy + py), vx := .val ux, vy := .val uy,
          m := .val m } := by
  obtain ⟨hx, hy, hvx, hvy, hm⟩ := h
  subst hp
  cases q with
  | mk qx qy qvx qvy qm =>
    simp only at hx hy hvx hvy hm
    subst hx hy hvx hvy hm
    simp only [val_zero, val_sub]
    congr 2 <;> ring

theorem pair_is_mirrored (cx cy px py ux uy m : K) :
    mirrored cx cy
      ({ x := .val (cx - px), y := .val (cy - py), vx := .val (-ux), vy := .val (-uy),
         m := .val m } : body_t (Num K))
      { x := .val (cx + px), y := .val (cy + py), vx := .val ux, vy := .val uy,
        m := .val m } := by
  refine ⟨?_, ?_, ?_, ?_, rfl⟩ <;> simp only [val_zero, val_sub] <;> congr 1 <;> ring

end ExactLemmas

section ConcreteLemmas

theorem rat_sqrt_pos (q : ℚ) (hq : 0 < q) : 0 < (HasSqrt.sqrt q : ℚ) := by
  have h1 : 0 < q.num := Rat.num_pos.2 hq
  have h2 : 0 < Nat.sqrt q.den := Nat.sqrt_pos.2 q.den_pos
  have h3 : 0 < Int.sqrt q.num := by
    unfold Int.sqrt
    have : 0 < Nat.sqrt q.num.toNat := Nat.sqrt_pos.2 (by omega)
    exact_mod_cast this
  show 0 < Rat.sqrt q
  unfold Rat.sqrt
  rw [Rat.mkRat_eq_div]
  apply div_pos
  · exact_mod_cast h3
  · exact_mod_cast h2

theorem rat_sqrt_one_le (q : ℚ) (hq : 1 ≤ q) : 1 ≤ (HasSqrt.sqrt q : ℚ) := by
  have hden : (0 : ℚ) < q.den := by exact_mod_cast q.den_pos
  have h1 : (q.den : ℚ) ≤ q.num := by
    have := Rat.num_div_den q
    rw [← this] at hq
    exact (one_le_div hden).1 hq
  have h2 : (q.den : Int) ≤ q.num := by exact_mod_cast h1
  have h3 : Nat.sqrt q.den ≤ Nat.sqrt q.num.toNat := Nat.sqrt_le_sqrt (by omega)
  have h4 : 0 < Nat.sqrt q.den := Nat.sqrt_pos.2 q.den_pos
  show 1 ≤ Rat.sqrt q
  unfold Rat.sqrt Int.sqrt
  rw [Rat.mkRat_eq_div, one_le_div (by exact_mod_cast h4)]
  exact_mod_cast h3

theorem pair_mirrored :
    mirrored 0 0 (pair_driver.heap.view pair_driver.current 0)
      (pair_driver.heap.view pair_driver.current 1) := by
  refine ⟨?_, ?_, ?_, ?_, rfl⟩ <;>
    simp only [pair_driver, Heap.view, left_body, right_body, val_zero] <;>
    norm_num <;> rw [val_sub] <;> norm_num

end ConcreteLemmas

section CppLemmas
variable {α : Type} [Scalar α]

theorem accumulate_cpp_eq : @accumulate_cpp α _ = accumulate := rfl

theorem kernel_cpp_eq : @kernel_cpp α _ = kernel := rfl

theorem lambda_cpp_eq (current next n : Int) (dt G softening : α) (start_idx end_idx : Int)
    (h : Heap α) :
    lambda_cpp current next n dt G softening start_idx end_idx h
      = compute_forces_thread
          { current := current, next := next, n := n, dt := dt, G := G,
            softening := softening, start_idx := start_idx, end_idx := end_idx } h := rfl

theorem emplace_cpp_loop (q r : Int) (k : Nat) :
    ∀ (t : Nat) (acc : List (Int × Int)),
    forRange (emplace_cpp q r) k t (startOf q r t, acc)
      = (startOf q r (t + k),
         acc ++ (List.range k).map
          (fun j : Nat => (startOf q r ((t + j : Nat) : Int), startOf q r ((t + j : Nat) + 1)))) := by
  induction k with
  | zero => intro t acc; simp [forRange]
  | succ k ih =>
    intro t acc
    simp only [forRange]
    have hs : emplace_cpp q r t (startOf q r t, acc)
        = (startOf q r ((t + 1 : Nat) : Int), acc ++ [(startOf q r t, startOf q r (t + 1))]) := by
      simp only [emplace_cpp, Nat.cast_add, Nat.cast_one, startOf_succ]
    rw [hs]
    have := ih (t + 1) (acc ++ [(startOf q r t, startOf q r (t + 1))])
    simp only [Nat.cast_add, Nat.cast_one] at this ⊢
    rw [this, List.range_succ_eq_map, List.map_cons, List.map_map]
    simp only [List.append_assoc, List.singleton_append, Nat.cast_zero, add_zero]
    refine Prod.ext ?_ ?_
    · simp only; congr 1; ring
    · simp only
      congr 2
      apply List.map_congr_left
      intro j _
      simp only [Function.comp, Nat.succ_eq_add_one, Nat.cast_add, Nat.cast_one]
      refine Prod.ext ?_ ?_ <;> simp only <;> congr 1 <;> ring

theorem threads_cpp_eq (n num_threads : Int) :
    threads_cpp n num_threads
      = (List.range (clamp_threads n num_threads).toNat).map
          (fun t : Nat =>
            (startOf (Int.tdiv n (clamp_threads n num_threads))
                (Int.tmod n (clamp_threads n num_threads)) t,
             startOf (Int.tdiv n (clamp_threads n num_threads))
                (Int.tmod n (clamp_threads n num_threads)) ((t : Int) + 1))) := by
  have hdef : threads_cpp n num_threads
      = (forLoop 0 (clamp_threads n num_threads)
          (emplace_cpp (Int.tdiv n (clamp_threads n num_threads))
            (Int.tmod n (clamp_threads n num_threads))) (0, [])).2 := rfl
  rw [hdef]
  unfold forLoop
  have h0 : ((0 : Int), ([] : List (Int × Int)))
      = (startOf (Int.tdiv n (clamp_threads n num_threads))
          (Int.tmod n (clamp_threads n num_threads)) ((0 : Nat) : Int), []) := by
    have := tmod_clamp_nonneg n num_threads
    simp [startOf, this]
  simp only [sub_zero]
  rw [h0]
  have := emplace_cpp_loop (Int.tdiv n (clamp_threads n num_threads))
    (Int.tmod n (clamp_threads n num_threads)) (clamp_threads n num_threads).toNat 0 []
  simp only [Nat.cast_zero] at this ⊢
  rw [this]
  simp

/-- The C++ step runs the same workers as the C step. -/
theorem step_simulation_cpp_eq (h : Heap α) (current next n : Int) (dt G softening : α)
    (num_threads : Int) :
    step_simulation_cpp h current next n dt G softening num_threads
      = step_simulation h current next n dt G softening num_threads := by
  unfold step_simulation_cpp step_simulation
  rw [threads_cpp_eq, thread_data_eq, List.foldl_map, List.foldl_map]
  rfl

theorem run_add (a b : Nat) (n : Int) (dt G softening : α) (num_threads : Int) (d : Driver α) :
    run ((a : Int) + b) n dt G softening num_threads d
      = run b n dt G softening num_threads (run a n dt G softening num_threads d) := by
  induction b with
  | zero => simp [run_zero]
  | succ b ih =>
    rw [Nat.cast_succ, ← add_assoc]
    have e : (a : Int) + b = ((a + b : Nat) : Int) := by push_cast; rfl
    rw [e, run_succ, ← e, ih, run_succ]

theorem while_cpp_run (close : Int → Bool) (N_STEPS n : Int) (dt G softening : α)
    (num_threads : Int) (d : Driver α) (fuel : Nat) :
    ∀ (k : Nat), N_STEPS ≤ k + fuel →
      ∃ m : Nat, k ≤ m ∧ ((m : Int) ≤ N_STEPS ∨ m = k)
        ∧ ¬ ((m : Int) < N_STEPS ∧ close m = false)
        ∧ while_cpp close N_STEPS n dt G softening num_threads fuel k
            (run k n dt G softening num_threads d)
          = ((m : Int), run m n dt G softening num_threads d) := by
  induction fuel with
  | zero =>
    intro k hk
    exact ⟨k, le_rfl, Or.inr rfl, fun h => by omega, rfl⟩
  | succ fuel ih =>
    intro k hk
    by_cases hc : (k : Int) < N_STEPS ∧ close k = false
    · obtain ⟨m, h1, h2, h3, h4⟩ := ih (k + 1) (by push_cast; omega)
      refine ⟨m, by omega, Or.inl ?_, h3, ?_⟩
      · rcases h2 with h2 | h2
        · exact h2
        · subst h2; push_cast; omega
      · rw [while_cpp, if_pos hc, step_simulation_cpp_eq]
        have e : ({ heap := step_simulation (run k n dt G softening num_threads d).heap
                      (run k n dt G softening num_threads d).current
                      (run k n dt G softening num_threads d).next n dt G softening num_threads,
                    current := (run k n dt G softening num_threads d).next,
                    next := (run k n dt G softening num_threads d).current } : Driver α)
            = run ((k + 1 : Nat) : Int) n dt G softening num_threads d := by
          rw [Nat.cast_succ, run_succ]
          rfl
        rw [e]
        exact_mod_cast h4
    · exact ⟨k, le_rfl, Or.inr rfl, hc, by rw [while_cpp, if_neg hc]⟩

end CppLemmas
section ArgLemmas

end ArgLemmas
section DrawLemmas
variable {K : Type} [LinearOrderedField K] [FloorRing K]

theorem static_cast_int_nonneg (q : K) : 0 ≤ static_cast_int q ↔ -1 < q := by
  unfold static_cast_int
  split_ifs with h
  · constructor
    · intro _; linarith
    · intro _; exact Int.floor_nonneg.2 h
  · have : (0 : Int) ≤ ⌈q⌉ ↔ ((-1 : Int) : K) < q := by
      rw [← Int.lt_ceil]; omega
    rw [this]
    norm_num

theorem static_cast_int_lt (q : K) (z : Int) (hz : 0 < z) : static_cast_int q < z ↔ q < z := by
  unfold static_cast_int
  split_ifs with h
  · exact Int.floor_lt
  · have h0 : q < 0 := not_le.1 h
    have hz' : (0 : K) < z := by exact_mod_cast hz
    constructor
    · intro _; linarith
    · intro _
      have : ⌈q⌉ ≤ 0 := Int.ceil_le.2 (by exact_mod_cast h0.le)
      omega

/-- The bodies that are drawn are those with `-10.025 < x < 10` and `-10 - 1/30 < y < 10`. -/
theorem draw_condition_iff (x y : K) :
    draw_condition x y = true
      ↔ (-401 / 40 < x ∧ x < 10) ∧ (-301 / 30 < y ∧ y < 10) := by
  simp only [draw_condition, decide_eq_true_eq, ge_iff_le, WINDOW_WIDTH, WINDOW_HEIGHT,
    VIEW_RANGE]
  rw [static_cast_int_nonneg, static_cast_int_nonneg, static_cast_int_lt _ 800 (by decide),
    static_cast_int_lt _ 600 (by decide)]
  push_cast
  constructor
  · rintro ⟨h1, h2, h3, h4⟩
    refine ⟨⟨?_, ?_⟩, ?_, ?_⟩ <;> linarith
  · rintro ⟨⟨h1, h2⟩, h3, h4⟩
    refine ⟨?_, ?_, ?_, ?_⟩ <;> linarith

/-- A body beyond the right or the upper edge of the view, or more than one pixel beyond the
left or the lower edge, is not drawn. -/
theorem not_drawn_beyond (x y : K)
    (h : 10 ≤ x ∨ 10 ≤ y ∨ x ≤ -401 / 40 ∨ y ≤ -301 / 30) : draw_condition x y = false := by
  rw [Bool.eq_false_iff, Ne, draw_condition_iff]
  rintro ⟨⟨h1, h2⟩, h3, h4⟩
  rcases h with h | h | h | h <;> linarith

end DrawLemmas

section InitLemmas
variable {K : Type} [LinearOrderedField K] [HasSqrt K]

theorem init_loop (RAND_MAX : Int) (rand : Nat → Int) (bodies : Int) (h : Heap (Num K))
    (k : Nat) :
    forRange (fun i (s : Heap (Num K) × Nat) =>
        (s.1.store (bodies + i) (random_body RAND_MAX rand s.2), s.2 + 5)) k 0 (h, 0)
      = ({ cell := fun a => if bodies ≤ a ∧ a < bodies + k
              then random_body RAND_MAX rand (5 * (a - bodies).toNat) else h.cell a,
           log := h.log ++ (List.range k).map (fun j : Nat => bodies + j) }, 5 * k) := by
  induction k with
  | zero =>
    simp only [forRange, Nat.cast_zero, add_zero, List.range_zero, List.map_nil,
      List.append_nil, Nat.mul_zero]
    cases h with
    | mk cell log =>
      congr 2
      funext a
      rw [if_neg (by omega)]
  | succ k ih =>
    rw [forRange_succ_last, ih]
    simp only [Heap.store, List.range_succ, List.map_append, List.map_cons, List.map_nil,
      List.append_assoc, zero_add]
    refine Prod.ext ?_ (by simp only; ring)
    simp only
    congr 1
    funext a
    by_cases ha : a = bodies + k
    · subst ha
      rw [if_pos rfl, if_pos (by push_cast; omega)]
      congr 2
      omega
    · rw [if_neg ha]
      by_cases hb : bodies ≤ a ∧ a < bodies + k
      · rw [if_pos hb, if_pos (by push_cast; omega)]
      · rw [if_neg hb, if_neg (by push_cast; omega)]

theorem init_bodies_view (RAND_MAX : Int) (rand : Nat → Int) (bodies n : Int)
    (h : Heap (Num K)) (i : Int) (hi0 : 0 ≤ i) (hin : i < n) :
    (init_bodies RAND_MAX rand bodies n h).view bodies i
      = random_body RAND_MAX rand (5 * i.toNat) := by
  unfold init_bodies forLoop
  rw [init_loop]
  simp only [Heap.view]
  rw [if_pos (by omega)]
  congr 2
  omega

theorem unit_interval (RAND_MAX r : Int) (hmax : 0 < RAND_MAX) (h0 : 0 ≤ r) (h1 : r ≤ RAND_MAX) :
    (Num.val (r : K) / Num.val (RAND_MAX : K) : Num K) = .val ((r : K) / (RAND_MAX : K))
    ∧ (0 : K) ≤ (r : K) / (RAND_MAX : K) ∧ (r : K) / (RAND_MAX : K) ≤ 1 := by
  have hpos : (0 : K) < (RAND_MAX : K) := by exact_mod_cast hmax
  refine ⟨val_div _ _ hpos.ne', ?_, ?_⟩
  · exact div_nonneg (by exact_mod_cast h0) hpos.le
  · rw [div_le_one hpos]
    exact_mod_cast h1

theorem random_body_bounds (RAND_MAX : Int) (rand : Nat → Int) (c : Nat) (hmax : 0 < RAND_MAX)
    (hr : ∀ k, 0 ≤ rand k ∧ rand k ≤ RAND_MAX) :
    ∃ x y vx vy m : K,
      (random_body RAND_MAX rand c : body_t (Num K))
        = { x := .val x, y := .val y, vx := .val vx, vy := .val vy, m := .val m }
      ∧ (-1 ≤ x ∧ x ≤ 1) ∧ (-1 ≤ y ∧ y ≤ 1)
      ∧ (-(1 / 10) ≤ vx ∧ vx ≤ 1 / 10) ∧ (-(1 / 10) ≤ vy ∧ vy ≤ 1 / 10)
      ∧ (1 / 2 ≤ m ∧ m ≤ 5) := by
  obtain ⟨e0, a0, b0⟩ := unit_interval (K := K) RAND_MAX (rand c) hmax (hr _).1 (hr _).2
  obtain ⟨e1, a1, b1⟩ := unit_interval (K := K) RAND_MAX (rand (c + 1)) hmax (hr _).1 (hr _).2
  obtain ⟨e2, a2, b2⟩ := unit_interval (K := K) RAND_MAX (rand (c + 2)) hmax (hr _).1 (hr _).2
  obtain ⟨e3, a3, b3⟩ := unit_interval (K := K) RAND_MAX (rand (c + 3)) hmax (hr _).1 (hr _).2
  obtain ⟨e4, a4, b4⟩ := unit_interval (K := K) RAND_MAX (rand (c + 4)) hmax (hr _).1 (hr _).2
  refine ⟨-1 + (1 - -1) * ((rand c : K) / RAND_MAX),
    -1 + (1 - -1) * ((rand (c + 1) : K) / RAND_MAX),
    -(1 / 10) + (1 / 10 - -(1 / 10)) * ((rand (c + 2) : K) / RAND_MAX),
    -(1 / 10) + (1 / 10 - -(1 / 10)) * ((rand (c + 3) : K) / RAND_MAX),
    1 / 2 + (5 - 1 / 2) * ((rand (c + 4) : K) / RAND_MAX), ?_, ?_, ?_, ?_, ?_, ?_⟩
  · simp only [random_body, e0, e1, e2, e3, e4, val_sub, val_mul, val_add]
  · constructor <;> linarith
  · constructor <;> linarith
  · constructor <;> linarith
  · constructor <;> linarith
  · constructor <;> linarith

end InitLemmas

section RefLemmas
variable {α : Type} [Scalar α]

theorem foldl_accumulate (current : Int → body_t α) (G softening : α) (i : Int)
    (l : List Int) (F : α × α) :
    l.foldl (fun F j => accumulate current i G softening (current i).m j F) F
      = (l.filter (fun j => decide (j ≠ i))).foldl
          (fun F j => (F.1 + (pair_force current G softening i j).1,
                       F.2 + (pair_force current G softening i j).2)) F := by
  induction l generalizing F with
  | nil => rfl
  | cons j l ih =>
    by_cases hj : j = i
    · rw [List.foldl_cons, List.filter_cons_of_neg (by simp [hj]), ih]
      simp only [accumulate, if_pos hj]
    · rw [List.foldl_cons, List.filter_cons_of_pos (by simp [hj]), List.foldl_cons, ih]
      simp only [accumulate, if_neg hj, pair_force]

theorem force_loop_eq_reference (current : Int → body_t α) (n : Int) (G softening : α)
    (i : Int) :
    forLoop 0 n (accumulate current i G softening (current i).m) (0, 0)
      = reference_force current n G softening i := by
  unfold forLoop reference_force
  rw [forRange_eq_foldl, foldl_accumulate]
  simp only [sub_zero, zero_add]

end RefLemmas

section DistLemmas
variable {K : Type} [LinearOrderedField K]

theorem soft_dist2_pos (s : K) (X Y : Int → K) (i j : Int) (hs : s ≠ 0) :
    0 < soft_dist2 s X Y i j := by
  have h1 : 0 ≤ (X j - X i) * (X j - X i) := mul_self_nonneg _
  have h2 : 0 ≤ (Y j - Y i) * (Y j - Y i) := mul_self_nonneg _
  have h3 : 0 < s * s := mul_self_pos.2 hs
  unfold soft_dist2
  linarith

theorem soft_dist2_symm (s : K) (X Y : Int → K) (i j : Int) :
    soft_dist2 s X Y j i = soft_dist2 s X Y i j := by
  unfold soft_dist2
  ring

theorem antisymm_sum_zero (N : Nat) (F : Nat → Nat → K) (hF : ∀ i j, F j i = - F i j) :
    ∑ i ∈ Finset.range N, ∑ j ∈ Finset.range N, F i j = 0 := by
  have h1 : ∑ i ∈ Finset.range N, ∑ j ∈ Finset.range N, F i j
      = ∑ i ∈ Finset.range N, ∑ j ∈ Finset.range N, F j i := Finset.sum_comm
  have h2 : ∑ i ∈ Finset.range N, ∑ j ∈ Finset.range N, F j i
      = - ∑ i ∈ Finset.range N, ∑ j ∈ Finset.range N, F i j := by
    rw [← Finset.sum_neg_distrib]
    apply Finset.sum_congr rfl
    intro i _
    rw [← Finset.sum_neg_distrib]
    apply Finset.sum_congr rfl
    intro j _
    exact hF i j
  linarith

theorem momentum_sum (M V F : Int → K) (t : K) (N : Nat) (hM : ∀ i : Nat, i < N → M i ≠ 0)
    (hF : ∑ i ∈ Finset.range N, F i = 0) :
    ∑ i ∈ Finset.range N, M i * (V i + F i / M i * t) = ∑ i ∈ Finset.range N, M i * V i := by
  have h1 : ∀ i ∈ Finset.range N, M i * (V i + F i / M i * t) = M i * V i + t * F i := by
    intro i hi
    have := hM i (Finset.mem_range.1 hi)
    field_simp
    ring
  rw [Finset.sum_congr rfl h1, Finset.sum_add_distrib, ← Finset.mul_sum, hF, mul_zero, add_zero]

end DistLemmas

section MomLemmas
variable {K : Type} [LinearOrderedField K] [HasSqrt K]

theorem force_x_antisymm (g s : K) (X Y M : Int → K) (i j : Int) :
    force_x g s X Y M j i = - force_x g s X Y M i j := by
  unfold force_x
  rw [soft_dist2_symm s X Y i j]
  ring

theorem force_y_antisymm (g s : K) (X Y M : Int → K) (i j : Int) :
    force_y g s X Y M j i = - force_y g s X Y M i j := by
  unfold force_y
  rw [soft_dist2_symm s X Y i j]
  ring

/-- One iteration of the force loop on finite values: with a non-zero softening both
divisions are defined and the accumulated force stays finite. -/
theorem accumulate_finite (current : Int → body_t (Num K)) (X Y VX VY M : Int → K)
    (g s : K) (i j : Int) (hij : j ≠ i) (hs : s ≠ 0)
    (hrt : ∀ r : K, 0 < r → 0 < HasSqrt.sqrt r)
    (hi : current i = finite_state X Y VX VY M i)
    (hj : current j = finite_state X Y VX VY M j) (Fx Fy : K) :
    accumulate current i (.val g) (.val s) (.val (M i)) j (.val Fx, .val Fy)
      = (.val (Fx + force_x g s X Y M i j), .val (Fy + force_y g s X Y M i j)) := by
  have hpos := soft_dist2_pos s X Y i j hs
  have hr := hrt _ hpos
  unfold soft_dist2 at hpos hr
  simp only [accumulate, if_neg hij, hi, hj, finite_state, val_sub, val_mul, val_add,
    val_sqrt _ hpos.le, val_div _ _ hpos.ne', val_div _ _ hr.ne', force_x, force_y, soft_dist2]

theorem force_loop_finite (current : Int → body_t (Num K)) (X Y VX VY M : Int → K)
    (g s : K) (n i : Int) (hs : s ≠ 0) (hrt : ∀ r : K, 0 < r → 0 < HasSqrt.sqrt r)
    (hi : current i = finite_state X Y VX VY M i)
    (hc : ∀ j, 0 ≤ j → j < n → current j = finite_state X Y VX VY M j) (k : Nat)
    (hk : (k : Int) ≤ n) :
    forRange (accumulate current i (.val g) (.val s) (.val (M i))) k 0 (0, 0)
      = (.val (∑ j ∈ Finset.range k, if (j : Int) = i then 0 else force_x g s X Y M i j),
         .val (∑ j ∈ Finset.range k, if (j : Int) = i then 0 else force_y g s X Y M i j)) := by
  induction k with
  | zero =>
    simp only [forRange, Finset.range_zero, Finset.sum_empty]
    rfl
  | succ k ih =>
    push_cast at hk
    rw [forRange_succ_last, ih (by omega), Finset.sum_range_succ, Finset.sum_range_succ,
      zero_add]
    by_cases hki : (k : Int) = i
    · simp only [accumulate, if_pos hki, add_zero]
    · rw [accumulate_finite current X Y VX VY M g s i k hki hs hrt hi (hc k (by omega) (by omega)),
        if_neg hki, if_neg hki]

theorem kernel_finite (current : Int → body_t (Num K)) (X Y VX VY M : Int → K)
    (g s t : K) (n i : Int) (hi0 : 0 ≤ i) (hin : i < n) (hs : s ≠ 0) (hm : M i ≠ 0)
    (hrt : ∀ r : K, 0 < r → 0 < HasSqrt.sqrt r)
    (hc : ∀ j, 0 ≤ j → j < n → current j = finite_state X Y VX VY M j) :
    kernel current n (.val t) (.val g) (.val s) i
      = { x := .val (X i + (VX i + net_force_x g s X Y M n i / M i * t) * t),
          y := .val (Y i + (VY i + net_force_y g s X Y M n i / M i * t) * t),
          vx := .val (VX i + net_force_x g s X Y M n i / M i * t),
          vy := .val (VY i + net_force_y g s X Y M n i / M i * t),
          m := .val (M i) } := by
  have hi := hc i hi0 hin
  have hm' : (current i).m = .val (M i) := by rw [hi]; rfl
  have hF := force_loop_finite current X Y VX VY M g s n i hs hrt hi hc n.toNat (by omega)
  simp only [kernel, forLoop, sub_zero, hm', hF]
  simp only [hi, finite_state, val_div _ _ hm, val_mul, val_add, net_force_x, net_force_y]

theorem net_force_x_sum (g s : K) (X Y M : Int → K) (n : Int) :
    ∑ i ∈ Finset.range n.toNat, net_force_x g s X Y M n i = 0 := by
  unfold net_force_x
  apply antisymm_sum_zero n.toNat
    (fun i j => if (j : Int) = i then 0 else force_x g s X Y M i j)
  intro i j
  by_cases h : (i : Int) = j
  · simp only [h, if_true, neg_zero]
  · rw [if_neg h, if_neg (fun e => h e.symm), force_x_antisymm]

theorem net_force_y_sum (g s : K) (X Y M : Int → K) (n : Int) :
    ∑ i ∈ Finset.range n.toNat, net_force_y g s X Y M n i = 0 := by
  unfold net_force_y
  apply antisymm_sum_zero n.toNat
    (fun i j => if (j : Int) = i then 0 else force_y g s X Y M i j)
  intro i j
  by_cases h : (i : Int) = j
  · simp only [h, if_true, neg_zero]
  · rw [if_neg h, if_neg (fun e => h e.symm), force_y_antisymm]

end MomLemmas

section DoubleLemmas

theorem Double.add_def (a b : Double) : a + b = Double.add a b := rfl
theorem Double.sub_def (a b : Double) : a - b = Double.add a (Double.neg b) := rfl
theorem Double.mul_def (a b : Double) : a * b = Double.mul a b := rfl
theorem Double.div_def (a b : Double) : a / b = Double.div a b := rfl
theorem Double.sqrt_def (a : Double) : Scalar.sqrt a = Double.sqrt a := rfl
theorem Double.zero_def : (0 : Double) = Double.fin false 0 := rfl

theorem bit_length_pos (n : Nat) (h : n ≠ 0) : 1 ≤ bit_length n ∧ 2 ^ (bit_length n - 1) ≤ n := by
  unfold bit_length
  rw [if_neg h]
  split_ifs with h1
  · refine ⟨Nat.le_add_left _ _, ?_⟩
    rw [Nat.add_sub_cancel]
    rw [Nat.shiftRight_eq_div_pow] at h1
    by_contra hlt
    rw [Nat.div_eq_of_lt (not_le.1 hlt)] at h1
    exact absurd h1 (by decide)
  · exact ⟨Nat.le_add_left _ _, by rw [Nat.add_sub_cancel]; exact Nat.log2_self_le h⟩

theorem isqrt_eq (n : Nat) : isqrt n = Nat.sqrt n := by
  unfold isqrt
  split_ifs with h
  · exact Nat.eq_sqrt.2 h
  · rfl

/-- A number of at least one unit of the last place is not rounded to zero. -/
theorem Double.round_ne_zero (neg : Bool) (n s : Nat) (sticky : Bool) (h : 2 ^ s ≤ n) :
    Double.round neg n s sticky = .inf neg
      ∨ ∃ k, k ≠ 0 ∧ Double.round neg n s sticky = .fin neg k := by
  have hn : n ≠ 0 := by
    have : 0 < 2 ^ s := by positivity
    omega
  obtain ⟨hb1, hb2⟩ := bit_length_pos n hn
  have hshift : 2 ^ (max s (bit_length n - 53)) ≤ n := by
    rcases max_cases s (bit_length n - 53) with ⟨e, -⟩ | ⟨e, -⟩
    · rw [e]; exact h
    · rw [e]
      exact le_trans (Nat.pow_le_pow_right (by decide) (by omega)) hb2
  have hq : n >>> (max s (bit_length n - 53)) ≠ 0 := by
    rw [Nat.shiftRight_eq_div_pow]
    exact (Nat.div_pos hshift (by positivity)).ne'
  unfold Double.round
  simp only []
  split_ifs with h1 h2
  · exact Or.inl rfl
  · refine Or.inr ⟨_, ?_, rfl⟩
    rw [Nat.shiftLeft_eq]
    exact Nat.mul_ne_zero (Nat.succ_ne_zero _) (by positivity)
  · exact Or.inl rfl
  · refine Or.inr ⟨_, ?_, rfl⟩
    rw [Nat.shiftLeft_eq]
    exact Nat.mul_ne_zero hq (by positivity)

theorem Double.round_plus (n s : Nat) (sticky : Bool) :
    (Double.round false n s sticky).plus = true := by
  unfold Double.round
  simp only []
  split_ifs <;> rfl

theorem Double.round_positive (n s : Nat) (sticky : Bool) (h : 2 ^ s ≤ n) :
    (Double.round false n s sticky).positive = true := by
  rcases Double.round_ne_zero false n s sticky h with e | ⟨k, hk, e⟩
  · rw [e]; rfl
  · rw [e]; simp [Double.positive, hk]

theorem Double.round_neg (s : Bool) (n sh : Nat) (sticky : Bool) :
    (Double.round s n sh sticky).neg = Double.round (!s) n sh sticky := by
  unfold Double.round
  simp only []
  split_ifs <;> rfl

theorem Double.round_zero (s : Bool) (sh : Nat) (sticky : Bool) :
    Double.round s 0 sh sticky = .fin s 0 := by
  have hb : bit_length 0 = 0 := rfl
  have h1 : ¬ (1 <<< (sh - 1) < 0) := Nat.not_lt_zero _
  have h2 : (0 : Nat) ≠ 1 <<< (sh - 1) := by
    rw [Nat.shiftLeft_eq, one_mul]
    exact (by positivity : 0 < 2 ^ (sh - 1)).ne
  unfold Double.round
  simp [hb, h2]


theorem four_le_mul_pow (k e : Nat) (hk : k ≠ 0) (he : 2 ≤ e) : 2 ^ 1 * 2 ^ 1 ≤ k * 2 ^ e := by
  have h4 : (4 : Nat) ≤ 2 ^ e :=
    calc (4 : Nat) = 2 ^ 2 := by norm_num
      _ ≤ 2 ^ e := Nat.pow_le_pow_right (by decide) he
  calc 2 ^ 1 * 2 ^ 1 = 1 * 4 := by norm_num
    _ ≤ k * 2 ^ e := Nat.mul_le_mul (Nat.one_le_iff_ne_zero.2 hk) h4

theorem two_le_isqrt_shift (k e : Nat) (hk : k ≠ 0) (he : 2 ≤ e) : 2 ^ 1 ≤ isqrt (k <<< e) := by
  rw [isqrt_eq, Nat.le_sqrt, Nat.shiftLeft_eq]
  exact four_le_mul_pow k e hk he

theorem Double.round_ne_nan (s : Bool) (n sh : Nat) (sticky : Bool) :
    Double.round s n sh sticky ≠ .nan := by
  unfold Double.round
  simp only []
  split_ifs <;> exact fun e => Double.noConfusion e

theorem Double.sub_ne_nan (a b : Double) (ha : a.isFinite = true) (hb : b.isFinite = true) :
    a - b ≠ .nan := by
  cases a with
  | fin s x =>
    cases b with
    | fin t y =>
      rw [Double.sub_def]
      simp only [Double.neg, Double.add]
      split_ifs
      · exact Double.round_ne_nan _ _ _ _
      · exact fun e => Double.noConfusion e
      · exact Double.round_ne_nan _ _ _ _
      · exact Double.round_ne_nan _ _ _ _
    | inf t => exact Bool.noConfusion hb
    | nan => exact Bool.noConfusion hb
  | inf s => exact Bool.noConfusion ha
  | nan => exact Bool.noConfusion ha

theorem Double.mul_self_plus (d : Double) (h : d ≠ .nan) : (d * d).plus = true := by
  cases d with
  | fin s k =>
    rw [Double.mul_def]
    simp only [Double.mul, Bool.xor_self]
    exact Double.round_plus _ _ _
  | inf s =>
    rw [Double.mul_def]
    simp only [Double.mul, Bool.xor_self]
    rfl
  | nan => exact absurd rfl h

theorem Double.add_plus (a b : Double) (ha : a.plus = true) (hb : b.plus = true) :
    (a + b).plus = true := by
  rw [Double.add_def]
  rcases a with ⟨s, x⟩ | s | _ <;> rcases b with ⟨t, y⟩ | t | _ <;>
    simp only [Double.plus, Bool.not_eq_true', Bool.false_eq_true] at ha hb <;>
    subst_vars <;> simp only [Double.add, if_true] <;>
    first | rfl | exact Double.round_plus _ _ _

theorem Double.add_positive (a b : Double) (ha : a.plus = true) (hb : b.positive = true) :
    (a + b).positive = true := by
  rw [Double.add_def]
  rcases a with ⟨s, x⟩ | s | _ <;> rcases b with ⟨t, y⟩ | t | _ <;>
    simp only [Double.plus, Double.positive, Bool.not_eq_true', Bool.false_eq_true,
      Bool.and_eq_true, decide_eq_true_eq] at ha hb
  · obtain ⟨ht, hy⟩ := hb
    subst ha ht
    simp only [Double.add, if_true]
    exact Double.round_positive _ _ _ (by rw [pow_zero]; omega)
  · subst ha hb; rfl
  · subst ha; rw [hb.1]; rfl
  · subst ha hb; rfl

theorem Double.sqrt_positive (d : Double) (h : d.positive = true) :
    (Scalar.sqrt d).positive = true := by
  rw [Double.sqrt_def]
  rcases d with ⟨s, k⟩ | s | _ <;>
    simp only [Double.positive, Bool.not_eq_true', Bool.false_eq_true,
      Bool.and_eq_true, decide_eq_true_eq] at h
  · obtain ⟨hs, hk⟩ := h
    subst hs
    simp only [Double.sqrt, if_neg hk, Bool.false_eq_true, if_false]
    apply Double.round_positive
    exact two_le_isqrt_shift k 1076 hk (by decide)
  · subst h; rfl

/-- In `double`: for bodies with finite coordinates and a softening whose square is not
rounded to zero, the softened squared distance and its root are greater than zero. -/
theorem Double.dist2_positive (xi yi xj yj softening : Double)
    (hxi : xi.isFinite = true) (hyi : yi.isFinite = true)
    (hxj : xj.isFinite = true) (hyj : yj.isFinite = true)
    (hs : (softening * softening).positive = true) :
    ((xj - xi) * (xj - xi) + (yj - yi) * (yj - yi) + softening * softening).positive = true
    ∧ (Scalar.sqrt ((xj - xi) * (xj - xi) + (yj - yi) * (yj - yi)
        + softening * softening)).positive = true := by
  have h1 := Double.mul_self_plus _ (Double.sub_ne_nan xj xi hxj hxi)
  have h2 := Double.mul_self_plus _ (Double.sub_ne_nan yj yi hyj hyi)
  have h3 := Double.add_positive _ _ (Double.add_plus _ _ h1 h2) hs
  exact ⟨h3, Double.sqrt_positive _ h3⟩

end DoubleLemmas

section OppositeLemmas

theorem Double.not_xor_left (s t : Bool) : xor (!s) t = !(xor s t) := by
  cases s <;> cases t <;> rfl

theorem Double.not_xor_right (s t : Bool) : xor s (!t) = !(xor s t) := by
  cases s <;> cases t <;> rfl

theorem Double.opposite_neg_self (a : Double) : Double.opposite a a.neg := Or.inl rfl

theorem Double.opposite_zeros (s t : Bool) : Double.opposite (.fin s 0) (.fin t 0) :=
  Or.inr ⟨rfl, rfl⟩

theorem Double.neg_neg (a : Double) : a.neg.neg = a := by
  cases a <;> simp [Double.neg]

theorem Double.isZero_iff (a : Double) : a.isZero = true ↔ ∃ s, a = .fin s 0 := by
  cases a with
  | fin s k =>
    simp only [Double.isZero, decide_eq_true_eq]
    constructor
    · rintro rfl
      exact ⟨s, rfl⟩
    · rintro ⟨t, h⟩
      exact (Double.fin.inj h).2
  | inf s => simp [Double.isZero]
  | nan => simp [Double.isZero]

/-- The two ways of being opposite, with the zeros made explicit. -/
theorem Double.opposite_cases {a b : Double} (h : Double.opposite a b) :
    b = a.neg ∨ ∃ s t, a = .fin s 0 ∧ b = .fin t 0 := by
  rcases h with h | ⟨h1, h2⟩
  · exact Or.inl h
  · obtain ⟨s, hs⟩ := (Double.isZero_iff a).1 h1
    obtain ⟨t, ht⟩ := (Double.isZero_iff b).1 h2
    exact Or.inr ⟨s, t, hs, ht⟩

theorem Double.opposite_symm {a b : Double} (h : Double.opposite a b) : Double.opposite b a := by
  rcases h with h | ⟨h1, h2⟩
  · left
    rw [h, Double.neg_neg]
  · exact Or.inr ⟨h2, h1⟩

theorem Double.opposite_neg {a b : Double} (h : Double.opposite a b) :
    Double.opposite a.neg b.neg := by
  rcases Double.opposite_cases h with h | ⟨s, t, h1, h2⟩
  · left
    rw [h]
  · rw [h1, h2]
    exact Double.opposite_zeros _ _

theorem Double.add_zeros (s t : Bool) : ∃ u, Double.add (.fin s 0) (.fin t 0) = .fin u 0 := by
  by_cases h : s = t
  · exact ⟨s, by simp only [Double.add, if_pos h, Nat.add_zero, Double.round_zero]⟩
  · exact ⟨false, by simp only [Double.add, if_neg h, if_true]⟩

theorem Double.add_zero_right (s t : Bool) (x : Nat) (hx : x ≠ 0) :
    Double.add (.fin s x) (.fin t 0) = Double.round s x 0 false := by
  by_cases h : s = t
  · simp only [Double.add, if_pos h, Nat.add_zero]
  · simp only [Double.add, if_neg h, if_neg hx, if_pos (Nat.pos_of_ne_zero hx), Nat.sub_zero]

theorem Double.add_zero_left (s t : Bool) (y : Nat) (hy : y ≠ 0) :
    Double.add (.fin t 0) (.fin s y) = Double.round s y 0 false := by
  by_cases h : t = s
  · subst h
    simp only [Double.add, if_true, Nat.zero_add]
  · simp only [Double.add, if_neg h, if_neg (Ne.symm hy), if_neg (Nat.not_lt_zero y),
      Nat.sub_zero]

theorem Double.add_neg_neg (a b : Double) :
    Double.opposite (Double.add a b) (Double.add a.neg b.neg) := by
  rcases a with ⟨s, x⟩ | s | _ <;> rcases b with ⟨t, y⟩ | t | _
  · simp only [Double.neg, Double.add]
    by_cases hst : s = t
    · subst hst
      rw [if_pos rfl, if_pos rfl]
      exact Or.inl (Double.round_neg _ _ _ _).symm
    · have hst' : ¬ ((!s) = (!t)) := fun e => hst (by cases s <;> cases t <;> simp_all)
      rw [if_neg hst, if_neg hst']
      split_ifs
      · exact Double.opposite_zeros _ _
      · exact Or.inl (Double.round_neg _ _ _ _).symm
      · exact Or.inl (Double.round_neg _ _ _ _).symm
  · exact Or.inl rfl
  · exact Or.inl rfl
  · exact Or.inl rfl
  · cases s <;> cases t <;> exact Or.inl rfl
  · exact Or.inl rfl
  · exact Or.inl rfl
  · exact Or.inl rfl
  · exact Or.inl rfl

theorem Double.opposite_add {a a' b b' : Double} (ha : Double.opposite a a')
    (hb : Double.opposite b b') : Double.opposite (Double.add a b) (Double.add a' b') := by
  rcases Double.opposite_cases ha with ha | ⟨s, s', ha1, ha2⟩ <;>
    rcases Double.opposite_cases hb with hb | ⟨t, t', hb1, hb2⟩
  · rw [ha, hb]
    exact Double.add_neg_neg a b
  · subst ha hb1 hb2
    rcases a with ⟨s, x⟩ | s | _
    · by_cases hx : x = 0
      · subst hx
        obtain ⟨u, hu⟩ := Double.add_zeros s t
        obtain ⟨u', hu'⟩ := Double.add_zeros (!s) t'
        simp only [Double.neg]
        rw [hu, hu']
        exact Double.opposite_zeros _ _
      · simp only [Double.neg]
        rw [Double.add_zero_right _ _ _ hx, Double.add_zero_right _ _ _ hx]
        exact Or.inl (Double.round_neg _ _ _ _).symm
    · exact Or.inl rfl
    · exact Or.inl rfl
  · subst ha1 ha2 hb
    rcases b with ⟨t, y⟩ | t | _
    · by_cases hy : y = 0
      · subst hy
        obtain ⟨u, hu⟩ := Double.add_zeros s t
        obtain ⟨u', hu'⟩ := Double.add_zeros s' (!t)
        simp only [Double.neg]
        rw [hu, hu']
        exact Double.opposite_zeros _ _
      · simp only [Double.neg]
        rw [Double.add_zero_left _ _ _ hy, Double.add_zero_left _ _ _ hy]
        exact Or.inl (Double.round_neg _ _ _ _).symm
    · exact Or.inl rfl
    · exact Or.inl rfl
  · subst ha1 ha2 hb1 hb2
    obtain ⟨u, hu⟩ := Double.add_zeros s t
    obtain ⟨u', hu'⟩ := Double.add_zeros s' t'
    rw [hu, hu']
    exact Double.opposite_zeros _ _

theorem Double.mul_neg_left (a b : Double) : Double.mul a.neg b = (Double.mul a b).neg := by
  rcases a with ⟨s, x⟩ | s | _ <;> rcases b with ⟨t, y⟩ | t | _
  · show Double.round (xor (!s) t) (x * y) 1074 false
      = (Double.round (xor s t) (x * y) 1074 false).neg
    rw [Double.round_neg, Double.not_xor_left]
  · simp only [Double.neg, Double.mul, Double.not_xor_left]
    split_ifs <;> rfl
  · rfl
  · simp only [Double.neg, Double.mul, Double.not_xor_left]
    split_ifs <;> rfl
  · simp only [Double.neg, Double.mul, Double.not_xor_left]
  · rfl
  · rfl
  · rfl
  · rfl

theorem Double.mul_neg_right (a b : Double) : Double.mul a b.neg = (Double.mul a b).neg := by
  rcases a with ⟨s, x⟩ | s | _ <;> rcases b with ⟨t, y⟩ | t | _
  · show Double.round (xor s (!t)) (x * y) 1074 false
      = (Double.round (xor s t) (x * y) 1074 false).neg
    rw [Double.round_neg, Double.not_xor_right]
  · simp only [Double.neg, Double.mul, Double.not_xor_right]
    split_ifs <;> rfl
  · rfl
  · simp only [Double.neg, Double.mul, Double.not_xor_right]
    split_ifs <;> rfl
  · simp only [Double.neg, Double.mul, Double.not_xor_right]
  · rfl
  · rfl
  · rfl
  · rfl

theorem Double.div_neg_left (a b : Double) : Double.div a.neg b = (Double.div a b).neg := by
  rcases a with ⟨s, x⟩ | s | _ <;> rcases b with ⟨t, y⟩ | t | _
  · simp only [Double.neg, Double.div, Double.not_xor_left]
    split_ifs
    · rfl
    · rfl
    · exact (Double.round_neg _ _ _ _).symm
  · simp only [Double.neg, Double.div, Double.not_xor_left]
  · rfl
  · simp only [Double.neg, Double.div, Double.not_xor_left]
  · rfl
  · rfl
  · rfl
  · rfl
  · rfl

theorem Double.mul_zero_left (s : Bool) (b : Double) :
    Double.mul (.fin s 0) b = .nan ∨ ∃ u, Double.mul (.fin s 0) b = .fin u 0 := by
  rcases b with ⟨t, y⟩ | t | _
  · right
    exact ⟨xor s t, by simp only [Double.mul, Nat.zero_mul, Double.round_zero]⟩
  · left; simp [Double.mul]
  · left; rfl

theorem Double.mul_zero_right (a : Double) (t : Bool) :
    Double.mul a (.fin t 0) = .nan ∨ ∃ u, Double.mul a (.fin t 0) = .fin u 0 := by
  rcases a with ⟨s, x⟩ | s | _
  · right
    exact ⟨xor s t, by simp only [Double.mul, Nat.mul_zero, Double.round_zero]⟩
  · left; simp [Double.mul]
  · left; rfl

theorem Double.div_zero_left (s : Bool) (b : Double) :
    Double.div (.fin s 0) b = .nan ∨ ∃ u, Double.div (.fin s 0) b = .fin u 0 := by
  rcases b with ⟨t, y⟩ | t | _
  · by_cases hy : y = 0
    · left; simp [Double.div, hy]
    · right
      refine ⟨xor s t, ?_⟩
      simp only [Double.div, if_neg hy, Nat.zero_shiftLeft, Nat.zero_div, Nat.zero_mod, ne_eq,
        not_true_eq_false, decide_False, Double.round_zero]
  · right; exact ⟨xor s t, rfl⟩
  · left; rfl

theorem Double.mul_zero_nan_iff (s s' : Bool) (b : Double) :
    Double.mul (.fin s 0) b = .nan ↔ Double.mul (.fin s' 0) b = .nan := by
  rcases b with ⟨t, y⟩ | t | _
  · simp only [Double.mul, Nat.zero_mul, Double.round_zero]
    constructor <;> intro h <;> exact Double.noConfusion h
  · simp [Double.mul]
  · simp [Double.mul]

theorem Double.mul_zero_nan_iff_right (a : Double) (t t' : Bool) :
    Double.mul a (.fin t 0) = .nan ↔ Double.mul a (.fin t' 0) = .nan := by
  rcases a with ⟨s, x⟩ | s | _
  · simp only [Double.mul, Nat.mul_zero, Double.round_zero]
    constructor <;> intro h <;> exact Double.noConfusion h
  · simp [Double.mul]
  · simp [Double.mul]

theorem Double.div_zero_nan_iff (s s' : Bool) (b : Double) :
    Double.div (.fin s 0) b = .nan ↔ Double.div (.fin s' 0) b = .nan := by
  rcases b with ⟨t, y⟩ | t | _
  · by_cases hy : y = 0
    · simp [Double.div, hy]
    · simp only [Double.div, if_neg hy, Nat.zero_shiftLeft, Nat.zero_div, Nat.zero_mod, ne_eq,
        not_true_eq_false, decide_False, Double.round_zero]
      constructor <;> intro h <;> exact Double.noConfusion h
  · simp [Double.div]
  · simp [Double.div]

/-- Two results that are NaN together, and zeros otherwise, are opposite. -/
theorem Double.opposite_of_zero_or_nan {p q : Double}
    (hp : p = .nan ∨ ∃ u, p = .fin u 0) (hq : q = .nan ∨ ∃ u, q = .fin u 0)
    (h : p = .nan ↔ q = .nan) : Double.opposite p q := by
  rcases hp with hp | ⟨u, hp⟩
  · rw [hp, h.1 hp]
    exact Or.inl rfl
  · rcases hq with hq | ⟨v, hq⟩
    · rw [h.2 hq] at hp
      exact Double.noConfusion hp
    · rw [hp, hq]
      exact Double.opposite_zeros _ _

theorem Double.opposite_mul_left {b b' : Double} (a : Double) (h : Double.opposite b b') :
    Double.opposite (Double.mul a b) (Double.mul a b') := by
  rcases Double.opposite_cases h with h | ⟨t, t', h1, h2⟩
  · rw [h, Double.mul_neg_right]
    exact Double.opposite_neg_self _
  · rw [h1, h2]
    exact Double.opposite_of_zero_or_nan (Double.mul_zero_right a t) (Double.mul_zero_right a t')
      (Double.mul_zero_nan_iff_right a t t')

theorem Double.opposite_mul_right {a a' : Double} (b : Double) (h : Double.opposite a a') :
    Double.opposite (Double.mul a b) (Double.mul a' b) := by
  rcases Double.opposite_cases h with h | ⟨t, t', h1, h2⟩
  · rw [h, Double.mul_neg_left]
    exact Double.opposite_neg_self _
  · rw [h1, h2]
    exact Double.opposite_of_zero_or_nan (Double.mul_zero_left t b) (Double.mul_zero_left t' b)
      (Double.mul_zero_nan_iff t t' b)

theorem Double.opposite_div {a a' : Double} (b : Double) (h : Double.opposite a a') :
    Double.opposite (Double.div a b) (Double.div a' b) := by
  rcases Double.opposite_cases h with h | ⟨t, t', h1, h2⟩
  · rw [h, Double.div_neg_left]
    exact Double.opposite_neg_self _
  · rw [h1, h2]
    exact Double.opposite_of_zero_or_nan (Double.div_zero_left t b) (Double.div_zero_left t' b)
      (Double.div_zero_nan_iff t t' b)

theorem Double.mul_self_opposite {a a' : Double} (h : Double.opposite a a') :
    Double.mul a a = Double.mul a' a' := by
  rcases Double.opposite_cases h with h | ⟨t, t', h1, h2⟩
  · rw [h, Double.mul_neg_left, Double.mul_neg_right, Double.neg_neg]
  · rw [h1, h2]
    simp only [Double.mul, Bool.xor_self]

/-- In `double`, the kernel keeps two bodies mirror images of each other about the
origin. -/
theorem kernel_mirrored_double (c : Int → body_t Double) (dt G softening : Double)
    (h : mirrored_double (c 0) (c 1)) :
    mirrored_double (kernel c 2 dt G softening 0) (kernel c 2 dt G softening 1) := by
  obtain ⟨hx, hy, hvx, hvy, hm⟩ := h
  have hdx : Double.opposite ((c 1).x - (c 0).x) ((c 0).x - (c 1).x) :=
    Double.opposite_add (Double.opposite_symm hx) (Double.opposite_neg hx)
  have hdy : Double.opposite ((c 1).y - (c 0).y) ((c 0).y - (c 1).y) :=
    Double.opposite_add (Double.opposite_symm hy) (Double.opposite_neg hy)
  have hd2 : ((c 0).x - (c 1).x) * ((c 0).x - (c 1).x) + ((c 0).y - (c 1).y) * ((c 0).y - (c 1).y)
        + softening * softening
      = ((c 1).x - (c 0).x) * ((c 1).x - (c 0).x) + ((c 1).y - (c 0).y) * ((c 1).y - (c 0).y)
        + softening * softening := by
    have e1 := Double.mul_self_opposite hdx
    have e2 := Double.mul_self_opposite hdy
    simp only [← Double.mul_def] at e1 e2
    rw [e1, e2]
  have h00 : Double.opposite (0 : Double) 0 := Double.opposite_zeros _ _
  rw [kernel_two_zero, kernel_two_one]
  simp only [hd2, hm]
  refine ⟨?_, ?_, ?_, ?_, rfl⟩
  · exact Double.opposite_add hx (Double.opposite_mul_right _ (Double.opposite_add hvx
      (Double.opposite_mul_right _ (Double.opposite_div _ (Double.opposite_add h00
        (Double.opposite_mul_left _ (Double.opposite_div _ hdx)))))))
  · exact Double.opposite_add hy (Double.opposite_mul_right _ (Double.opposite_add hvy
      (Double.opposite_mul_right _ (Double.opposite_div _ (Double.opposite_add h00
        (Double.opposite_mul_left _ (Double.opposite_div _ hdy)))))))
  · exact Double.opposite_add hvx
      (Double.opposite_mul_right _ (Double.opposite_div _ (Double.opposite_add h00
        (Double.opposite_mul_left _ (Double.opposite_div _ hdx)))))
  · exact Double.opposite_add hvy
      (Double.opposite_mul_right _ (Double.opposite_div _ (Double.opposite_add h00
        (Double.opposite_mul_left _ (Double.opposite_div _ hdy)))))

end OppositeLemmas

section ZeroForceLemmas

theorem Double.zero_div_mul (m dt : Double) (hm : m.isFinite = true) (hm0 : m.isZero = false)
    (hdt : dt.isFinite = true) : ∃ t, (0 : Double) / m * dt = .fin t 0 := by
  rcases m with ⟨sm, km⟩ | sm | _
  · rcases dt with ⟨sd, kd⟩ | sd | _
    · have hk : km ≠ 0 := by
        simpa [Double.isZero] using hm0
      refine ⟨xor (xor false sm) sd, ?_⟩
      rw [Double.mul_def, Double.div_def, Double.zero_def]
      simp only [Double.div, if_neg hk, Nat.zero_shiftLeft, Nat.zero_div, Nat.zero_mod, ne_eq,
        not_true_eq_false, decide_False, Double.round_zero, Double.mul, Nat.zero_mul]
    · exact Bool.noConfusion hdt
    · exact Bool.noConfusion hdt
  · exact Bool.noConfusion hm
  · exact Bool.noConfusion hm

/-- In `double`, adding the acceleration of the zero force leaves a finite velocity other
than `-0.0` as it is, for a finite non-zero mass and a finite time step. -/
theorem Double.add_zero_force (v m dt : Double) (hv : v.isFinite = true)
    (hval : v.isValue = true) (hneg : v ≠ .fin true 0) (hm : m.isFinite = true)
    (hm0 : m.isZero = false) (hdt : dt.isFinite = true) : v + 0 / m * dt = v := by
  obtain ⟨t, ht⟩ := Double.zero_div_mul m dt hm hm0 hdt
  rw [ht, Double.add_def]
  rcases v with ⟨s, k⟩ | s | _
  · by_cases hk : k = 0
    · subst hk
      have hs : s = false := by
        cases s
        · rfl
        · exact absurd rfl hneg
      subst hs
      cases t
      · simp only [Double.add, if_true, Nat.add_zero, Double.round_zero]
      · simp [Double.add]
    · rw [Double.add_zero_right _ _ _ hk]
      simpa [Double.isValue] using hval
  · exact Bool.noConfusion hv
  · exact Bool.noConfusion hv

end ZeroForceLemmas

section ValueLemmas

theorem bit_length_zero : bit_length 0 = 0 := rfl

theorem bit_length_lt (n : Nat) : n < 2 ^ bit_length n := by
  unfold bit_length
  split_ifs with h0 h1
  · subst h0
    exact Nat.one_pos
  · rw [Nat.shiftRight_eq_div_pow] at h1
    have hp : 0 < 2 ^ ilog2_loop 13 n 0 := by positivity
    have h2 : n / 2 ^ ilog2_loop 13 n 0 < 2 := by omega
    rw [Nat.div_lt_iff_lt_mul hp] at h2
    rw [pow_succ]
    omega
  · exact Nat.lt_log2_self

theorem bit_length_le_of_lt (n m : Nat) (h : n < 2 ^ m) : bit_length n ≤ m := by
  by_cases h0 : n = 0
  · subst h0
    exact Nat.zero_le _
  · obtain ⟨h1, h2⟩ := bit_length_pos n h0
    have h3 : 2 ^ (bit_length n - 1) < 2 ^ m := lt_of_le_of_lt h2 h
    have h4 := (Nat.pow_lt_pow_iff_right (by decide : 1 < 2)).1 h3
    omega

/-- A number with at most 53 significant bits, below the overflow threshold, is not
changed by rounding. -/
theorem Double.round_shift_fixed (s : Bool) (Q e : Nat) (hQ : Q ≤ 2 ^ 53)
    (hk : ¬ (1 <<< 2098 ≤ Q <<< e)) :
    Double.round s (Q <<< e) 0 false = .fin s (Q <<< e) := by
  have hdvd : 2 ^ (bit_length (Q <<< e) - 53) ∣ Q <<< e := by
    rw [Nat.shiftLeft_eq]
    rcases Nat.lt_or_ge Q (2 ^ 53) with hlt | hge
    · have hb : bit_length (Q * 2 ^ e) ≤ 53 + e := by
        apply bit_length_le_of_lt
        rw [pow_add]
        exact Nat.mul_lt_mul_of_lt_of_le hlt le_rfl (by positivity)
      exact Dvd.dvd.mul_left (pow_dvd_pow 2 (by omega)) Q
    · have hQ' : Q = 2 ^ 53 := le_antisymm hQ hge
      subst hQ'
      have hb : bit_length (2 ^ 53 * 2 ^ e) ≤ 54 + e := by
        apply bit_length_le_of_lt
        rw [pow_add]
        exact Nat.mul_lt_mul_of_lt_of_le (by norm_num) le_rfl (by positivity)
      rw [← pow_add] at hb ⊢
      exact pow_dvd_pow 2 (by omega)
  have hhalf : 0 < 1 <<< (max 0 (bit_length (Q <<< e) - 53) - 1) := by
    rw [Nat.shiftLeft_eq, one_mul]
    positivity
  have hmax : max 0 (bit_length (Q <<< e) - 53) = bit_length (Q <<< e) - 53 := Nat.zero_max _
  have hrem : (Q <<< e) % (1 <<< (bit_length (Q <<< e) - 53)) = 0 := by
    rw [Nat.shiftLeft_eq 1, one_mul]
    exact Nat.mod_eq_zero_of_dvd hdvd
  have hback : ((Q <<< e) >>> (bit_length (Q <<< e) - 53)) <<< (bit_length (Q <<< e) - 53)
      = Q <<< e := by
    rw [Nat.shiftRight_eq_div_pow, Nat.shiftLeft_eq _ (bit_length (Q <<< e) - 53)]
    exact Nat.div_mul_cancel hdvd
  unfold Double.round
  simp only [hmax, hrem, Nat.sub_zero]
  rw [hmax] at hhalf
  have h1 : ¬ (1 <<< (bit_length (Q <<< e) - 53 - 1) < 0) := Nat.not_lt_zero _
  have h2 : ¬ (0 = 1 <<< (bit_length (Q <<< e) - 53 - 1)) := hhalf.ne
  simp only [h1, h2, decide_False, Bool.false_and, Bool.or_false, Bool.false_eq_true, if_false,
    hback, if_neg hk]

theorem Double.round_isValue (s : Bool) (n sh : Nat) (sticky : Bool) :
    (Double.round s n sh sticky).isValue = true := by
  have hq : n >>> (max sh (bit_length n - 53)) < 2 ^ 53 := by
    rw [Nat.shiftRight_eq_div_pow, Nat.div_lt_iff_lt_mul (by positivity), ← pow_add]
    exact lt_of_lt_of_le (bit_length_lt n)
      (Nat.pow_le_pow_right (by decide) (by have := le_max_right sh (bit_length n - 53); omega))
  unfold Double.round
  simp only []
  split_ifs with h1 h2
  · rfl
  · simp only [Double.isValue, decide_eq_true_eq]
    exact Double.round_shift_fixed s _ _ (by omega) (by assumption)
  · rfl
  · simp only [Double.isValue, decide_eq_true_eq]
    exact Double.round_shift_fixed s _ _ (by omega) (by assumption)

theorem Double.add_comm (a b : Double) : Double.add a b = Double.add b a := by
  rcases a with ⟨s, x⟩ | s | _ <;> rcases b with ⟨t, y⟩ | t | _
  · simp only [Double.add]
    by_cases hst : s = t
    · subst hst
      rw [if_pos rfl, if_pos rfl, Nat.add_comm]
    · rw [if_neg hst, if_neg (Ne.symm hst)]
      by_cases hxy : x = y
      · rw [if_pos hxy, if_pos hxy.symm]
      · rw [if_neg hxy, if_neg (Ne.symm hxy)]
        by_cases hlt : y < x
        · rw [if_pos hlt, if_neg (by omega)]
        · rw [if_neg hlt, if_pos (by omega)]
  · rfl
  · rfl
  · rfl
  · simp only [Double.add]
    by_cases hst : s = t
    · subst hst
      rfl
    · rw [if_neg hst, if_neg (Ne.symm hst)]
  · rfl
  · rfl
  · rfl
  · rfl

end ValueLemmas

section ClosureLemmas

theorem Double.zero_isValue (s : Bool) : (Double.fin s 0).isValue = true := by
  simp only [Double.isValue, Double.round_zero, decide_True]

/-- The sum of two numbers is a value of `double`. -/
theorem Double.add_isValue (a b : Double) : (Double.add a b).isValue = true := by
  rcases a with ⟨s, x⟩ | s | _ <;> rcases b with ⟨t, y⟩ | t | _
  · simp only [Double.add]
    split_ifs
    · exact Double.round_isValue _ _ _ _
    · exact Double.zero_isValue _
    · exact Double.round_isValue _ _ _ _
    · exact Double.round_isValue _ _ _ _
  · rfl
  · rfl
  · rfl
  · simp only [Double.add]
    split_ifs <;> rfl
  · rfl
  · rfl
  · rfl
  · rfl

/-- The quotient of two numbers is a value of `double`. -/
theorem Double.div_isValue (a b : Double) : (Double.div a b).isValue = true := by
  rcases a with ⟨s, x⟩ | s | _ <;> rcases b with ⟨t, y⟩ | t | _
  · simp only [Double.div]
    split_ifs
    · rfl
    · rfl
    · exact Double.round_isValue _ _ _ _
  · exact Double.zero_isValue _
  · rfl
  · rfl
  · rfl
  · rfl
  · rfl
  · rfl
  · rfl

/-- The root of a value of `double` is a value of `double`. -/
theorem Double.sqrt_isValue (a : Double) : (Double.sqrt a).isValue = true := by
  rcases a with ⟨s, x⟩ | s | _
  · simp only [Double.sqrt]
    split_ifs
    · exact Double.zero_isValue _
    · rfl
    · exact Double.round_isValue _ _ _ _
  · simp only [Double.sqrt]
    split_ifs <;> rfl
  · rfl

end ClosureLemmas

section SmallSwap

theorem Double.mul_isValue (a b : Double) : (Double.mul a b).isValue = true := by
  rcases a with ⟨s, x⟩ | s | _ <;> rcases b with ⟨t, y⟩ | t | _
  · show (Double.round (xor s t) (x * y) 1074 false).isValue = true
    exact Double.round_isValue _ _ _ _
  · simp only [Double.mul]
    split_ifs <;> rfl
  · rfl
  · simp only [Double.mul]
    split_ifs <;> rfl
  · rfl
  · rfl
  · rfl
  · rfl
  · rfl

/-- The value `u` with `-0.0` replaced by `+0.0`. -/
theorem Double.zero_add_value (u : Double) (hu : u.isValue = true) :
    Double.add (.fin false 0) u = if u = .fin true 0 then .fin false 0 else u := by
  rcases u with ⟨s, k⟩ | s | _
  · by_cases hk : k = 0
    · subst hk
      cases s
      · simp [Double.add, Double.round_zero]
      · simp [Double.add]
    · rw [Double.add_zero_left _ _ _ hk, if_neg (fun e => hk (Double.fin.inj e).2)]
      simpa [Double.isValue] using hu
  · simp [Double.add]
  · simp [Double.add]

theorem Double.add_neg_zero (w : Double) (hw : w.isValue = true) (h0 : w ≠ .fin true 0) :
    Double.add w (.fin true 0) = w := by
  rcases w with ⟨s, k⟩ | s | _
  · by_cases hk : k = 0
    · subst hk
      cases s
      · simp [Double.add]
      · exact absurd rfl h0
    · rw [Double.add_zero_right _ _ _ hk]
      simpa [Double.isValue] using hw
  · simp [Double.add]
  · simp [Double.add]

/-- In `double`, a sum of two values that starts at `+0.0` does not depend on their
order. -/
theorem Double.zero_add_add_comm (u v : Double) (hu : u.isValue = true)
    (hv : v.isValue = true) : (0 + u + v : Double) = 0 + v + u := by
  simp only [Double.add_def, Double.zero_def]
  rw [Double.zero_add_value u hu, Double.zero_add_value v hv]
  by_cases h1 : u = .fin true 0
  · rw [if_pos h1, h1]
    by_cases h2 : v = .fin true 0
    · rw [if_pos h2, h2]
    · rw [if_neg h2, Double.zero_add_value v hv, if_neg h2, Double.add_neg_zero v hv h2]
  · rw [if_neg h1]
    by_cases h2 : v = .fin true 0
    · rw [if_pos h2, h2, Double.add_neg_zero u hu h1, Double.zero_add_value u hu, if_neg h1]
    · rw [if_neg h2]
      exact Double.add_comm u v

theorem Double.zero_add_mul_comm (p q r t : Double) :
    (0 + p * q + r * t : Double) = 0 + r * t + p * q :=
  Double.zero_add_add_comm _ _ (Double.mul_isValue p q) (Double.mul_isValue r t)

theorem accumulate_self {α : Type} [Scalar α] (c : Int → body_t α) (i : Int) (G softening m : α)
    (F : α × α) : accumulate c i G softening m i F = F := by
  simp only [accumulate, if_true]

/-- In `double`, the first two iterations of the force loop can be exchanged. -/
theorem accumulate_comm_zero (c : Int → body_t Double) (i : Int) (G softening m : Double)
    (x y : Int) :
    accumulate c i G softening m x (accumulate c i G softening m y (0, 0))
      = accumulate c i G softening m y (accumulate c i G softening m x (0, 0)) := by
  unfold accumulate
  split_ifs
  · rfl
  · rfl
  · rfl
  · exact Prod.ext (Double.zero_add_mul_comm _ _ _ _) (Double.zero_add_mul_comm _ _ _ _)

end SmallSwap

section SmallSwap2

/-- In `double`, for at most three bodies the force loop commutes with the exchange of two
bodies: each sum has at most two terms. -/
theorem force_loop_exchange_small (a b n : Int) (hn : n ≤ 3) (ha : 0 ≤ a ∧ a < n)
    (hb : 0 ≤ b ∧ b < n) (c : Int → body_t Double) (G softening m : Double) (i : Int)
    (hi : 0 ≤ i ∧ i < n) :
    forLoop 0 n (accumulate (fun l => c (exchange a b l)) i G softening m) (0, 0)
      = forLoop 0 n (accumulate c (exchange a b i) G softening m) (0, 0) := by
  obtain ⟨ha0, han⟩ := ha
  obtain ⟨hb0, hbn⟩ := hb
  obtain ⟨hi0, hin⟩ := hi
  have hn1 : 1 ≤ n := by omega
  interval_cases n
  · have e : ((1 : Int) - 0).toNat = 1 := rfl
    simp only [forLoop, e, forRange, accumulate_exchange]
    interval_cases a
    interval_cases b
    interval_cases i
    rfl
  · have e : ((2 : Int) - 0).toNat = 2 := rfl
    simp only [forLoop, e, forRange, accumulate_exchange]
    interval_cases a <;> interval_cases b <;> interval_cases i <;>
      simp only [exchange, zero_add, if_true, if_false, reduceIte, accumulate_self,
        show ((0 : Int) = 1) = False from by simp, show ((1 : Int) = 0) = False from by simp]
  · have e : ((3 : Int) - 0).toNat = 3 := rfl
    simp only [forLoop, e, forRange, accumulate_exchange]
    interval_cases a <;> interval_cases b <;> interval_cases i <;>
      norm_num [exchange, accumulate_self] <;>
      exact accumulate_comm_zero _ _ _ _ _ _ _

end SmallSwap2

section SmallSwap3

/-- In `double`, for at most three bodies the kernel commutes with the exchange of two
bodies. -/
theorem kernel_exchange_small (a b n : Int) (hn : n ≤ 3) (ha : 0 ≤ a ∧ a < n)
    (hb : 0 ≤ b ∧ b < n) (c : Int → body_t Double) (dt G softening : Double) (i : Int)
    (hi : 0 ≤ i ∧ i < n) :
    kernel (fun l => c (exchange a b l)) n dt G softening i
      = kernel c n dt G softening (exchange a b i) := by
  simp only [kernel, force_loop_exchange_small a b n hn ha hb c G softening _ i hi]

end SmallSwap3

section SwapLemmas
variable {α : Type} [Scalar α]

/-- When the kernel commutes with the exchange of two bodies, so does the driver loop. -/
theorem run_exchange (n : Int) (dt G softening : α) (a b : Int)
    (ha : 0 ≤ a ∧ a < n) (hb : 0 ≤ b ∧ b < n)
    (hk : ∀ (c : Int → body_t α) (i : Int), 0 ≤ i ∧ i < n →
      kernel (fun l => c (exchange a b l)) n dt G softening i
        = kernel c n dt G softening (exchange a b i))
    (d d' : Driver α) (num_threads : Int)
    (hd : d.current + n ≤ d.next ∨ d.next + n ≤ d.current)
    (hd' : d'.current + n ≤ d'.next ∨ d'.next + n ≤ d'.current)
    (hinit : ∀ i, 0 ≤ i → i < n →
      d'.heap.view d'.current i = d.heap.view d.current (exchange a b i))
    (N_STEPS : Int) (i : Int) (hi0 : 0 ≤ i) (hin : i < n) :
    (run N_STEPS n dt G softening num_threads d').heap.view
        (run N_STEPS n dt G softening num_threads d').current i
      = (run N_STEPS n dt G softening num_threads d).heap.view
        (run N_STEPS n dt G softening num_threads d).current (exchange a b i) := by
  have key := forRange_rel
    (fun s s' : Driver α =>
      (s.current + n ≤ s.next ∨ s.next + n ≤ s.current)
      ∧ (s'.current + n ≤ s'.next ∨ s'.next + n ≤ s'.current)
      ∧ ∀ i, 0 ≤ i → i < n → s'.heap.view s'.current i = s.heap.view s.current (exchange a b i))
    (fun _ s => step_and_swap n dt G softening num_threads s)
    (fun _ s => step_and_swap n dt G softening num_threads s)
    ?_ (N_STEPS - 0).toNat 0 d d' ⟨hd, hd', hinit⟩
  · exact key.2.2 i hi0 hin
  · rintro _ s s' ⟨h1, h2, h3⟩
    refine ⟨?_, ?_, ?_⟩
    · simp only [step_and_swap]; omega
    · simp only [step_and_swap]; omega
    · intro j hj0 hjn
      have hx := (exchange_range a b n j ha hb).2 ⟨hj0, hjn⟩
      simp only [step_and_swap]
      rw [step_simulation_next _ _ _ _ _ _ _ _ h2 j hj0 hjn,
        step_simulation_next _ _ _ _ _ _ _ _ h1 _ hx.1 hx.2,
        ← hk _ j ⟨hj0, hjn⟩]
      exact kernel_congr _ _ _ _ _ _ _ hj0 hjn h3

end SwapLemmas
section Claims

variable {α : Type} [Scalar α]

/-- C1. For `n ≥ 1` and any `num_threads`, the ranges built by `step_simulation` tile
`[0, n)`: the first starts at 0, each starts where the previous one ends, the last ends
at `n`; every index of `[0, n)` lies in exactly one range; and one step stores
`next[0], ..., next[n-1]`, each exactly once, and nothing else. -/
theorem step_simulation_ranges_tile (h : Heap α) (current next n : Int) (dt G softening : α)
    (num_threads : Int) (hn : 1 ≤ n) :
    ((thread_data current next n dt G softening num_threads).head?.map
        thread_data_t.start_idx = some 0)
    ∧ List.Chain' (fun a b => b.start_idx = a.end_idx)
        (thread_data current next n dt G softening num_threads)
    ∧ ((thread_data current next n dt G softening num_threads).getLast?.map
        thread_data_t.end_idx = some n)
    ∧ (∀ i, 0 ≤ i → i < n →
        (thread_data current next n dt G softening num_threads).countP
          (fun d => decide (d.start_idx ≤ i ∧ i < d.end_idx)) = 1)
    ∧ (step_simulation h current next n dt G softening num_threads).log
        = h.log ++ (List.range n.toNat).map (fun j : Nat => next + j)
    ∧ (∀ i, 0 ≤ i → i < n →
        ((step_simulation h current next n dt G softening num_threads).log.drop
          h.log.length).count (next + i) = 1) := by
  have hW := clamp_threads_pos n num_threads
  have hr := tmod_clamp_nonneg n num_threads
  have hq := div_clamp_nonneg n num_threads (by omega)
  have hS := startOf_clamp n num_threads
  obtain ⟨m, hm⟩ : ∃ m : Nat, (clamp_threads n num_threads).toNat = m + 1 :=
    ⟨(clamp_threads n num_threads).toNat - 1, by omega⟩
  have hmW : ((m : Int) + 1) = clamp_threads n num_threads := by omega
  rw [thread_data_eq, hm]
  refine ⟨?_, ?_, ?_, ?_, step_simulation_log _ _ _ _ _ _ _ _, ?_⟩
  · rw [List.range_succ_eq_map]
    simp [dataOf, startOf_zero _ _ hr]
  · rw [List.chain'_map, List.chain'_range_succ]
    intro t _
    simp [dataOf]
  · rw [List.range_succ, List.map_append]
    simp only [List.map_cons, List.map_nil, List.getLast?_append, List.getLast?_singleton,
      dataOf]
    simp
    rw [hmW, hS]
  · intro i hi0 hin
    rw [countP_ranges _ _ _ _ _ _ _ _ hq hr]
    push_cast
    rw [hmW, hS, if_pos ⟨hi0, hin⟩]
  · intro i hi0 hin
    rw [step_simulation_log, List.drop_left]
    exact count_range_map next n.toNat i hi0 (by omega)

/-- C2. The heap after `step_simulation` does not depend on the worker count: for every
`num_threads` it is the heap of the sequential loop over `i = 0, ..., n - 1`, hence the
same as for any other worker count (1, 2, 4, 8, `n`, `10 * n`, ...).  Moreover, when the
buffers do not overlap, running the workers one after the other in any order leaves the
same records in the heap. -/
theorem step_simulation_worker_count (h : Heap α) (current next n : Int) (dt G softening : α)
    (num_threads : Int) :
    step_simulation h current next n dt G softening num_threads
        = sequential_step h current next n dt G softening
    ∧ (∀ W : Int, step_simulation h current next n dt G softening num_threads
        = step_simulation h current next n dt G softening W)
    ∧ (∀ l : List (thread_data_t α),
        l.Perm (thread_data current next n dt G softening num_threads) →
        (current + n ≤ next ∨ next + n ≤ current) →
        (l.foldl (fun h data => compute_forces_thread data h) h).cell
          = (sequential_step h current next n dt G softening).cell) := by
  refine ⟨step_simulation_eq_loop _ _ _ _ _ _ _ _, fun W => ?_, fun l hl hd => ?_⟩
  · rw [step_simulation_eq_loop, step_simulation_eq_loop]
  · funext a
    have hseq : sequential_step h current next n dt G softening
        = written h current next n dt G softening 0 n.toNat := by
      rw [← step_simulation_eq_written h current next n dt G softening num_threads hd,
        step_simulation_eq_loop]
      rfl
    rw [hseq, workers_cell current next n dt G softening hd l
      (fun d hdl => thread_data_worker_of current next n dt G softening num_threads d
        (hl.mem_iff.1 hdl))]
    simp only [written]
    by_cases hc : next + 0 ≤ a ∧ a < next + 0 + (n.toNat : Int)
    · rw [if_pos hc, if_pos]
      have hpos := thread_data_countP current next n dt G softening num_threads (by omega)
        (a - next) (by omega) (by omega)
      have hex := List.countP_pos_iff.1 (by rw [hpos]; exact Nat.one_pos)
      obtain ⟨d, hdm, hdr⟩ := hex
      simp only [decide_eq_true_eq] at hdr
      exact ⟨d, hl.mem_iff.2 hdm, by omega, by omega⟩
    · rw [if_neg hc, if_neg]
      rintro ⟨d, hdm, h1, h2⟩
      obtain ⟨_, _, _, _, _, _, h7, h8⟩ :=
        thread_data_worker_of current next n dt G softening num_threads d (hl.mem_iff.1 hdm)
      apply hc
      omega

/-- C3. Mass is never changed: after one step `next[i].m` is `current[i].m`, and after any
number of iterations of the driver loop the authoritative buffer has the initial mass at
every index. -/
theorem mass_conserved (d : Driver α) (n : Int) (dt G softening : α) (num_threads : Int)
    (hd : d.current + n ≤ d.next ∨ d.next + n ≤ d.current) (i : Int) (hi0 : 0 ≤ i)
    (hin : i < n) :
    ((step_simulation d.heap d.current d.next n dt G softening num_threads).view d.next i).m
        = (d.heap.view d.current i).m
    ∧ ∀ N_STEPS : Int,
        ((run N_STEPS n dt G softening num_threads d).heap.view
          (run N_STEPS n dt G softening num_threads d).current i).m
        = (d.heap.view d.current i).m := by
  constructor
  · rw [step_simulation_next _ _ _ _ _ _ _ _ hd i hi0 hin]
    rfl
  · intro N_STEPS
    have key := run_invariant
      (fun s : Driver α => (s.current + n ≤ s.next ∨ s.next + n ≤ s.current)
        ∧ (s.heap.view s.current i).m = (d.heap.view d.current i).m)
      n dt G softening num_threads ?_ N_STEPS d ⟨hd, rfl⟩
    · exact key.2
    · intro s hs
      refine ⟨?_, ?_⟩
      · simp only [step_and_swap]
        omega
      · simp only [step_and_swap]
        rw [step_simulation_next _ _ _ _ _ _ _ _ hs.1 i hi0 hin, kernel_m]
        exact hs.2

end Claims

section PartitionClaims

variable {α : Type}

/-- C4. For `1 ≤ W ≤ n` the partition has `W` workers, worker `t` receives `n / W + 1`
indices when `t < n % W` and `n / W` otherwise, and the sizes of any two workers differ by
at most 1. -/
theorem partition_balanced (current next n : Int) (dt G softening : α) (W : Int)
    (h1 : 1 ≤ W) (h2 : W ≤ n) :
    (thread_data current next n dt G softening W).length = W.toNat
    ∧ (∀ (t : Nat) (d : thread_data_t α),
        (thread_data current next n dt G softening W)[t]? = some d →
          d.end_idx - d.start_idx = if (t : Int) < n % W then n / W + 1 else n / W)
    ∧ (∀ d ∈ thread_data current next n dt G softening W,
        ∀ d' ∈ thread_data current next n dt G softening W,
          |(d.end_idx - d.start_idx) - (d'.end_idx - d'.start_idx)| ≤ 1) := by
  have hc := clamp_threads_of_mem n W h1 h2
  have key : ∀ (t : Nat) (d : thread_data_t α),
        (thread_data current next n dt G softening W)[t]? = some d →
          d.end_idx - d.start_idx = if (t : Int) < n % W then n / W + 1 else n / W := by
    intro t d hd
    rw [thread_data_get current next n dt G softening W t d hd, hc]
    simp only [dataOf, startOf_succ]
    rw [Int.tmod_eq_emod (by omega) (by omega), Int.tdiv_eq_ediv (by omega) (by omega)]
    split_ifs <;> omega
  refine ⟨by rw [thread_data_length, hc], key, ?_⟩
  intro d hd d' hd'
  obtain ⟨t, ht⟩ := List.getElem?_of_mem hd
  obtain ⟨t', ht'⟩ := List.getElem?_of_mem hd'
  rw [key t d ht, key t' d' ht', abs_le]
  split_ifs <;> omega

/-- C5. For `n ≥ 1` and any `num_threads` the effective worker count lies in `[1, n]`
(`n` when `num_threads > n`, 1 when `num_threads < 1`, `num_threads` otherwise), it is the
number of workers created, and no worker receives an empty range. -/
theorem worker_count_clamped (current next n : Int) (dt G softening : α) (num_threads : Int)
    (hn : 1 ≤ n) :
    1 ≤ clamp_threads n num_threads
    ∧ clamp_threads n num_threads ≤ n
    ∧ (n < num_threads → clamp_threads n num_threads = n)
    ∧ (num_threads < 1 → clamp_threads n num_threads = 1)
    ∧ (1 ≤ num_threads → num_threads ≤ n → clamp_threads n num_threads = num_threads)
    ∧ (thread_data current next n dt G softening num_threads).length
        = (clamp_threads n num_threads).toNat
    ∧ (∀ d ∈ thread_data current next n dt G softening num_threads,
        d.start_idx < d.end_idx) := by
  have hp := clamp_threads_pos n num_threads
  have hl := clamp_threads_le n num_threads hn
  refine ⟨hp, hl, ?_, ?_, clamp_threads_of_mem n num_threads, thread_data_length _ _ _ _ _ _ _, ?_⟩
  · intro h; unfold clamp_threads; simp only; split_ifs <;> omega
  · intro h; unfold clamp_threads; simp only; split_ifs <;> omega
  · intro d hd
    obtain ⟨t, ht⟩ := List.getElem?_of_mem hd
    rw [thread_data_get current next n dt G softening num_threads t d ht]
    simp only [dataOf, startOf_succ]
    have hq : 1 ≤ Int.tdiv n (clamp_threads n num_threads) := by
      rw [Int.tdiv_eq_ediv (by omega) (by omega)]
      exact Int.le_ediv_of_mul_le (by omega) (by omega)
    split_ifs <;> omega

end PartitionClaims

section FrameClaims

variable {α : Type} [Scalar α]

/-- C6. One call of `step_simulation` with two buffers that do not overlap leaves every
record of `current` as it was on entry, and changes no record of the heap outside
`next[0 .. n-1]`. -/
theorem step_simulation_read_only (h : Heap α) (current next n : Int) (dt G softening : α)
    (num_threads : Int) (hd : current + n ≤ next ∨ next + n ≤ current) :
    (∀ i, 0 ≤ i → i < n →
        (step_simulation h current next n dt G softening num_threads).view current i
          = h.view current i)
    ∧ (∀ a, ¬ (next ≤ a ∧ a < next + n) →
        (step_simulation h current next n dt G softening num_threads).cell a = h.cell a) :=
  ⟨fun i hi0 hin => step_simulation_current h current next n dt G softening num_threads hd
      i hi0 hin,
   fun a ha => step_simulation_frame h current next n dt G softening num_threads a ha⟩

/-- C7. The kernel is semi-implicit Euler: the new velocity is the old velocity plus
acceleration times `dt`, and the new position is the old position plus the NEW velocity
times `dt`. -/
theorem step_simulation_semi_implicit (h : Heap α) (current next n : Int)
    (dt G softening : α) (num_threads : Int)
    (hd : current + n ≤ next ∨ next + n ≤ current) (i : Int) (hi0 : 0 ≤ i) (hin : i < n) :
    let old := h.view current i
    let new := (step_simulation h current next n dt G softening num_threads).view next i
    let F := forLoop 0 n (accumulate (h.view current) i G softening old.m) (0, 0)
    new.vx = old.vx + F.1 / old.m * dt
    ∧ new.vy = old.vy + F.2 / old.m * dt
    ∧ new.x = old.x + new.vx * dt
    ∧ new.y = old.y + new.vy * dt := by
  intro old new F
  have e : new = kernel (h.view current) n dt G softening i :=
    step_simulation_next h current next n dt G softening num_threads hd i hi0 hin
  rw [e]
  exact ⟨rfl, rfl, rfl, rfl⟩

end FrameClaims

section ExactClaims

variable {K : Type} [LinearOrderedField K] [HasSqrt K]

/-- In exact arithmetic a single body of non-zero mass moves ballistically: after `k`
iterations of the driver loop with `n = 1` its velocity is the initial velocity and its
position is the initial position plus `k * dt` times that velocity; the mass is unchanged. -/
theorem single_body_exact (d : Driver (Num K)) (x0 y0 vx0 vy0 m dt : K)
    (G softening : Num K) (num_threads : Int) (k : Nat) (hm : m ≠ 0)
    (hd : d.current ≠ d.next)
    (h0 : d.heap.view d.current 0
      = { x := .val x0, y := .val y0, vx := .val vx0, vy := .val vy0, m := .val m }) :
    (run k 1 (.val dt) G softening num_threads d).heap.view
        (run k 1 (.val dt) G softening num_threads d).current 0
      = { x := .val (x0 + k * dt * vx0), y := .val (y0 + k * dt * vy0),
          vx := .val vx0, vy := .val vy0, m := .val m } := by
  suffices H : (run k 1 (.val dt) G softening num_threads d).current
        ≠ (run k 1 (.val dt) G softening num_threads d).next
      ∧ (run k 1 (.val dt) G softening num_threads d).heap.view
          (run k 1 (.val dt) G softening num_threads d).current 0
        = { x := .val (x0 + k * dt * vx0), y := .val (y0 + k * dt * vy0),
            vx := .val vx0, vy := .val vy0, m := .val m } from H.2
  induction k with
  | zero =>
    refine ⟨hd, ?_⟩
    rw [Nat.cast_zero, run_zero, h0]
    simp
  | succ k ih =>
    obtain ⟨hsep, hrec⟩ := ih
    rw [Nat.cast_succ, run_succ]
    refine ⟨fun e => hsep e.symm, ?_⟩
    simp only [step_and_swap]
    rw [step_simulation_next _ _ _ _ _ _ _ _ (by omega) 0 le_rfl (by norm_num), kernel_single,
      hrec]
    simp only [val_zero, val_div _ _ hm, val_mul, val_add]
    congr 2 <;> push_cast <;> ring

/-- Two bodies in exact arithmetic, with buffers that do not overlap.
(1) If the two bodies are mirror images of each other about a centre (positions reflected,
velocities opposite, masses equal), they are so after any number of iterations of the
driver loop.
(2) With a non-zero softening and equal non-zero masses, two bodies at `c - p` and `c + p`
with velocities `-u` and `u` are, after any number of iterations, at `c - p'` and `c + p'`
with velocities `-u'` and `u'`: they move by equal and opposite amounts.
(3) For two bodies of equal positive mass at rest at `x = -1` and `x = 1` on the x-axis, with
`G > 0`, a non-zero softening and a non-zero time step: after any number of iterations the
bodies are at `(-a, 0)` and `(a, 0)` with velocities `(-u, 0)` and `(u, 0)`, so the y
coordinates are unchanged, and after the first iteration the x coordinates are `-1 + δ`
and `1 - δ` with the same `δ > 0`; moreover `δ < 2`, so both bodies are strictly closer
to 0 than before, when the root of every `r ≥ 1` is at least 1 and `G * m * dt * dt < 4`. -/
theorem two_body_mirror_exact (d : Driver (Num K)) (dt G softening : Num K) (num_threads : Int)
    (hd : d.current + 2 ≤ d.next ∨ d.next + 2 ≤ d.current) :
    (∀ cx cy : K, mirrored cx cy (d.heap.view d.current 0) (d.heap.view d.current 1) →
      ∀ N_STEPS : Int,
        mirrored cx cy
          ((run N_STEPS 2 dt G softening num_threads d).heap.view
            (run N_STEPS 2 dt G softening num_threads d).current 0)
          ((run N_STEPS 2 dt G softening num_threads d).heap.view
            (run N_STEPS 2 dt G softening num_threads d).current 1))
    ∧ (∀ cx cy px py ux uy g m s t : K, m ≠ 0 → s ≠ 0 →
        (∀ r : K, 0 < r → 0 < HasSqrt.sqrt r) →
        G = .val g → softening = .val s → dt = .val t →
        d.heap.view d.current 0
          = { x := .val (cx - px), y := .val (cy - py), vx := .val (-ux), vy := .val (-uy),
              m := .val m } →
        d.heap.view d.current 1
          = { x := .val (cx + px), y := .val (cy + py), vx := .val ux, vy := .val uy,
              m := .val m } →
        ∀ N_STEPS : Int, ∃ px' py' ux' uy' : K,
          (run N_STEPS 2 dt G softening num_threads d).heap.view
              (run N_STEPS 2 dt G softening num_threads d).current 0
            = { x := .val (cx - px'), y := .val (cy - py'), vx := .val (-ux'),
                vy := .val (-uy'), m := .val m }
          ∧ (run N_STEPS 2 dt G softening num_threads d).heap.view
              (run N_STEPS 2 dt G softening num_threads d).current 1
            = { x := .val (cx + px'), y := .val (cy + py'), vx := .val ux',
                vy := .val uy', m := .val m })
    ∧ (∀ g m s t : K, 0 < g → 0 < m → s ≠ 0 → t ≠ 0 →
        (∀ r : K, 0 < r → 0 < HasSqrt.sqrt r) →
        G = .val g → softening = .val s → dt = .val t →
        d.heap.view d.current 0
          = { x := .val (-1), y := .val 0, vx := .val 0, vy := .val 0, m := .val m } →
        d.heap.view d.current 1
          = { x := .val 1, y := .val 0, vx := .val 0, vy := .val 0, m := .val m } →
        (∀ N_STEPS : Int, ∃ a u : K,
          (run N_STEPS 2 dt G softening num_threads d).heap.view
              (run N_STEPS 2 dt G softening num_threads d).current 0
            = { x := .val (-a), y := .val 0, vx := .val (-u), vy := .val 0, m := .val m }
          ∧ (run N_STEPS 2 dt G softening num_threads d).heap.view
              (run N_STEPS 2 dt G softening num_threads d).current 1
            = { x := .val a, y := .val 0, vx := .val u, vy := .val 0, m := .val m })
        ∧ (∃ δ : K, 0 < δ
          ∧ ((run 1 2 dt G softening num_threads d).heap.view
              (run 1 2 dt G softening num_threads d).current 0).x = .val (-1 + δ)
          ∧ ((run 1 2 dt G softening num_threads d).heap.view
              (run 1 2 dt G softening num_threads d).current 1).x = .val (1 - δ)
          ∧ ((∀ r : K, 1 ≤ r → 1 ≤ HasSqrt.sqrt r) → g * m * (t * t) < 4 → δ < 2))) := by
  have sym : ∀ cx cy : K,
      mirrored cx cy (d.heap.view d.current 0) (d.heap.view d.current 1) →
      ∀ N_STEPS : Int,
        mirrored cx cy
          ((run N_STEPS 2 dt G softening num_threads d).heap.view
            (run N_STEPS 2 dt G softening num_threads d).current 0)
          ((run N_STEPS 2 dt G softening num_threads d).heap.view
            (run N_STEPS 2 dt G softening num_threads d).current 1) := by
    intro cx cy h0 N_STEPS
    have key := run_invariant
      (fun s : Driver (Num K) => (s.current + 2 ≤ s.next ∨ s.next + 2 ≤ s.current)
        ∧ mirrored cx cy (s.heap.view s.current 0) (s.heap.view s.current 1))
      2 dt G softening num_threads ?_ N_STEPS d ⟨hd, h0⟩
    · exact key.2
    · rintro s ⟨h1, h2⟩
      refine ⟨?_, ?_⟩
      · simp only [step_and_swap]; omega
      · rw [step_and_swap_view _ _ _ _ _ _ h1 0 le_rfl (by norm_num),
          step_and_swap_view _ _ _ _ _ _ h1 1 (by norm_num) (by norm_num)]
        exact kernel_mirrored cx cy _ dt G softening h2
  refine ⟨sym, ?_, ?_⟩
  · intro cx cy px py ux uy g m s t hm hs hrt hG hS hT hb0 hb1 N_STEPS
    have key := run_invariant
      (fun st : Driver (Num K) => (st.current + 2 ≤ st.next ∨ st.next + 2 ≤ st.current)
        ∧ ∃ px' py' ux' uy' : K, st.heap.view st.current 0
            = { x := .val (cx - px'), y := .val (cy - py'), vx := .val (-ux'),
                vy := .val (-uy'), m := .val m }
          ∧ st.heap.view st.current 1
            = { x := .val (cx + px'), y := .val (cy + py'), vx := .val ux',
                vy := .val uy', m := .val m })
      2 dt G softening num_threads ?_ N_STEPS d ⟨hd, px, py, ux, uy, hb0, hb1⟩
    · exact key.2
    · rintro st ⟨h1, a, b, u, v, h2, h3⟩
      refine ⟨?_, ?_⟩
      · simp only [step_and_swap]; omega
      · have hk := kernel_pair (st.heap.view st.current) cx cy a b u v m g s t hm hs hrt h2 h3
        have hmir : mirrored cx cy (st.heap.view st.current 0) (st.heap.view st.current 1) := by
          rw [h2, h3]
          exact pair_is_mirrored cx cy a b u v m
        have hk' := kernel_mirrored cx cy _ dt G softening hmir
        rw [step_and_swap_view _ _ _ _ _ _ h1 0 le_rfl (by norm_num),
          step_and_swap_view _ _ _ _ _ _ h1 1 (by norm_num) (by norm_num)]
        rw [hG, hS, hT] at hk' ⊢
        exact ⟨_, _, _, _, hk, mirrored_pair _ _ _ _ _ _ _ _ _ hk' hk⟩
  intro g m s t hg hm hs ht hrt hG hS hT hb0 hb1
  have hmir : mirrored 0 0 (d.heap.view d.current 0) (d.heap.view d.current 1) := by
    rw [hb0, hb1]
    refine ⟨?_, ?_, ?_, ?_, rfl⟩ <;> simp only [val_zero, val_sub] <;> congr 1 <;> ring
  constructor
  · intro N_STEPS
    have key := run_invariant
      (fun s : Driver (Num K) => (s.current + 2 ≤ s.next ∨ s.next + 2 ≤ s.current)
        ∧ ∃ a u : K, s.heap.view s.current 0
            = { x := .val (-a), y := .val 0, vx := .val (-u), vy := .val 0, m := .val m }
          ∧ s.heap.view s.current 1
            = { x := .val a, y := .val 0, vx := .val u, vy := .val 0, m := .val m })
      2 dt G softening num_threads ?_ N_STEPS d ⟨hd, 1, 0, by rw [hb0, neg_zero], hb1⟩
    · exact key.2
    · rintro st ⟨h1, a, u, h2, h3⟩
      refine ⟨?_, ?_⟩
      · simp only [step_and_swap]; omega
      · have hk := kernel_on_axis (st.heap.view st.current) a u m g s t hm.ne' hs hrt h2 h3
        have hmir' : mirrored 0 0 (st.heap.view st.current 0) (st.heap.view st.current 1) := by
          rw [h2, h3]
          refine ⟨?_, ?_, ?_, ?_, rfl⟩ <;> simp only [val_zero, val_sub] <;> congr 1 <;> ring
        have hk' := kernel_mirrored 0 0 _ dt G softening hmir'
        rw [step_and_swap_view _ _ _ _ _ _ h1 0 le_rfl (by norm_num),
          step_and_swap_view _ _ _ _ _ _ h1 1 (by norm_num) (by norm_num)]
        rw [hG, hS, hT] at hk' ⊢
        exact ⟨_, _, hk, mirrored_on_axis _ _ _ _ _ hk' hk⟩
  · have e1 : run 1 2 dt G softening num_threads d
        = step_and_swap 2 dt G softening num_threads d := by
      have := run_succ 0 2 dt G softening num_threads d
      simpa [run_zero] using this
    have hk := kernel_on_axis (d.heap.view d.current) 1 0 m g s t hm.ne' hs hrt
      (by rw [hb0, neg_zero]) hb1
    have hk' := kernel_mirrored 0 0 (d.heap.view d.current) dt G softening hmir
    rw [hG, hS, hT] at hk'
    have hq := mirrored_on_axis _ _ _ _ _ hk' hk
    have hpos : 0 < ((1 : K) + 1) * (1 + 1) + s * s := by
      have h2 : 0 < s * s := mul_self_pos.2 hs
      linarith
    refine ⟨g * m * m / ((1 + 1) * (1 + 1) + s * s)
        * ((1 + 1) / HasSqrt.sqrt ((1 + 1) * (1 + 1) + s * s)) / m * t * t, ?_, ?_, ?_, ?_⟩
    · have h3 : 0 < t * t := mul_self_pos.2 ht
      have h4 := hrt _ hpos
      have hA : 0 < g * m * m / ((1 + 1) * (1 + 1) + s * s)
          * ((1 + 1) / HasSqrt.sqrt ((1 + 1) * (1 + 1) + s * s)) / m :=
        div_pos (mul_pos (div_pos (mul_pos (mul_pos hg hm) hm) hpos)
          (div_pos (by norm_num) h4)) hm
      rw [mul_assoc]
      exact mul_pos hA h3
    · rw [e1, step_and_swap_view _ _ _ _ _ _ hd 0 le_rfl (by norm_num), hG, hS, hT, hk]
      simp only
      congr 1
      ring
    · rw [e1, step_and_swap_view _ _ _ _ _ _ hd 1 (by norm_num) (by norm_num), hG, hS, hT, hq]
      simp only
      congr 1
      ring
    · intro hrt1 hsmall
      have hD : (4 : K) ≤ (1 + 1) * (1 + 1) + s * s := by
        have h2 : 0 ≤ s * s := mul_self_nonneg s
        linarith
      have hR : 1 ≤ HasSqrt.sqrt (((1 : K) + 1) * (1 + 1) + s * s) := hrt1 _ (by linarith)
      have hR0 : 0 < HasSqrt.sqrt (((1 : K) + 1) * (1 + 1) + s * s) := by linarith
      have hDR : (4 : K) ≤ ((1 + 1) * (1 + 1) + s * s)
          * HasSqrt.sqrt (((1 : K) + 1) * (1 + 1) + s * s) := by
        have := mul_le_mul hD hR zero_le_one hpos.le
        linarith
      have e : g * m * m / ((1 + 1) * (1 + 1) + s * s)
          * ((1 + 1) / HasSqrt.sqrt ((1 + 1) * (1 + 1) + s * s)) / m * t * t
          = 2 * (g * m * (t * t)) / (((1 + 1) * (1 + 1) + s * s)
              * HasSqrt.sqrt (((1 : K) + 1) * (1 + 1) + s * s)) := by
        field_simp
        ring
      rw [e, div_lt_iff₀ (by linarith)]
      have hgm : 0 ≤ g * m * (t * t) :=
        mul_nonneg (mul_nonneg hg.le hm.le) (mul_self_nonneg t)
      nlinarith

end ExactClaims

section Concrete

/-- The partition of 10 indices among 3 workers is `[0, 4)`, `[4, 7)`, `[7, 10)`. -/
theorem thread_data_ten_three :
    (thread_data 0 10 10 (Num.val (1 / 100 : ℚ)) (.val 1) (.val (1 / 1000)) 3).map
        (fun d => (d.start_idx, d.end_idx))
      = [(0, 4), (4, 7), (7, 10)] := by
  decide

/-- With more workers asked for than bodies, each of the 3 bodies gets its own worker. -/
theorem thread_data_three_thirty :
    (thread_data 0 3 3 (Num.val (1 / 100 : ℚ)) (.val 1) (.val (1 / 1000)) 30).map
        (fun d => (d.start_idx, d.end_idx))
      = [(0, 1), (1, 2), (2, 3)] := by
  decide

/-- C1, at a concrete input: 5 bodies and 2 workers. -/
theorem step_simulation_ranges_tile_witness :
    (1 : Int) ≤ 5
    ∧ (thread_data 0 5 5 (Num.val (1 / 100 : ℚ)) (.val 1) (.val (1 / 1000)) 2).countP
        (fun d => decide (d.start_idx ≤ 3 ∧ 3 < d.end_idx)) = 1
    ∧ ((step_simulation pair_driver.heap 0 5 5 (.val (1 / 100)) (.val 1) (.val (1 / 1000))
        2).log.drop pair_driver.heap.log.length).count (5 + 3) = 1 :=
  ⟨by decide,
   (step_simulation_ranges_tile pair_driver.heap 0 5 5 (.val (1 / 100)) (.val 1)
      (.val (1 / 1000)) 2 (by decide)).2.2.2.1 3 (by decide) (by decide),
   (step_simulation_ranges_tile pair_driver.heap 0 5 5 (.val (1 / 100)) (.val 1)
      (.val (1 / 1000)) 2 (by decide)).2.2.2.2.2 3 (by decide) (by decide)⟩

/-- C3, at a concrete input: the third of three bodies still has mass 3 after 1000 steps. -/
theorem mass_conserved_witness :
    (triple_driver.current + 3 ≤ triple_driver.next
      ∨ triple_driver.next + 3 ≤ triple_driver.current)
    ∧ (0 : Int) ≤ 2 ∧ (2 : Int) < 3
    ∧ ((run 1000 3 (.val (1 / 100)) (.val 1) (.val (1 / 1000)) 8 triple_driver).heap.view
        (run 1000 3 (.val (1 / 100)) (.val 1) (.val (1 / 1000)) 8 triple_driver).current 2).m
      = .val 3 :=
  ⟨by decide, by decide, by decide,
   (mass_conserved triple_driver 3 (.val (1 / 100)) (.val 1) (.val (1 / 1000)) 8 (by decide)
      2 (by decide) (by decide)).2 1000⟩

/-- C4, at a concrete input: 10 bodies and 3 workers; worker 0 receives 4 indices. -/
theorem partition_balanced_witness :
    (1 : Int) ≤ 3 ∧ (3 : Int) ≤ 10
    ∧ (thread_data 0 10 10 (Num.val (1 / 100 : ℚ)) (.val 1) (.val (1 / 1000)) 3).length = 3
    ∧ (∀ d ∈ thread_data 0 10 10 (Num.val (1 / 100 : ℚ)) (.val 1) (.val (1 / 1000)) 3,
        ∀ d' ∈ thread_data 0 10 10 (Num.val (1 / 100 : ℚ)) (.val 1) (.val (1 / 1000)) 3,
          |(d.end_idx - d.start_idx) - (d'.end_idx - d'.start_idx)| ≤ 1) :=
  ⟨by decide, by decide,
   (partition_balanced 0 10 10 (Num.val (1 / 100 : ℚ)) (.val 1) (.val (1 / 1000)) 3
      (by decide) (by decide)).1,
   (partition_balanced 0 10 10 (Num.val (1 / 100 : ℚ)) (.val 1) (.val (1 / 1000)) 3
      (by decide) (by decide)).2.2⟩

/-- C5, at a concrete input: 3 bodies and 30 workers asked for; 3 workers are used. -/
theorem worker_count_clamped_witness :
    (1 : Int) ≤ 3
    ∧ clamp_threads 3 30 = 3
    ∧ (∀ d ∈ thread_data 0 3 3 (Num.val (1 / 100 : ℚ)) (.val 1) (.val (1 / 1000)) 30,
        d.start_idx < d.end_idx) :=
  ⟨by decide,
   (worker_count_clamped 0 3 3 (Num.val (1 / 100 : ℚ)) (.val 1) (.val (1 / 1000)) 30
      (by decide)).2.2.1 (by decide),
   (worker_count_clamped 0 3 3 (Num.val (1 / 100 : ℚ)) (.val 1) (.val (1 / 1000)) 30
      (by decide)).2.2.2.2.2.2⟩

/-- C6, at a concrete input: two bodies, `current` at address 0 and `next` at address 2. -/
theorem step_simulation_read_only_witness :
    ((0 : Int) + 2 ≤ 2 ∨ (2 : Int) + 2 ≤ 0)
    ∧ (step_simulation pair_driver.heap 0 2 2 (.val (1 / 100)) (.val 1) (.val (1 / 1000))
        8).view 0 1 = right_body :=
  ⟨by decide,
   (step_simulation_read_only pair_driver.heap 0 2 2 (.val (1 / 100)) (.val 1)
      (.val (1 / 1000)) 8 (by decide)).1 1 (by decide) (by decide)⟩

/-- C7, at a concrete input: the new position of body 1 of two is its old position plus
`dt` times its new velocity. -/
theorem step_simulation_semi_implicit_witness :
    ((0 : Int) + 2 ≤ 2 ∨ (2 : Int) + 2 ≤ 0) ∧ (0 : Int) ≤ 1 ∧ (1 : Int) < 2
    ∧ ((step_simulation pair_driver.heap 0 2 2 (.val (1 / 100)) (.val 1) (.val (1 / 1000))
        8).view 2 1).x
      = (pair_driver.heap.view 0 1).x
        + ((step_simulation pair_driver.heap 0 2 2 (.val (1 / 100)) (.val 1)
            (.val (1 / 1000)) 8).view 2 1).vx * .val (1 / 100) :=
  ⟨by decide, by decide, by decide,
   (step_simulation_semi_implicit pair_driver.heap 0 2 2 (.val (1 / 100)) (.val 1)
      (.val (1 / 1000)) 8 (by decide) 1 (by decide) (by decide)).2.2.1⟩

/-- A body of mass 0, which the data model excludes: after one step its velocity is
undefined (the code computes `0.0 / 0.0`), not the initial velocity 1. -/
theorem massless_body_not_ballistic :
    ((run 1 1 (.val (1 / 100)) (.val 1) (.val (1 / 1000)) 1 massless_driver).heap.view
        (run 1 1 (.val (1 / 100)) (.val 1) (.val (1 / 1000)) 1 massless_driver).current 0).vx
      = .nan
    ∧ ((run 1 1 (.val (1 / 100)) (.val 1) (.val (1 / 1000)) 1 massless_driver).heap.view
        (run 1 1 (.val (1 / 100)) (.val 1) (.val (1 / 1000)) 1 massless_driver).current 0).vx
      ≠ (massless_driver.heap.view massless_driver.current 0).vx := by
  have e1 : run 1 1 (.val (1 / 100)) (.val 1) (.val (1 / 1000)) 1 massless_driver
      = step_and_swap 1 (.val (1 / 100)) (.val 1) (.val (1 / 1000)) 1 massless_driver := by
    have := run_succ 0 1 (Num.val (1 / 100 : ℚ)) (.val 1) (.val (1 / 1000)) 1 massless_driver
    simpa [run_zero] using this
  have e2 : ((run 1 1 (.val (1 / 100)) (.val 1) (.val (1 / 1000)) 1 massless_driver).heap.view
        (run 1 1 (.val (1 / 100)) (.val 1) (.val (1 / 1000)) 1 massless_driver).current 0).vx
      = .nan := by
    rw [e1, step_and_swap_view _ _ _ _ _ _ (by decide) 0 le_rfl (by norm_num), kernel_single]
    simp only [massless_driver, massless_body, Heap.view, val_zero, val_div_zero]
    rfl
  refine ⟨e2, ?_⟩
  rw [e2]
  simp [massless_driver, massless_body, Heap.view]

end Concrete

section DriverClaims

variable {α : Type} [Scalar α]

/-- C11. The driver loop as a function of the number of steps: zero steps leave the state
unchanged; `a + b` steps are `a` steps followed by `b` steps, so `2 * s` steps are `s`
steps twice; and each iteration exchanges the two pointers after the step, so `current`
is the buffer the step has just written: the heap is that of `step_simulation` on the
previous `current` and `next`, and the stores of the step went to the records at
`current + 0, ..., current + (n - 1)` of the new `current`.  The loop of `main.cpp`, which
also stops when the window is closed, ends after some `m` steps in the state of `m` steps
of the loop of `main.c`, with `m = N_STEPS` or the window closed. -/
theorem run_compose (d : Driver α) (n : Int) (dt G softening : α) (num_threads : Int) :
    run 0 n dt G softening num_threads d = d
    ∧ (∀ a b : Nat, run ((a : Int) + b) n dt G softening num_threads d
        = run b n dt G softening num_threads (run a n dt G softening num_threads d))
    ∧ (∀ s : Nat, run (2 * (s : Int)) n dt G softening num_threads d
        = run s n dt G softening num_threads (run s n dt G softening num_threads d))
    ∧ (∀ k : Nat,
        (run ((k : Int) + 1) n dt G softening num_threads d).current
          = (run k n dt G softening num_threads d).next
        ∧ (run ((k : Int) + 1) n dt G softening num_threads d).next
          = (run k n dt G softening num_threads d).current
        ∧ (run ((k : Int) + 1) n dt G softening num_threads d).heap
          = step_simulation (run k n dt G softening num_threads d).heap
              (run k n dt G softening num_threads d).current
              (run k n dt G softening num_threads d).next n dt G softening num_threads
        ∧ (run ((k : Int) + 1) n dt G softening num_threads d).heap.log
          = (run k n dt G softening num_threads d).heap.log
            ++ (List.range n.toNat).map
                (fun j : Nat => (run ((k : Int) + 1) n dt G softening num_threads d).current + j))
    ∧ (∀ (close : Int → Bool) (N_STEPS : Int), ∃ m : Nat,
        ((m : Int) ≤ N_STEPS ∨ m = 0)
        ∧ ¬ ((m : Int) < N_STEPS ∧ close m = false)
        ∧ run_cpp close N_STEPS n dt G softening num_threads d
          = ((m : Int), run m n dt G softening num_threads d)) := by
  refine ⟨run_zero n dt G softening num_threads d,
    fun a b => run_add a b n dt G softening num_threads d, fun s => ?_, fun k => ?_,
    fun close N_STEPS => ?_⟩
  · rw [two_mul, run_add]
  · rw [run_succ]
    exact ⟨rfl, rfl, rfl, step_simulation_log _ _ _ _ _ _ _ _⟩
  · obtain ⟨m, -, h2, h3, h4⟩ := while_cpp_run close N_STEPS n dt G softening num_threads d
      N_STEPS.toNat 0 (by omega)
    exact ⟨m, h2, h3, h4⟩

end DriverClaims

section ArgClaims

end ArgClaims

section DrawClaims

/-- C13, at the failing input: a body at `x = -10.01`, `y = 0` lies outside `[-R, R]` on the
x-axis, and the draw condition holds for it (`screen_x` is `(int)(-0.4) = 0`). -/
theorem drawn_outside_view :
    (-1001 / 100 : ℚ) < -VIEW_RANGE ∧ draw_condition (-1001 / 100 : ℚ) 0 = true := by
  constructor
  · norm_num [VIEW_RANGE]
  · rw [draw_condition_iff]
    norm_num

end DrawClaims

section FiniteClaims

variable {K : Type} [LinearOrderedField K] [HasSqrt K]

/-- In exact arithmetic, for bodies `i ≠ j` with finite coordinates and masses, which
may coincide, and a softening `sigma ≠ 0`: the softened squared distance
`dx*dx + dy*dy + sigma*sigma` is strictly positive and so is its root, so neither division is
a division by zero, and the iteration `j` of the force loop adds a finite force to a finite
sum. -/
theorem softened_force_exact (current : Int → body_t (Num K)) (X Y VX VY M : Int → K)
    (g s : K) (i j : Int) (hij : j ≠ i) (hs : s ≠ 0)
    (hrt : ∀ r : K, 0 < r → 0 < HasSqrt.sqrt r)
    (hi : current i = finite_state X Y VX VY M i)
    (hj : current j = finite_state X Y VX VY M j) (Fx Fy : K) :
    0 < (X j - X i) * (X j - X i) + (Y j - Y i) * (Y j - Y i) + s * s
    ∧ 0 < HasSqrt.sqrt ((X j - X i) * (X j - X i) + (Y j - Y i) * (Y j - Y i) + s * s)
    ∧ accumulate current i (.val g) (.val s) (.val (M i)) j (.val Fx, .val Fy)
      = (.val (Fx + g * M i * M j
            / ((X j - X i) * (X j - X i) + (Y j - Y i) * (Y j - Y i) + s * s)
            * ((X j - X i) / HasSqrt.sqrt
                ((X j - X i) * (X j - X i) + (Y j - Y i) * (Y j - Y i) + s * s))),
         .val (Fy + g * M i * M j
            / ((X j - X i) * (X j - X i) + (Y j - Y i) * (Y j - Y i) + s * s)
            * ((Y j - Y i) / HasSqrt.sqrt
                ((X j - X i) * (X j - X i) + (Y j - Y i) * (Y j - Y i) + s * s)))) := by
  have hpos := soft_dist2_pos s X Y i j hs
  exact ⟨hpos, hrt _ hpos,
    accumulate_finite current X Y VX VY M g s i j hij hs hrt hi hj Fx Fy⟩

end FiniteClaims

section InitClaims

variable {K : Type} [LinearOrderedField K] [HasSqrt K]

/-- C15. In exact arithmetic, for results of `rand()` in `[0, RAND_MAX]`, `init_bodies`
stores at every index `i` of `[0, n)` a record with `x` and `y` in `[-1, 1]`, `vx` and `vy`
in `[-0.1, 0.1]` and `m` in `[0.5, 5]`, so that the mass is strictly positive. -/
theorem init_bodies_bounds (RAND_MAX : Int) (rand : Nat → Int) (bodies n : Int)
    (h : Heap (Num K)) (hmax : 0 < RAND_MAX) (hr : ∀ k, 0 ≤ rand k ∧ rand k ≤ RAND_MAX)
    (i : Int) (hi0 : 0 ≤ i) (hin : i < n) :
    ∃ x y vx vy m : K,
      (init_bodies RAND_MAX rand bodies n h).view bodies i
        = { x := .val x, y := .val y, vx := .val vx, vy := .val vy, m := .val m }
      ∧ (-1 ≤ x ∧ x ≤ 1) ∧ (-1 ≤ y ∧ y ≤ 1)
      ∧ (-(1 / 10) ≤ vx ∧ vx ≤ 1 / 10) ∧ (-(1 / 10) ≤ vy ∧ vy ≤ 1 / 10)
      ∧ (1 / 2 ≤ m ∧ m ≤ 5) ∧ 0 < m := by
  obtain ⟨x, y, vx, vy, m, e, hx, hy, hvx, hvy, hm⟩ :=
    random_body_bounds (K := K) RAND_MAX rand (5 * i.toNat) hmax hr
  refine ⟨x, y, vx, vy, m, ?_, hx, hy, hvx, hvy, hm, by linarith [hm.1]⟩
  rw [init_bodies_view RAND_MAX rand bodies n h i hi0 hin, e]

end InitClaims

section RefClaims

variable {α : Type} [Scalar α]

/-- C16. After one step (buffers not overlapping) the velocity of body `i` is the reference
formula: `next[i].vx = current[i].vx + Fx / m_i * dt` and likewise for `vy`, where
`(Fx, Fy)` is the sum in ascending `j`, over the `j` of `[0, n)` other than `i`, of
`(G * m_i * m_j / d2) * (dx / d)` and `(G * m_i * m_j / d2) * (dy / d)`, the softening being
added inside `d2`; when the multiplication is commutative this is
`current[i].vx + dt * (Fx / m_i)`.  The term `j = i` is not part of the sum. -/
theorem velocity_reference (h : Heap α) (current next n : Int) (dt G softening : α)
    (num_threads : Int) (hd : current + n ≤ next ∨ next + n ≤ current)
    (i : Int) (hi0 : 0 ≤ i) (hin : i < n) :
    ((step_simulation h current next n dt G softening num_threads).view next i).vx
        = (h.view current i).vx
          + (reference_force (h.view current) n G softening i).1 / (h.view current i).m * dt
    ∧ ((step_simulation h current next n dt G softening num_threads).view next i).vy
        = (h.view current i).vy
          + (reference_force (h.view current) n G softening i).2 / (h.view current i).m * dt
    ∧ ((∀ a b : α, a * b = b * a) →
        ((step_simulation h current next n dt G softening num_threads).view next i).vx
          = (h.view current i).vx
            + dt * ((reference_force (h.view current) n G softening i).1
                / (h.view current i).m)
        ∧ ((step_simulation h current next n dt G softening num_threads).view next i).vy
          = (h.view current i).vy
            + dt * ((reference_force (h.view current) n G softening i).2
                / (h.view current i).m)) := by
  have e := step_simulation_next h current next n dt G softening num_threads hd i hi0 hin
  have ex : ((step_simulation h current next n dt G softening num_threads).view next i).vx
        = (h.view current i).vx
          + (reference_force (h.view current) n G softening i).1 / (h.view current i).m * dt := by
    rw [e, ← force_loop_eq_reference]
    rfl
  have ey : ((step_simulation h current next n dt G softening num_threads).view next i).vy
        = (h.view current i).vy
          + (reference_force (h.view current) n G softening i).2 / (h.view current i).m * dt := by
    rw [e, ← force_loop_eq_reference]
    rfl
  refine ⟨ex, ey, fun hmul => ?_⟩
  rw [hmul dt, hmul dt]
  exact ⟨ex, ey⟩

end RefClaims

section MomClaims

variable {K : Type} [LinearOrderedField K] [HasSqrt K]

/-- C17. In exact arithmetic, for `n` bodies with finite values and non-zero masses, a
softening `sigma ≠ 0` and buffers that do not overlap: after one step the velocities and
masses are finite, the masses are unchanged, and the total momentum is the same,
`Σ m_i * next[i].vx = Σ m_i * current[i].vx` and likewise for `vy`; the force of `i` on `j`
is the negation of the force of `j` on `i`. -/
theorem momentum_conserved (h : Heap (Num K)) (current next n : Int) (g s t : K)
    (num_threads : Int) (X Y VX VY M : Int → K)
    (hd : current + n ≤ next ∨ next + n ≤ current) (hs : s ≠ 0)
    (hM : ∀ i, 0 ≤ i → i < n → M i ≠ 0)
    (hrt : ∀ r : K, 0 < r → 0 < HasSqrt.sqrt r)
    (hc : ∀ i, 0 ≤ i → i < n → h.view current i = finite_state X Y VX VY M i) :
    (∀ i j, force_x g s X Y M j i = - force_x g s X Y M i j
      ∧ force_y g s X Y M j i = - force_y g s X Y M i j)
    ∧ ∃ VX' VY' : Int → K,
      (∀ i, 0 ≤ i → i < n →
        ((step_simulation h current next n (.val t) (.val g) (.val s) num_threads).view
            next i).vx = .val (VX' i)
        ∧ ((step_simulation h current next n (.val t) (.val g) (.val s) num_threads).view
            next i).vy = .val (VY' i)
        ∧ ((step_simulation h current next n (.val t) (.val g) (.val s) num_threads).view
            next i).m = .val (M i))
      ∧ ∑ i ∈ Finset.range n.toNat, M i * VX' i = ∑ i ∈ Finset.range n.toNat, M i * VX i
      ∧ ∑ i ∈ Finset.range n.toNat, M i * VY' i = ∑ i ∈ Finset.range n.toNat, M i * VY i := by
  refine ⟨fun i j => ⟨force_x_antisymm g s X Y M i j, force_y_antisymm g s X Y M i j⟩,
    fun i => VX i + net_force_x g s X Y M n i / M i * t,
    fun i => VY i + net_force_y g s X Y M n i / M i * t, ?_, ?_, ?_⟩
  · intro i hi0 hin
    rw [step_simulation_next _ _ _ _ _ _ _ _ hd i hi0 hin,
      kernel_finite _ X Y VX VY M g s t n i hi0 hin hs (hM i hi0 hin) hrt hc]
    exact ⟨rfl, rfl, rfl⟩
  · exact momentum_sum (fun i => M i) (fun i => VX i) (fun i => net_force_x g s X Y M n i) t
      n.toNat (fun i hi => hM i (by omega) (by omega)) (net_force_x_sum g s X Y M n)
  · exact momentum_sum (fun i => M i) (fun i => VY i) (fun i => net_force_y g s X Y M n i) t
      n.toNat (fun i hi => hM i (by omega) (by omega)) (net_force_y_sum g s X Y M n)

end MomClaims

section ClampClaims

variable {α : Type} [Scalar α]

/-- C18. For every `n` and `num_threads` the divisor of `n / num_threads` and
`n % num_threads` in `step_simulation`, the clamped worker count, is at least 1, and it is 1
when `n ≤ 0`; for `n = 0` the array `thread_data` holds exactly one worker, with the empty
range `[0, 0)`, and for `n ≤ 0` the step leaves the heap, ghost log of stores included, as
it was. -/
theorem divisor_at_least_one (h : Heap α) (current next : Int) (dt G softening : α) :
    (∀ n num_threads : Int, 1 ≤ clamp_threads n num_threads)
    ∧ (∀ n num_threads : Int, n ≤ 0 → clamp_threads n num_threads = 1)
    ∧ (∀ num_threads : Int,
        thread_data current next 0 dt G softening num_threads
          = [{ current := current, next := next, n := 0, dt := dt, G := G,
               softening := softening, start_idx := 0, end_idx := 0 }])
    ∧ (∀ n num_threads : Int, n ≤ 0 →
        step_simulation h current next n dt G softening num_threads = h) := by
  refine ⟨clamp_threads_pos, clamp_threads_of_nonpos, fun W => ?_, fun n W hn => ?_⟩
  · rw [thread_data_eq, clamp_threads_of_nonpos 0 W le_rfl]
    rfl
  · rw [step_simulation_eq_loop]
    unfold forLoop
    have e : (n - 0).toNat = 0 := by omega
    rw [e]
    rfl

end ClampClaims

section CppClaims

variable {α : Type} [Scalar α]

/-- C19. The C and the C++ implementation of `step_simulation` leave the same heap: the same
records in `next`, every other record untouched, and the same stores in the same order, for
every heap, buffers, `n`, parameters and `num_threads`; the two build the same ranges. -/
theorem step_simulation_c_cpp (h : Heap α) (current next n : Int) (dt G softening : α)
    (num_threads : Int) :
    step_simulation_cpp h current next n dt G softening num_threads
        = step_simulation h current next n dt G softening num_threads
    ∧ threads_cpp n num_threads
        = (thread_data current next n dt G softening num_threads).map
            (fun d => (d.start_idx, d.end_idx))
    ∧ ∀ i, (step_simulation_cpp h current next n dt G softening num_threads).view next i
        = (step_simulation h current next n dt G softening num_threads).view next i := by
  refine ⟨step_simulation_cpp_eq h current next n dt G softening num_threads, ?_, fun i => ?_⟩
  · rw [threads_cpp_eq, thread_data_eq, List.map_map]
    rfl
  · rw [step_simulation_cpp_eq]

end CppClaims

section Concrete2


/-- C15, at a concrete input: the third of three records. -/
theorem init_bodies_bounds_witness :
    (0 : Int) < 32767 ∧ (∀ k, 0 ≤ rand_example k ∧ rand_example k ≤ 32767)
    ∧ (0 : Int) ≤ 2 ∧ (2 : Int) < 3
    ∧ ∃ x y vx vy m : ℚ,
      (init_bodies 32767 rand_example 0 3 pair_driver.heap).view 0 2
        = { x := .val x, y := .val y, vx := .val vx, vy := .val vy, m := .val m }
      ∧ (-1 ≤ x ∧ x ≤ 1) ∧ (-1 ≤ y ∧ y ≤ 1)
      ∧ (-(1 / 10) ≤ vx ∧ vx ≤ 1 / 10) ∧ (-(1 / 10) ≤ vy ∧ vy ≤ 1 / 10)
      ∧ (1 / 2 ≤ m ∧ m ≤ 5) ∧ 0 < m := by
  have hr : ∀ k, 0 ≤ rand_example k ∧ rand_example k ≤ 32767 := by
    intro k
    unfold rand_example
    omega
  exact ⟨by decide, hr, by decide, by decide,
    init_bodies_bounds 32767 rand_example 0 3 pair_driver.heap (by decide) hr 2 (by decide)
      (by decide)⟩

/-- C16, at a concrete input: body 0 of two bodies. -/
theorem velocity_reference_witness :
    ((0 : Int) + 2 ≤ 2 ∨ (2 : Int) + 2 ≤ 0) ∧ (0 : Int) ≤ 0 ∧ (0 : Int) < 2
    ∧ ((step_simulation pair_driver.heap 0 2 2 (.val (1 / 1000)) (.val 1) (.val (1 / 100))
        8).view 2 0).vx
      = (pair_driver.heap.view 0 0).vx
        + (reference_force (pair_driver.heap.view 0) 2 (.val 1) (.val (1 / 100)) 0).1
          / (pair_driver.heap.view 0 0).m * .val (1 / 1000) :=
  ⟨by decide, by decide, by decide,
   (velocity_reference pair_driver.heap 0 2 2 (.val (1 / 1000)) (.val 1) (.val (1 / 100)) 8
      (by decide) 0 (by decide) (by decide)).1⟩

/-- C17, at a concrete input: the two bodies at `x = -1` and `x = 1`. -/
theorem momentum_conserved_witness :
    ((0 : Int) + 2 ≤ 2 ∨ (2 : Int) + 2 ≤ 0) ∧ (1 / 100 : ℚ) ≠ 0
    ∧ (∀ i : Int, 0 ≤ i → i < 2 → (1 : ℚ) ≠ 0)
    ∧ (∀ r : ℚ, 0 < r → 0 < HasSqrt.sqrt r)
    ∧ (∀ i, 0 ≤ i → i < 2 →
        pair_driver.heap.view 0 i
          = finite_state (fun i => if i = 0 then (-1 : ℚ) else 1) (fun _ => 0) (fun _ => 0)
              (fun _ => 0) (fun _ => 1) i)
    ∧ ∃ VX' VY' : Int → ℚ,
      (∀ i, 0 ≤ i → i < 2 →
        ((step_simulation pair_driver.heap 0 2 2 (.val (1 / 1000)) (.val 1) (.val (1 / 100))
            8).view 2 i).vx = .val (VX' i)
        ∧ ((step_simulation pair_driver.heap 0 2 2 (.val (1 / 1000)) (.val 1) (.val (1 / 100))
            8).view 2 i).vy = .val (VY' i)
        ∧ ((step_simulation pair_driver.heap 0 2 2 (.val (1 / 1000)) (.val 1) (.val (1 / 100))
            8).view 2 i).m = .val 1)
      ∧ ∑ i ∈ Finset.range 2, (1 : ℚ) * VX' i = 0
      ∧ ∑ i ∈ Finset.range 2, (1 : ℚ) * VY' i = 0 := by
  have hc : ∀ i, 0 ≤ i → i < 2 →
      pair_driver.heap.view 0 i
        = finite_state (fun i => if i = 0 then (-1 : ℚ) else 1) (fun _ => 0) (fun _ => 0)
            (fun _ => 0) (fun _ => 1) i := by
    intro i h0 h2
    interval_cases i <;> rfl
  obtain ⟨VX', VY', h1, h2, h3⟩ :=
    (momentum_conserved pair_driver.heap 0 2 2 1 (1 / 100) (1 / 1000) 8
      (fun i => if i = 0 then (-1 : ℚ) else 1) (fun _ => 0) (fun _ => 0) (fun _ => 0)
      (fun _ => 1) (by decide) (by norm_num) (fun _ _ _ => one_ne_zero) rat_sqrt_pos hc).2
  refine ⟨by decide, by norm_num, fun _ _ _ => one_ne_zero, rat_sqrt_pos, hc, VX', VY', h1,
    ?_, ?_⟩
  · exact h2.trans (by simp)
  · exact h3.trans (by simp)

/-- How the two validations treat some command lines. -/
theorem main_examples :
    main_c id ["nbody".toList, "100".toList] = .simulate 100 false
    ∧ main_c id ["nbody".toList] = .exit 1
    ∧ main_c id ["nbody".toList, "abc".toList] = .exit 1
    ∧ main_c id ["nbody".toList, "0".toList] = .exit 1
    ∧ main_c id ["nbody".toList, "-5".toList] = .exit 1
    ∧ main_c id ["nbody".toList, "5".toList, "--gpu".toList] = .exit 1
    ∧ main_cpp ["nbody".toList, "100".toList, "--gpu".toList] = .simulate 100 true
    ∧ main_cpp ["nbody".toList, "x".toList] = .exit 1
    ∧ main_cpp ["nbody".toList, "99999999999".toList] = .exit 1 := by
  decide

end Concrete2


section DoubleDriving

variable {α : Type} [Scalar α]

/-- One body, for every arithmetic: as long as adding the acceleration of the zero force
leaves the velocity as it is, every step keeps velocity and mass and adds the product of
velocity and time step to the position. -/
theorem run_single (d : Driver α) (dt G softening : α) (num_threads : Int) (k : Nat)
    (hd : d.current ≠ d.next)
    (hvx : (d.heap.view d.current 0).vx + 0 / (d.heap.view d.current 0).m * dt
      = (d.heap.view d.current 0).vx)
    (hvy : (d.heap.view d.current 0).vy + 0 / (d.heap.view d.current 0).m * dt
      = (d.heap.view d.current 0).vy) :
    (run k 1 dt G softening num_threads d).current
        ≠ (run k 1 dt G softening num_threads d).next
    ∧ (run k 1 dt G softening num_threads d).heap.view
          (run k 1 dt G softening num_threads d).current 0
        = { x := (fun x => x + (d.heap.view d.current 0).vx * dt)^[k]
                   (d.heap.view d.current 0).x,
            y := (fun y => y + (d.heap.view d.current 0).vy * dt)^[k]
                   (d.heap.view d.current 0).y,
            vx := (d.heap.view d.current 0).vx,
            vy := (d.heap.view d.current 0).vy,
            m := (d.heap.view d.current 0).m } := by
  induction k with
  | zero =>
    refine ⟨hd, ?_⟩
    rw [Nat.cast_zero, run_zero]
    rfl
  | succ k ih =>
    obtain ⟨hsep, hrec⟩ := ih
    rw [Nat.cast_succ, run_succ]
    refine ⟨fun e => hsep e.symm, ?_⟩
    simp only [step_and_swap]
    rw [step_simulation_next _ _ _ _ _ _ _ _ (by omega) 0 le_rfl (by norm_num), kernel_single,
      hrec]
    simp only [hvx, hvy, Function.iterate_succ_apply']


/-- The iteration `j ≠ i` of the force loop, for every arithmetic. -/
theorem accumulate_ne {α : Type} [Scalar α] (current : Int → body_t α) (i j : Int)
    (G softening m_i : α) (F : α × α) (hij : j ≠ i) :
    accumulate current i G softening m_i j F
      = (F.1 + G * m_i * (current j).m
            / (((current j).x - (current i).x) * ((current j).x - (current i).x)
              + ((current j).y - (current i).y) * ((current j).y - (current i).y)
              + softening * softening)
            * (((current j).x - (current i).x)
              / Scalar.sqrt (((current j).x - (current i).x) * ((current j).x - (current i).x)
                + ((current j).y - (current i).y) * ((current j).y - (current i).y)
                + softening * softening)),
         F.2 + G * m_i * (current j).m
            / (((current j).x - (current i).x) * ((current j).x - (current i).x)
              + ((current j).y - (current i).y) * ((current j).y - (current i).y)
              + softening * softening)
            * (((current j).y - (current i).y)
              / Scalar.sqrt (((current j).x - (current i).x) * ((current j).x - (current i).x)
                + ((current j).y - (current i).y) * ((current j).y - (current i).y)
                + softening * softening))) := by
  simp only [accumulate, if_neg hij]


end DoubleDriving

section DoubleRuns

set_option maxRecDepth 100000

/-- In `double`, the body `{0, 0, 1, 0, 1}` is at `x = 1.0000000000000007` after 100 steps
of `0.01`. -/
theorem moving_double_run :
    (run 100 1 DT G SOFTENING 8 moving_double).heap.view
        (run 100 1 DT G SOFTENING 8 moving_double).current 0
      = { x := .ofBits 0x3FF0000000000003, y := 0, vx := .ofRatio 1 1, vy := 0,
          m := .ofRatio 1 1 } := by
  decide

/-- In `double`, the body `{0, 0, 0, 0, 1}` is unchanged after any number of steps. -/
theorem resting_double_run (k : Nat) :
    (run k 1 DT G SOFTENING 8 resting_double).heap.view
        (run k 1 DT G SOFTENING 8 resting_double).current 0
      = double_body 0 0 := by
  have h := (run_single resting_double DT G SOFTENING 8 k (by decide) (by decide) (by decide)).2
  rw [h]
  have e0 : resting_double.heap.view resting_double.current 0 = double_body 0 0 := rfl
  rw [e0]
  have f1 : (0 : Double) + (double_body 0 0).vx * DT = 0 := by decide
  have f2 : (0 : Double) + (double_body 0 0).vy * DT = 0 := by decide
  have g1 : (fun x : Double => x + (double_body 0 0).vx * DT)^[k] (double_body 0 0).x = 0 :=
    Function.iterate_fixed (f := fun x : Double => x + (double_body 0 0).vx * DT) (x := 0) f1 k
  have g2 : (fun y : Double => y + (double_body 0 0).vy * DT)^[k] (double_body 0 0).y = 0 :=
    Function.iterate_fixed (f := fun y : Double => y + (double_body 0 0).vy * DT) (x := 0) f2 k
  rw [g1, g2]
  rfl

/-- In `double`, two bodies that are mirror images of each other about the origin are so
after any number of iterations of the driver loop. -/
theorem run_mirrored_double (d : Driver Double) (dt G softening : Double) (num_threads : Int)
    (hd : d.current + 2 ≤ d.next ∨ d.next + 2 ≤ d.current)
    (h0 : mirrored_double (d.heap.view d.current 0) (d.heap.view d.current 1))
    (N_STEPS : Int) :
    mirrored_double
      ((run N_STEPS 2 dt G softening num_threads d).heap.view
        (run N_STEPS 2 dt G softening num_threads d).current 0)
      ((run N_STEPS 2 dt G softening num_threads d).heap.view
        (run N_STEPS 2 dt G softening num_threads d).current 1) := by
  have key := run_invariant
    (fun s : Driver Double => (s.current + 2 ≤ s.next ∨ s.next + 2 ≤ s.current)
      ∧ mirrored_double (s.heap.view s.current 0) (s.heap.view s.current 1))
    2 dt G softening num_threads ?_ N_STEPS d ⟨hd, h0⟩
  · exact key.2
  · rintro s ⟨h1, h2⟩
    refine ⟨?_, ?_⟩
    · simp only [step_and_swap]; omega
    · simp only [step_and_swap]
      rw [step_simulation_next _ _ _ _ _ _ _ _ h1 0 le_rfl (by norm_num),
        step_simulation_next _ _ _ _ _ _ _ _ h1 1 (by norm_num) (by norm_num)]
      exact kernel_mirrored_double _ dt G softening h2

theorem pair_double_mirrored :
    mirrored_double (pair_double.heap.view pair_double.current 0)
      (pair_double.heap.view pair_double.current 1) :=
  ⟨Or.inl rfl, Or.inr ⟨rfl, rfl⟩, Or.inr ⟨rfl, rfl⟩, Or.inr ⟨rfl, rfl⟩, rfl⟩

/-- In `double`, with `G = 1`, softening `0.01` and `dt = 0.001`: the first step takes the
bodies at rest at `x = -1` and `x = 1` to `x = -0.9999999...` and `x = 0.9999999...`, the same
number but for the sign, and leaves them on the x-axis. -/
theorem pair_double_first_step :
    (run 1 2 (.ofRatio 1 1000) G (.ofRatio 1 100) 8 pair_double).heap.view
        (run 1 2 (.ofRatio 1 1000) G (.ofRatio 1 100) 8 pair_double).current 0
      = { x := .ofBits 0xBFEFFFFF79C98CD2, y := 0, vx := .ofBits 0x3F3062258F5837E3, vy := 0,
          m := .ofRatio 1 1 }
    ∧ (run 1 2 (.ofRatio 1 1000) G (.ofRatio 1 100) 8 pair_double).heap.view
        (run 1 2 (.ofRatio 1 1000) G (.ofRatio 1 100) 8 pair_double).current 1
      = { x := .ofBits 0x3FEFFFFF79C98CD2, y := 0, vx := .ofBits 0xBF3062258F5837E3, vy := 0,
          m := .ofRatio 1 1 } := by
  decide

theorem quad_exchanged_init (i : Int) (h0 : 0 ≤ i) (h4 : i < 4) :
    quad_driver_exchanged.heap.view quad_driver_exchanged.current i
      = quad_driver.heap.view quad_driver.current (exchange 0 3 i) := by
  interval_cases i <;> rfl

theorem quad_double_exchanged_init (i : Int) (h0 : 0 ≤ i) (h4 : i < 4) :
    quad_double_exchanged.heap.view quad_double_exchanged.current i
      = quad_double.heap.view quad_double.current (exchange 0 3 i) := by
  interval_cases i <;> rfl

theorem triple_double_exchanged_init (i : Int) (h0 : 0 ≤ i) (h3 : i < 3) :
    triple_double_exchanged.heap.view triple_double_exchanged.current i
      = triple_double.heap.view triple_double.current (exchange 0 2 i) := by
  interval_cases i <;> rfl

end DoubleRuns

section BallisticClaims

set_option maxRecDepth 100000

/-- C8 (amended). One body (`n = 1`), with `current` and `next` two buffers.
(1) For every arithmetic: when adding the acceleration of the zero force leaves the
initial velocity as it is (`vx0 + 0 / m * dt = vx0` and likewise for `vy0`), then after `k`
iterations of the driver loop velocity and mass are the initial ones, and the position is
the initial position to which the product of velocity and `dt` has been added `k` times,
one rounded sum after the other.
(2) In `double` that is so for a finite non-zero mass, a finite `dt` and finite velocity
components other than `-0.0`.
(3) In exact arithmetic and for a non-zero mass, the position is the initial position plus
`k * dt` times the velocity.
(4) In `double`, with the constants of `main.c`: the body `{0, 0, 1, 0, 1}` is after 100
steps of `0.01` at `x = 1.0000000000000007` (bit pattern `0x3FF0000000000003`, three units
in the last place above `1.0`) and `y = 0`, with velocity `(1, 0)` and mass 1; and (5) the
body `{0, 0, 0, 0, 1}` is unchanged after any number of steps. -/
theorem single_body_ballistic :
    (∀ (α : Type) [Scalar α] (d : Driver α) (dt G softening : α) (num_threads : Int) (k : Nat),
      d.current ≠ d.next →
      (d.heap.view d.current 0).vx + 0 / (d.heap.view d.current 0).m * dt
        = (d.heap.view d.current 0).vx →
      (d.heap.view d.current 0).vy + 0 / (d.heap.view d.current 0).m * dt
        = (d.heap.view d.current 0).vy →
      (run k 1 dt G softening num_threads d).heap.view
          (run k 1 dt G softening num_threads d).current 0
        = { x := (fun x => x + (d.heap.view d.current 0).vx * dt)^[k]
                   (d.heap.view d.current 0).x,
            y := (fun y => y + (d.heap.view d.current 0).vy * dt)^[k]
                   (d.heap.view d.current 0).y,
            vx := (d.heap.view d.current 0).vx,
            vy := (d.heap.view d.current 0).vy,
            m := (d.heap.view d.current 0).m })
    ∧ (∀ (d : Driver Double) (dt G softening : Double) (num_threads : Int) (k : Nat),
      d.current ≠ d.next →
      (d.heap.view d.current 0).m.isFinite = true →
      (d.heap.view d.current 0).m.isZero = false →
      dt.isFinite = true →
      (d.heap.view d.current 0).vx.isFinite = true →
      (d.heap.view d.current 0).vx.isValue = true →
      (d.heap.view d.current 0).vx ≠ .fin true 0 →
      (d.heap.view d.current 0).vy.isFinite = true →
      (d.heap.view d.current 0).vy.isValue = true →
      (d.heap.view d.current 0).vy ≠ .fin true 0 →
      (run k 1 dt G softening num_threads d).heap.view
          (run k 1 dt G softening num_threads d).current 0
        = { x := (fun x => x + (d.heap.view d.current 0).vx * dt)^[k]
                   (d.heap.view d.current 0).x,
            y := (fun y => y + (d.heap.view d.current 0).vy * dt)^[k]
                   (d.heap.view d.current 0).y,
            vx := (d.heap.view d.current 0).vx,
            vy := (d.heap.view d.current 0).vy,
            m := (d.heap.view d.current 0).m })
    ∧ (∀ (K : Type) [LinearOrderedField K] [HasSqrt K] (d : Driver (Num K))
        (x0 y0 vx0 vy0 m dt : K) (G softening : Num K) (num_threads : Int) (k : Nat),
      m ≠ 0 → d.current ≠ d.next →
      d.heap.view d.current 0
        = { x := .val x0, y := .val y0, vx := .val vx0, vy := .val vy0, m := .val m } →
      (run k 1 (.val dt) G softening num_threads d).heap.view
          (run k 1 (.val dt) G softening num_threads d).current 0
        = { x := .val (x0 + k * dt * vx0), y := .val (y0 + k * dt * vy0),
            vx := .val vx0, vy := .val vy0, m := .val m })
    ∧ (run 100 1 DT G SOFTENING 8 moving_double).heap.view
          (run 100 1 DT G SOFTENING 8 moving_double).current 0
        = { x := .ofBits 0x3FF0000000000003, y := 0, vx := .ofRatio 1 1, vy := 0,
            m := .ofRatio 1 1 }
    ∧ (∀ k : Nat,
        (run k 1 DT G SOFTENING 8 resting_double).heap.view
            (run k 1 DT G SOFTENING 8 resting_double).current 0
          = { x := 0, y := 0, vx := 0, vy := 0, m := .ofRatio 1 1 }) :=
  ⟨fun _ _ d dt G softening num_threads k hd hvx hvy =>
      (run_single d dt G softening num_threads k hd hvx hvy).2,
   fun d dt G softening num_threads k hd hm hm0 hdt hx1 hx2 hx3 hy1 hy2 hy3 =>
      (run_single d dt G softening num_threads k hd
        (Double.add_zero_force _ _ dt hx1 hx2 hx3 hm hm0 hdt)
        (Double.add_zero_force _ _ dt hy1 hy2 hy3 hm hm0 hdt)).2,
   fun _ _ _ d x0 y0 vx0 vy0 m dt G softening num_threads k hm hd h0 =>
      single_body_exact d x0 y0 vx0 vy0 m dt G softening num_threads k hm hd h0,
   moving_double_run,
   resting_double_run⟩

/-- C8, the claim as stated fails in `double`: the body `{0, 0, 1, 0, 1}` with `dt = 0.01`
is after 100 steps at `x = 1.0000000000000007` (bit pattern `0x3FF0000000000003`), whereas
the initial position plus `k * dt * v0`, computed in `double`, is `1.0` (bit pattern
`0x3FF0000000000000`) as the claim says. -/
theorem ballistic_position_rounded :
    ((run 100 1 DT G SOFTENING 8 moving_double).heap.view
        (run 100 1 DT G SOFTENING 8 moving_double).current 0).x = .ofBits 0x3FF0000000000003
    ∧ (0 + Double.ofRatio 100 1 * DT * Double.ofRatio 1 1 : Double) = .ofBits 0x3FF0000000000000
    ∧ Double.ofRatio 1 1 = .ofBits 0x3FF0000000000000
    ∧ ((run 100 1 DT G SOFTENING 8 moving_double).heap.view
        (run 100 1 DT G SOFTENING 8 moving_double).current 0).x
      ≠ 0 + Double.ofRatio 100 1 * DT * Double.ofRatio 1 1 := by
  have h := congrArg body_t.x moving_double_run
  refine ⟨h, by decide, by decide, ?_⟩
  rw [h]
  decide


/-- C8, at concrete inputs: the body `{0, 0, 1, 0, 1}` in `double`, for which adding the
acceleration of the zero force leaves the velocity as it is, and the same body in exact
arithmetic, which is at `x = 1` after 100 steps of `1/100`. -/
theorem single_body_ballistic_witness :
    moving_double.current ≠ moving_double.next
    ∧ (moving_double.heap.view moving_double.current 0).vx
        + 0 / (moving_double.heap.view moving_double.current 0).m * DT
      = (moving_double.heap.view moving_double.current 0).vx
    ∧ (moving_double.heap.view moving_double.current 0).vy
        + 0 / (moving_double.heap.view moving_double.current 0).m * DT
      = (moving_double.heap.view moving_double.current 0).vy
    ∧ ((run 100 1 DT G SOFTENING 8 moving_double).heap.view
          (run 100 1 DT G SOFTENING 8 moving_double).current 0).vx
        = (moving_double.heap.view moving_double.current 0).vx
    ∧ (1 : ℚ) ≠ 0 ∧ moving_driver.current ≠ moving_driver.next
    ∧ (run 100 1 (.val (1 / 100)) (.val 1) (.val (1 / 1000)) 8 moving_driver).heap.view
        (run 100 1 (.val (1 / 100)) (.val 1) (.val (1 / 1000)) 8 moving_driver).current 0
      = { x := .val 1, y := .val 0, vx := .val 1, vy := .val 0, m := .val 1 } := by
  refine ⟨by decide, by decide, by decide, ?_, one_ne_zero, by decide, ?_⟩
  · have h := single_body_ballistic.1 Double moving_double DT G SOFTENING 8 100 (by decide)
      (by decide) (by decide)
    have h2 := congrArg body_t.vx h
    exact h2
  · have h := single_body_ballistic.2.2.1 ℚ moving_driver 0 0 1 0 1 (1 / 100) (.val 1)
      (.val (1 / 1000)) 8 100 one_ne_zero (by decide) rfl
    norm_num at h
    exact h

end BallisticClaims

section SwapClaims

set_option maxRecDepth 100000

/-- C9 (amended). Two runs with buffers that do not overlap; the initial buffer of the
second is the initial buffer of the first with bodies `a` and `b` exchanged.  Then after
any number of iterations of the driver loop the authoritative buffer of the second run is
that of the first with bodies `a` and `b` exchanged,
(1) in every arithmetic in which a sum of three terms does not change when the last two
are exchanged (`u + v + w = u + w + v`), for any number of bodies;
(2) in exact arithmetic, which is such, for any number of bodies;
(3) in `double` for at most three bodies, where each force is a sum of at most two terms
(all NaNs counted as one value). -/
theorem swap_symmetry :
    (∀ (α : Type) [Scalar α], (∀ u v w : α, u + v + w = u + w + v) →
      ∀ (d d' : Driver α) (n : Int) (dt G softening : α) (num_threads : Int) (a b : Int),
      (0 ≤ a ∧ a < n) → (0 ≤ b ∧ b < n) →
      (d.current + n ≤ d.next ∨ d.next + n ≤ d.current) →
      (d'.current + n ≤ d'.next ∨ d'.next + n ≤ d'.current) →
      (∀ i, 0 ≤ i → i < n →
        d'.heap.view d'.current i = d.heap.view d.current (exchange a b i)) →
      ∀ (N_STEPS : Int) (i : Int), 0 ≤ i → i < n →
        (run N_STEPS n dt G softening num_threads d').heap.view
            (run N_STEPS n dt G softening num_threads d').current i
          = (run N_STEPS n dt G softening num_threads d).heap.view
            (run N_STEPS n dt G softening num_threads d).current (exchange a b i))
    ∧ (∀ (K : Type) [LinearOrderedField K] [HasSqrt K]
        (d d' : Driver (Num K)) (n : Int) (dt G softening : Num K) (num_threads : Int)
        (a b : Int),
      (0 ≤ a ∧ a < n) → (0 ≤ b ∧ b < n) →
      (d.current + n ≤ d.next ∨ d.next + n ≤ d.current) →
      (d'.current + n ≤ d'.next ∨ d'.next + n ≤ d'.current) →
      (∀ i, 0 ≤ i → i < n →
        d'.heap.view d'.current i = d.heap.view d.current (exchange a b i)) →
      ∀ (N_STEPS : Int) (i : Int), 0 ≤ i → i < n →
        (run N_STEPS n dt G softening num_threads d').heap.view
            (run N_STEPS n dt G softening num_threads d').current i
          = (run N_STEPS n dt G softening num_threads d).heap.view
            (run N_STEPS n dt G softening num_threads d).current (exchange a b i))
    ∧ (∀ (d d' : Driver Double) (n : Int) (dt G softening : Double) (num_threads : Int)
        (a b : Int),
      n ≤ 3 → (0 ≤ a ∧ a < n) → (0 ≤ b ∧ b < n) →
      (d.current + n ≤ d.next ∨ d.next + n ≤ d.current) →
      (d'.current + n ≤ d'.next ∨ d'.next + n ≤ d'.current) →
      (∀ i, 0 ≤ i → i < n →
        d'.heap.view d'.current i = d.heap.view d.current (exchange a b i)) →
      ∀ (N_STEPS : Int) (i : Int), 0 ≤ i → i < n →
        (run N_STEPS n dt G softening num_threads d').heap.view
            (run N_STEPS n dt G softening num_threads d').current i
          = (run N_STEPS n dt G softening num_threads d).heap.view
            (run N_STEPS n dt G softening num_threads d).current (exchange a b i)) :=
  ⟨fun _ _ hadd d d' n dt G softening num_threads a b ha hb hd hd' hinit N_STEPS i hi0 hin =>
      run_exchange n dt G softening a b ha hb
        (fun c j _ => kernel_exchange hadd a b n ha hb c dt G softening j)
        d d' num_threads hd hd' hinit N_STEPS i hi0 hin,
   fun _ _ _ d d' n dt G softening num_threads a b ha hb hd hd' hinit N_STEPS i hi0 hin =>
      run_exchange n dt G softening a b ha hb
        (fun c j _ => kernel_exchange num_add_right_comm a b n ha hb c dt G softening j)
        d d' num_threads hd hd' hinit N_STEPS i hi0 hin,
   fun d d' n dt G softening num_threads a b hn ha hb hd hd' hinit N_STEPS i hi0 hin =>
      run_exchange n dt G softening a b ha hb
        (fun c j hj => kernel_exchange_small a b n hn ha hb c dt G softening j hj)
        d d' num_threads hd hd' hinit N_STEPS i hi0 hin⟩

/-- C9, at concrete inputs: four bodies in exact arithmetic, the first and the last
exchanged, 1000 steps; and three bodies in `double` with the constants of `main.c`, the
first and the last exchanged, 1000 steps. -/
theorem swap_symmetry_witness :
    ((0 : Int) ≤ 0 ∧ (0 : Int) < 4) ∧ ((0 : Int) ≤ 3 ∧ (3 : Int) < 4)
    ∧ (quad_driver.current + 4 ≤ quad_driver.next ∨ quad_driver.next + 4 ≤ quad_driver.current)
    ∧ (quad_driver_exchanged.current + 4 ≤ quad_driver_exchanged.next
        ∨ quad_driver_exchanged.next + 4 ≤ quad_driver_exchanged.current)
    ∧ (∀ i, 0 ≤ i → i < 4 →
        quad_driver_exchanged.heap.view quad_driver_exchanged.current i
          = quad_driver.heap.view quad_driver.current (exchange 0 3 i))
    ∧ (run 1000 4 (.val (1 / 100)) (.val 1) (.val (1 / 1000)) 8 quad_driver_exchanged).heap.view
        (run 1000 4 (.val (1 / 100)) (.val 1) (.val (1 / 1000)) 8 quad_driver_exchanged).current 1
      = (run 1000 4 (.val (1 / 100)) (.val 1) (.val (1 / 1000)) 8 quad_driver).heap.view
        (run 1000 4 (.val (1 / 100)) (.val 1) (.val (1 / 1000)) 8 quad_driver).current
          (exchange 0 3 1)
    ∧ (3 : Int) ≤ 3 ∧ ((0 : Int) ≤ 0 ∧ (0 : Int) < 3) ∧ ((0 : Int) ≤ 2 ∧ (2 : Int) < 3)
    ∧ (triple_double.current + 3 ≤ triple_double.next
        ∨ triple_double.next + 3 ≤ triple_double.current)
    ∧ (triple_double_exchanged.current + 3 ≤ triple_double_exchanged.next
        ∨ triple_double_exchanged.next + 3 ≤ triple_double_exchanged.current)
    ∧ (∀ i, 0 ≤ i → i < 3 →
        triple_double_exchanged.heap.view triple_double_exchanged.current i
          = triple_double.heap.view triple_double.current (exchange 0 2 i))
    ∧ (run 1000 3 DT G SOFTENING 8 triple_double_exchanged).heap.view
        (run 1000 3 DT G SOFTENING 8 triple_double_exchanged).current 1
      = (run 1000 3 DT G SOFTENING 8 triple_double).heap.view
        (run 1000 3 DT G SOFTENING 8 triple_double).current (exchange 0 2 1) :=
  ⟨by decide, by decide, by decide, by decide, quad_exchanged_init,
    swap_symmetry.2.1 ℚ quad_driver quad_driver_exchanged 4 (.val (1 / 100))
      (.val 1) (.val (1 / 1000)) 8 0 3 (by decide) (by decide) (by decide) (by decide)
      quad_exchanged_init 1000 1 (by decide) (by decide),
    by decide, by decide, by decide, by decide, by decide, triple_double_exchanged_init,
    swap_symmetry.2.2 triple_double triple_double_exchanged 3 DT G SOFTENING 8 0 2 (by decide)
      (by decide) (by decide) (by decide) (by decide) triple_double_exchanged_init 1000 1
      (by decide) (by decide)⟩

/-- C9, the claim as stated fails in `double`: four bodies of mass 1 at rest at
`x = 0, 1, 2, 4`, with the constants of `main.c`.  When bodies 0 and 3 are exchanged in the
initial state, body 1 has after one step the velocity `0x3F52345645B37D9F`, and in the
run that is not exchanged `0x3F52345645B37D9E`: the two forces on it are added in the other
order. -/
theorem swap_changes_last_bit :
    (∀ i, 0 ≤ i → i < 4 →
      quad_double_exchanged.heap.view quad_double_exchanged.current i
        = quad_double.heap.view quad_double.current (exchange 0 3 i))
    ∧ ((run 1 4 DT G SOFTENING 8 quad_double).heap.view
        (run 1 4 DT G SOFTENING 8 quad_double).current (exchange 0 3 1)).vx
      = .ofBits 0x3f52345645b37d9e
    ∧ ((run 1 4 DT G SOFTENING 8 quad_double_exchanged).heap.view
        (run 1 4 DT G SOFTENING 8 quad_double_exchanged).current 1).vx
      = .ofBits 0x3f52345645b37d9f
    ∧ (run 1 4 DT G SOFTENING 8 quad_double_exchanged).heap.view
        (run 1 4 DT G SOFTENING 8 quad_double_exchanged).current 1
      ≠ (run 1 4 DT G SOFTENING 8 quad_double).heap.view
        (run 1 4 DT G SOFTENING 8 quad_double).current (exchange 0 3 1) := by
  have h1 : ((run 1 4 DT G SOFTENING 8 quad_double).heap.view
        (run 1 4 DT G SOFTENING 8 quad_double).current (exchange 0 3 1)).vx
      = .ofBits 0x3f52345645b37d9e := by decide
  have h2 : ((run 1 4 DT G SOFTENING 8 quad_double_exchanged).heap.view
        (run 1 4 DT G SOFTENING 8 quad_double_exchanged).current 1).vx
      = .ofBits 0x3f52345645b37d9f := by decide
  refine ⟨quad_double_exchanged_init, h1, h2, fun e => ?_⟩
  have e' := congrArg body_t.vx e
  rw [h1, h2] at e'
  exact absurd e' (by decide)


end SwapClaims

section MirrorClaims

set_option maxRecDepth 100000

/-- C10 (amended). Two bodies, with buffers that do not overlap.  In exact arithmetic:
(1) If the two bodies are mirror images of each other about a centre (positions reflected,
velocities opposite, masses equal), they are so after any number of iterations of the
driver loop.
(2) With a non-zero softening and equal non-zero masses, two bodies at `c - p` and `c + p`
with velocities `-u` and `u` are, after any number of iterations, at `c - p'` and `c + p'`
with velocities `-u'` and `u'`: they move by equal and opposite amounts.
(3) For two bodies of equal positive mass at rest at `x = -1` and `x = 1` on the x-axis, with
`G > 0`, a non-zero softening and a non-zero time step: after any number of iterations the
bodies are at `(-a, 0)` and `(a, 0)` with velocities `(-u, 0)` and `(u, 0)`, so the y
coordinates are unchanged, and after the first iteration the x coordinates are `-1 + δ`
and `1 - δ` with the same `δ > 0`; moreover `δ < 2`, so both bodies are strictly closer
to 0 than before, when the root of every `r ≥ 1` is at least 1 and `G * m * dt * dt < 4`.
In `double`:
(4) If the two bodies are mirror images of each other about the origin (positions and
velocities opposite up to the sign of a zero, or NaN together; masses equal), they are so
after any number of iterations of the driver loop.
(5) With `G = 1`, softening `0.01` and `dt = 0.001`, the first step takes two bodies of
mass 1 at rest at `x = -1` and `x = 1` to `x = -0.9999999...` and `x = 0.9999999...` (bit
patterns `0xBFEFFFFF79C98CD2` and `0x3FEFFFFF79C98CD2`), the same number but for the sign,
with opposite velocities, and leaves the y coordinates `0.0`. -/
theorem two_body_mirror :
    (∀ (K : Type) [LinearOrderedField K] [HasSqrt K] (d : Driver (Num K))
        (dt G softening : Num K) (num_threads : Int),
      (d.current + 2 ≤ d.next ∨ d.next + 2 ≤ d.current) →
        (∀ cx cy : K, mirrored cx cy (d.heap.view d.current 0) (d.heap.view d.current 1) →
          ∀ N_STEPS : Int,
            mirrored cx cy
              ((run N_STEPS 2 dt G softening num_threads d).heap.view
                (run N_STEPS 2 dt G softening num_threads d).current 0)
              ((run N_STEPS 2 dt G softening num_threads d).heap.view
                (run N_STEPS 2 dt G softening num_threads d).current 1))
        ∧ (∀ cx cy px py ux uy g m s t : K, m ≠ 0 → s ≠ 0 →
            (∀ r : K, 0 < r → 0 < HasSqrt.sqrt r) →
            G = .val g → softening = .val s → dt = .val t →
            d.heap.view d.current 0
              = { x := .val (cx - px), y := .val (cy - py), vx := .val (-ux), vy := .val (-uy),
                  m := .val m } →
            d.heap.view d.current 1
              = { x := .val (cx + px), y := .val (cy + py), vx := .val ux, vy := .val uy,
                  m := .val m } →
            ∀ N_STEPS : Int, ∃ px' py' ux' uy' : K,
              (run N_STEPS 2 dt G softening num_threads d).heap.view
                  (run N_STEPS 2 dt G softening num_threads d).current 0
                = { x := .val (cx - px'), y := .val (cy - py'), vx := .val (-ux'),
                    vy := .val (-uy'), m := .val m }
              ∧ (run N_STEPS 2 dt G softening num_threads d).heap.view
                  (run N_STEPS 2 dt G softening num_threads d).current 1
                = { x := .val (cx + px'), y := .val (cy + py'), vx := .val ux',
                    vy := .val uy', m := .val m })
        ∧ (∀ g m s t : K, 0 < g → 0 < m → s ≠ 0 → t ≠ 0 →
            (∀ r : K, 0 < r → 0 < HasSqrt.sqrt r) →
            G = .val g → softening = .val s → dt = .val t →
            d.heap.view d.current 0
              = { x := .val (-1), y := .val 0, vx := .val 0, vy := .val 0, m := .val m } →
            d.heap.view d.current 1
              = { x := .val 1, y := .val 0, vx := .val 0, vy := .val 0, m := .val m } →
            (∀ N_STEPS : Int, ∃ a u : K,
              (run N_STEPS 2 dt G softening num_threads d).heap.view
                  (run N_STEPS 2 dt G softening num_threads d).current 0
                = { x := .val (-a), y := .val 0, vx := .val (-u), vy := .val 0, m := .val m }
              ∧ (run N_STEPS 2 dt G softening num_threads d).heap.view
                  (run N_STEPS 2 dt G softening num_threads d).current 1
                = { x := .val a, y := .val 0, vx := .val u, vy := .val 0, m := .val m })
            ∧ (∃ δ : K, 0 < δ
              ∧ ((run 1 2 dt G softening num_threads d).heap.view
                  (run 1 2 dt G softening num_threads d).current 0).x = .val (-1 + δ)
              ∧ ((run 1 2 dt G softening num_threads d).heap.view
                  (run 1 2 dt G softening num_threads d).current 1).x = .val (1 - δ)
              ∧ ((∀ r : K, 1 ≤ r → 1 ≤ HasSqrt.sqrt r) → g * m * (t * t) < 4 → δ < 2))))
    ∧ (∀ (d : Driver Double) (dt G softening : Double) (num_threads : Int),
        (d.current + 2 ≤ d.next ∨ d.next + 2 ≤ d.current) →
        mirrored_double (d.heap.view d.current 0) (d.heap.view d.current 1) →
        ∀ N_STEPS : Int,
          mirrored_double
            ((run N_STEPS 2 dt G softening num_threads d).heap.view
              (run N_STEPS 2 dt G softening num_threads d).current 0)
            ((run N_STEPS 2 dt G softening num_threads d).heap.view
              (run N_STEPS 2 dt G softening num_threads d).current 1))
    ∧ ((run 1 2 (.ofRatio 1 1000) G (.ofRatio 1 100) 8 pair_double).heap.view
          (run 1 2 (.ofRatio 1 1000) G (.ofRatio 1 100) 8 pair_double).current 0
        = { x := .ofBits 0xBFEFFFFF79C98CD2, y := 0, vx := .ofBits 0x3F3062258F5837E3,
            vy := 0, m := .ofRatio 1 1 }
      ∧ (run 1 2 (.ofRatio 1 1000) G (.ofRatio 1 100) 8 pair_double).heap.view
          (run 1 2 (.ofRatio 1 1000) G (.ofRatio 1 100) 8 pair_double).current 1
        = { x := .ofBits 0x3FEFFFFF79C98CD2, y := 0, vx := .ofBits 0xBF3062258F5837E3,
            vy := 0, m := .ofRatio 1 1 }) :=
  ⟨fun _ _ _ d dt G softening num_threads hd => two_body_mirror_exact d dt G softening num_threads hd,
   fun d dt G softening num_threads hd h0 N_STEPS =>
     run_mirrored_double d dt G softening num_threads hd h0 N_STEPS,
   pair_double_first_step⟩

/-- C10, the claim as stated fails in `double`: two bodies of mass 1 at rest at `x = 1` and
`x = 3`, mirror images of each other about the centre of mass `x = 2`, with `G = 1`,
softening `0.01` and `dt = 0.001`.  After one step they are at `0x3FF00000431B3997` and
`0x4007FFFFDE726335`: body 0 has moved by `0x3E90C6CE65C00000` and body 1 by
`0x3E90C6CE65800000`, which is less; their distances to the centre, `0x3FEFFFFF79C98CD2` and
`0x3FEFFFFF79C98CD4`, differ by two units in the last place (all differences are exact), and
the reflection `4 - x` of the position of body 0 is not the position of body 1. -/
theorem mirror_off_centre_lost :
    ((run 1 2 (.ofRatio 1 1000) G (.ofRatio 1 100) 8 pair_double_off_centre).heap.view
        (run 1 2 (.ofRatio 1 1000) G (.ofRatio 1 100) 8 pair_double_off_centre).current 0).x
      = .ofBits 0x3FF00000431B3997
    ∧ ((run 1 2 (.ofRatio 1 1000) G (.ofRatio 1 100) 8 pair_double_off_centre).heap.view
        (run 1 2 (.ofRatio 1 1000) G (.ofRatio 1 100) 8 pair_double_off_centre).current 1).x
      = .ofBits 0x4007FFFFDE726335
    ∧ (Double.ofBits 0x3FF00000431B3997 - Double.ofRatio 1 1 : Double)
      = .ofBits 0x3E90C6CE65C00000
    ∧ (Double.ofRatio 3 1 - Double.ofBits 0x4007FFFFDE726335 : Double)
      = .ofBits 0x3E90C6CE65800000
    ∧ (Double.ofRatio 2 1 - Double.ofBits 0x3FF00000431B3997 : Double)
      = .ofBits 0x3FEFFFFF79C98CD2
    ∧ (Double.ofBits 0x4007FFFFDE726335 - Double.ofRatio 2 1 : Double)
      = .ofBits 0x3FEFFFFF79C98CD4
    ∧ (Double.ofRatio 4 1 - Double.ofBits 0x3FF00000431B3997 : Double)
      ≠ Double.ofBits 0x4007FFFFDE726335 := by
  decide

/-- C10, at concrete inputs.  In exact arithmetic: the bodies at `x = -1` and `x = 1` with
`G = 1`, softening `1/100` and `dt = 1/1000` are mirror images after 50 steps, and after
the first step they are at `-1 + δ` and `1 - δ` for one `δ` with `0 < δ < 2`.  In `double`:
the bodies at `x = -1` and `x = 1` are mirror images about the origin after the 1000 steps
of `main.c`. -/
theorem two_body_mirror_witness :
    (pair_driver.current + 2 ≤ pair_driver.next ∨ pair_driver.next + 2 ≤ pair_driver.current)
    ∧ mirrored 0 0
        ((run 50 2 (.val (1 / 1000)) (.val 1) (.val (1 / 100)) 8 pair_driver).heap.view
          (run 50 2 (.val (1 / 1000)) (.val 1) (.val (1 / 100)) 8 pair_driver).current 0)
        ((run 50 2 (.val (1 / 1000)) (.val 1) (.val (1 / 100)) 8 pair_driver).heap.view
          (run 50 2 (.val (1 / 1000)) (.val 1) (.val (1 / 100)) 8 pair_driver).current 1)
    ∧ (∃ δ : ℚ, 0 < δ ∧ δ < 2
        ∧ ((run 1 2 (.val (1 / 1000)) (.val 1) (.val (1 / 100)) 8 pair_driver).heap.view
            (run 1 2 (.val (1 / 1000)) (.val 1) (.val (1 / 100)) 8 pair_driver).current 0).x
          = .val (-1 + δ)
        ∧ ((run 1 2 (.val (1 / 1000)) (.val 1) (.val (1 / 100)) 8 pair_driver).heap.view
            (run 1 2 (.val (1 / 1000)) (.val 1) (.val (1 / 100)) 8 pair_driver).current 1).x
          = .val (1 - δ))
    ∧ (pair_double.current + 2 ≤ pair_double.next ∨ pair_double.next + 2 ≤ pair_double.current)
    ∧ mirrored_double (pair_double.heap.view pair_double.current 0)
        (pair_double.heap.view pair_double.current 1)
    ∧ mirrored_double
        ((run 1000 2 DT G SOFTENING 8 pair_double).heap.view
          (run 1000 2 DT G SOFTENING 8 pair_double).current 0)
        ((run 1000 2 DT G SOFTENING 8 pair_double).heap.view
          (run 1000 2 DT G SOFTENING 8 pair_double).current 1) := by
  have h := two_body_mirror.1 ℚ pair_driver (.val (1 / 1000)) (.val 1) (.val (1 / 100)) 8
    (by decide)
  obtain ⟨δ, h1, h2, h3, h4⟩ := (h.2.2 1 1 (1 / 100) (1 / 1000) one_pos one_pos (by norm_num)
    (by norm_num) rat_sqrt_pos rfl rfl rfl rfl rfl).2
  exact ⟨by decide, h.1 0 0 pair_mirrored 50,
    ⟨δ, h1, h4 rat_sqrt_one_le (by norm_num), h2, h3⟩,
    by decide, pair_double_mirrored,
    two_body_mirror.2.1 pair_double DT G SOFTENING 8 (by decide) pair_double_mirrored 1000⟩

end MirrorClaims

section SofteningClaims

set_option maxRecDepth 100000

/-- C14 (amended).  (1) In `double`, for bodies `i ≠ j` with finite coordinates, which may
coincide, and a softening whose square is not rounded to zero (`sigma * sigma > 0` as
computed, which asks more than `sigma ≠ 0`): the softened squared distance
`dx*dx + dy*dy + sigma*sigma` is greater than zero, and so is its root, so neither division
of the iteration `j` of the force loop is a division by zero.  (2) The softenings of
`main.c` (`1e-3`) and of `main.cpp` (`0.1`) are such.  (3) In exact arithmetic, for finite
coordinates and masses and a softening `sigma ≠ 0`, the softened squared distance and its
root are strictly positive, and the iteration `j` of the force loop adds a finite force to
a finite sum. -/
theorem softened_force_finite :
    (∀ (current : Int → body_t Double) (G softening m_i : Double) (i j : Int)
        (F : Double × Double),
      j ≠ i →
      (current i).x.isFinite = true → (current i).y.isFinite = true →
      (current j).x.isFinite = true → (current j).y.isFinite = true →
      (softening * softening).positive = true →
      Double.positive (((current j).x - (current i).x) * ((current j).x - (current i).x)
          + ((current j).y - (current i).y) * ((current j).y - (current i).y)
          + softening * softening) = true
      ∧ Double.positive (Scalar.sqrt (((current j).x - (current i).x) * ((current j).x - (current i).x)
          + ((current j).y - (current i).y) * ((current j).y - (current i).y)
          + softening * softening)) = true
      ∧ accumulate current i G softening m_i j F
        = (F.1 + G * m_i * (current j).m
              / (((current j).x - (current i).x) * ((current j).x - (current i).x)
          + ((current j).y - (current i).y) * ((current j).y - (current i).y)
          + softening * softening)
              * (((current j).x - (current i).x)
                / Scalar.sqrt (((current j).x - (current i).x) * ((current j).x - (current i).x)
          + ((current j).y - (current i).y) * ((current j).y - (current i).y)
          + softening * softening)),
           F.2 + G * m_i * (current j).m
              / (((current j).x - (current i).x) * ((current j).x - (current i).x)
          + ((current j).y - (current i).y) * ((current j).y - (current i).y)
          + softening * softening)
              * (((current j).y - (current i).y)
                / Scalar.sqrt (((current j).x - (current i).x) * ((current j).x - (current i).x)
          + ((current j).y - (current i).y) * ((current j).y - (current i).y)
          + softening * softening))))
    ∧ ((SOFTENING * SOFTENING).positive = true
      ∧ (Double.ofRatio 1 10 * Double.ofRatio 1 10 : Double).positive = true)
    ∧ (∀ (K : Type) [LinearOrderedField K] [HasSqrt K] (current : Int → body_t (Num K))
        (X Y VX VY M : Int → K) (g s : K) (i j : Int),
      j ≠ i → s ≠ 0 → (∀ r : K, 0 < r → 0 < HasSqrt.sqrt r) →
      current i = finite_state X Y VX VY M i →
      current j = finite_state X Y VX VY M j →
      ∀ Fx Fy : K,
        0 < (X j - X i) * (X j - X i) + (Y j - Y i) * (Y j - Y i) + s * s
        ∧ 0 < HasSqrt.sqrt ((X j - X i) * (X j - X i) + (Y j - Y i) * (Y j - Y i) + s * s)
        ∧ accumulate current i (.val g) (.val s) (.val (M i)) j (.val Fx, .val Fy)
          = (.val (Fx + g * M i * M j
                / ((X j - X i) * (X j - X i) + (Y j - Y i) * (Y j - Y i) + s * s)
                * ((X j - X i) / HasSqrt.sqrt
                    ((X j - X i) * (X j - X i) + (Y j - Y i) * (Y j - Y i) + s * s))),
             .val (Fy + g * M i * M j
                / ((X j - X i) * (X j - X i) + (Y j - Y i) * (Y j - Y i) + s * s)
                * ((Y j - Y i) / HasSqrt.sqrt
                    ((X j - X i) * (X j - X i) + (Y j - Y i) * (Y j - Y i) + s * s))))) :=
  ⟨fun current G softening m_i i j F hij hxi hyi hxj hyj hs =>
      ⟨(Double.dist2_positive _ _ _ _ softening hxi hyi hxj hyj hs).1,
       (Double.dist2_positive _ _ _ _ softening hxi hyi hxj hyj hs).2,
       accumulate_ne current i j G softening m_i F hij⟩,
   ⟨by decide, by decide⟩,
   fun _ _ _ current X Y VX VY M g s i j hij hs hrt hi hj Fx Fy =>
      softened_force_exact current X Y VX VY M g s i j hij hs hrt hi hj Fx Fy⟩

/-- C14, the claim as stated fails in `double`: the softening `1e-200` is not zero, but its
square is rounded to zero.  For two bodies at the same place the softened squared distance
is then `0.0`, both divisions are divisions by zero, the pairwise force is NaN, and so is
the new velocity. -/
theorem softening_underflow :
    tiny_softening = .ofBits 0x16687E92154EF7AC
    ∧ tiny_softening.isZero = false
    ∧ (tiny_softening * tiny_softening : Double) = 0
    ∧ (((coincident_double 1).x - (coincident_double 0).x)
          * ((coincident_double 1).x - (coincident_double 0).x)
        + ((coincident_double 1).y - (coincident_double 0).y)
          * ((coincident_double 1).y - (coincident_double 0).y)
        + tiny_softening * tiny_softening : Double) = 0
    ∧ accumulate coincident_double 0 G tiny_softening (coincident_double 0).m 1 (0, 0)
      = (.nan, .nan)
    ∧ (kernel coincident_double 2 DT G tiny_softening 0).vx = .nan := by
  decide


/-- C14, at concrete inputs.  In `double`: two coincident bodies and the softening `1e-3`
of `main.c`; the softened squared distance is greater than zero.  In exact arithmetic: two
coincident bodies and the softening `1/100`; the force loop adds the finite force
`(0, 0)`. -/
theorem softened_force_finite_witness :
    (1 : Int) ≠ 0
    ∧ (coincident_double 0).x.isFinite = true ∧ (coincident_double 0).y.isFinite = true
    ∧ (coincident_double 1).x.isFinite = true ∧ (coincident_double 1).y.isFinite = true
    ∧ (SOFTENING * SOFTENING).positive = true
    ∧ Double.positive
        (((coincident_double 1).x - (coincident_double 0).x)
            * ((coincident_double 1).x - (coincident_double 0).x)
          + ((coincident_double 1).y - (coincident_double 0).y)
            * ((coincident_double 1).y - (coincident_double 0).y)
          + SOFTENING * SOFTENING) = true
    ∧ (1 / 100 : ℚ) ≠ 0 ∧ (∀ r : ℚ, 0 < r → 0 < HasSqrt.sqrt r)
    ∧ (0 : ℚ) < (0 - 0) * (0 - 0) + (0 - 0) * (0 - 0) + 1 / 100 * (1 / 100)
    ∧ accumulate coincident 0 (.val 1) (.val (1 / 100)) (.val 1) 1 (.val 0, .val 0)
      = (.val 0, .val 0) := by
  have hd := softened_force_finite.1 coincident_double G SOFTENING (coincident_double 0).m 0 1
    (0, 0) (by decide) (by decide) (by decide) (by decide) (by decide) (by decide)
  have h := softened_force_finite.2.2 ℚ coincident (fun _ => (0 : ℚ)) (fun _ => 0) (fun _ => 0)
    (fun _ => 0) (fun _ => 1) 1 (1 / 100) 0 1 (by decide) (by norm_num) rat_sqrt_pos rfl rfl 0 0
  refine ⟨by decide, by decide, by decide, by decide, by decide, by decide, hd.1,
    by norm_num, rat_sqrt_pos, h.1, ?_⟩
  have h3 := h.2.2
  simp only [sub_self, zero_div, mul_zero, add_zero] at h3
  exact h3

end SofteningClaims
end NBody
